import Mathlib

/-
Verification development for the receiptline core: the column-layout
algorithm, the line parser, the cross-line rule state machine
(src/parse.ts), the barcode encoders (src/barcode.ts) and the transform
pipeline (src/index.ts), shallowly embedded from the TypeScript source.
Strings are modelled as `List Char`, JS numbers as `ℤ`/`ℕ` (all relevant
arithmetic is integral), the printer's command sink as an abstract
instruction list, and JS exceptions (such as `[].reduce` with no initial
value) as `Option.none`.
-/

namespace Receiptline

/- ## Column layout: the shrink-and-distribute step of `createLine`
   (src/parse.ts lines 444-477). -/

/-- Greatest element of a list, `0` for `[]` (only used on nonempty lists). -/
def maxD (l : List ℤ) : ℤ := l.max?.getD 0

/-- One iteration body of the shrink loop.  The JS
`f.reduce((a, el) => a.width > el.width ? a : el)` keeps the accumulator only
when strictly wider, so ties resolve to the LAST maximal element; its width is
decremented in place. -/
def decLastMax : List ℤ → List ℤ
  | [] => []
  | a :: rest =>
    if rest = [] then [a - 1]
    else if a > maxD rest then (a - 1) :: rest
    else a :: decLastMax rest

/-- The loop `while (n > v) { f.reduce(...).width--; v++; }` increments `v`
once per iteration, so it runs exactly `(n - v).toNat` times; entering the
body with `f = []` is the JS `TypeError` from `[].reduce` with no initial
value, modelled as `none`. -/
def shrinkGo : ℕ → List ℤ → ℤ → Option (List ℤ × ℤ)
  | 0, f, v => some (f, v)
  | k + 1, f, v => if f = [] then none else shrinkGo k (decLastMax f) (v + 1)

/-- The shrink step of `createLine`: reduce the width of fixed columns while
the number `n` of variable columns exceeds the free width `v`. -/
def shrink (n : ℕ) (f : List ℤ) (v : ℤ) : Option (List ℤ × ℤ) :=
  shrinkGo (n - v).toNat f v

/-- Free-width distribution over the `n` variable columns:
`g.forEach((el, i) => el.width = Math.floor((v + i) / n))`. -/
def distribute (v : ℤ) (n : ℕ) : List ℤ :=
  (List.range n).map fun i : ℕ => Int.fdiv (v + (i : ℤ)) n

/-- Border overhead subtracted from the free width
(`v -= column.border < 0 ? columns.length + 1 : (columns.length - 1) * column.border`,
applied only when `text && columns.length > 0`). -/
def borderOverhead (text : Bool) (border : ℤ) (k : ℕ) : ℤ :=
  if text ∧ 0 < k then (if border < 0 then (k : ℤ) + 1 else ((k : ℤ) - 1) * border) else 0

/-- Reassemble the per-column widths after the shrink and distribute steps:
originally positive entries take the shrunk fixed widths in order, originally
negative entries take the distributed flexible widths in order. -/
def mergeWidths : List ℤ → List ℤ → List ℤ → List ℤ
  | [], _, _ => []
  | w :: ws, fs, gs =>
    if 0 < w then fs.headD w :: mergeWidths ws fs.tail gs
    else gs.headD w :: mergeWidths ws fs gs.tail

/-- Result of the width-allocation step of `createLine`. -/
structure LayoutResult where
  fixed : List ℤ
  merged : List ℤ
  v : ℤ
  left : ℤ
  width : ℤ
  right : ℤ
deriving DecidableEq, Repr

/-- Width allocation of `createLine` (src/parse.ts lines 450-477) on the
widths `ws` of the zero-filtered (and, for text lines, overflow-trimmed)
columns: fixed columns reserve their width, border overhead is subtracted
from the free width, the shrink loop runs, and the remaining free width is
distributed over the variable columns; finally the print area margins are
derived from the leftover `v` and the line alignment. -/
def layoutWidths (cpl : ℕ) (text : Bool) (border : ℤ) (alignment : ℕ)
    (ws : List ℤ) : Option LayoutResult :=
  let fixed := ws.filter fun w => 0 < w
  let n := (ws.filter fun w => w < 0).length
  let u := fixed.sum
  let v0 := (cpl : ℤ) - u - borderOverhead text border ws.length
  match shrink n fixed v0 with
  | none => none
  | some (f1, v1) =>
    let flex := if 0 < n then distribute v1 n else []
    let v2 := if 0 < n then 0 else v1
    let left := Int.fdiv (v2 * alignment) 2
    some ⟨f1, mergeWidths ws f1 flex, v2, left, (cpl : ℤ) - v2, v2 - left⟩

theorem decLastMax_sum (f : List ℤ) (h : f ≠ []) :
    (decLastMax f).sum = f.sum - 1 := by
  induction f with
  | nil => exact absurd rfl h
  | cons a rest ih =>
    by_cases hr : rest = []
    · subst hr; simp [decLastMax]
    · by_cases hm : a > maxD rest
      · simp [decLastMax, hr, hm]; ring
      · simp [decLastMax, hr, hm, ih hr]; ring

theorem decLastMax_ne_nil (f : List ℤ) (h : f ≠ []) : decLastMax f ≠ [] := by
  induction f with
  | nil => exact absurd rfl h
  | cons a rest ih =>
    by_cases hr : rest = []
    · subst hr; simp [decLastMax]
    · by_cases hm : a > maxD rest <;> simp [decLastMax, hr, hm]

theorem shrinkGo_some (k : ℕ) :
    ∀ (f : List ℤ) (v : ℤ) (f1 : List ℤ) (v1 : ℤ),
    shrinkGo k f v = some (f1, v1) → f1.sum = f.sum - k ∧ v1 = v + k := by
  induction k with
  | zero =>
    intro f v f1 v1 h
    simp [shrinkGo] at h
    simp [h.1, h.2]
  | succ k ih =>
    intro f v f1 v1 h
    simp only [shrinkGo] at h
    by_cases hf : f = []
    · simp [hf] at h
    · simp only [hf, if_false] at h
      obtain ⟨h1, h2⟩ := ih (decLastMax f) (v + 1) f1 v1 h
      refine ⟨?_, by omega⟩
      rw [h1, decLastMax_sum f hf]
      push_cast
      ring

theorem shrink_some (n : ℕ) (f : List ℤ) (v : ℤ) (f1 : List ℤ) (v1 : ℤ)
    (h : shrink n f v = some (f1, v1)) :
    f1.sum + v1 = f.sum + v ∧ (n : ℤ) ≤ v1 := by
  obtain ⟨h1, h2⟩ := shrinkGo_some (n - v).toNat f v f1 v1 h
  constructor
  · rw [h1, h2]; ring
  · omega

/-- C1.  For every line processed by the layout step, after the shrink loop
the sum of the remaining fixed column widths plus the border overhead is at
most the configured characters per line. -/
theorem c1_fixed_plus_overhead_le_cpl (cpl : ℕ) (text : Bool) (border : ℤ)
    (alignment : ℕ) (ws : List ℤ) (lay : LayoutResult)
    (h : layoutWidths cpl text border alignment ws = some lay) :
    lay.fixed.sum + borderOverhead text border ws.length ≤ (cpl : ℤ) := by
  simp only [layoutWidths] at h
  split at h
  · exact absurd h (by simp)
  next f1 v1 hs =>
    simp only [Option.some.injEq] at h
    obtain ⟨hsum, hge⟩ := shrink_some _ _ _ f1 v1 hs
    have hfst : lay.fixed = f1 := by rw [← h]
    rw [hfst]
    have hv1 : (0 : ℤ) ≤ v1 := le_trans (by positivity) hge
    omega

/-- Witness for C1 at a concrete input: two columns `[3, -1]` at `cpl = 10`
with space borders on a text line. -/
theorem c1_witness :
    layoutWidths 10 true 1 1 [3, -1] =
      some ⟨[3], [3, 6], 0, 0, 10, 0⟩ ∧
    (LayoutResult.fixed ⟨[3], [3, 6], 0, 0, 10, 0⟩).sum +
      borderOverhead true 1 [(3 : ℤ), -1].length ≤ (10 : ℤ) := by
  constructor
  · decide
  · exact c1_fixed_plus_overhead_le_cpl 10 true 1 1 [3, -1] _ (by decide)

/- ## C3: exactness of the flexible-width distribution. -/

theorem distribute_length (v : ℤ) (n : ℕ) : (distribute v n).length = n := by
  unfold distribute
  rw [List.length_map, List.length_range]

theorem distribute_entry (v : ℤ) (n : ℕ) (i : ℕ) (hi : i < n) :
    (distribute v n).getD i 0 = Int.fdiv (v + i) n := by
  have hlen : i < (distribute v n).length := by rw [distribute_length]; exact hi
  rw [List.getD_eq_getElem _ _ hlen]
  unfold distribute
  simp [List.getElem_map]

theorem distribute_fdiv_nat (v : ℕ) (n : ℕ) (i : ℕ) :
    Int.fdiv ((v : ℤ) + i) n = ((v + i) / n : ℕ) := by
  have h1 : ((v : ℤ) + i) = ((v + i : ℕ) : ℤ) := by push_cast; ring
  rw [h1, ← Int.ofNat_fdiv]

theorem list_sum_range_add_div (n : ℕ) (hn : 1 ≤ n) (v : ℕ) :
    ((List.range n).map fun i => (v + i) / n).sum = v := by
  induction v with
  | zero =>
    apply List.sum_eq_zero
    intro x hx
    simp only [List.mem_map, List.mem_range] at hx
    obtain ⟨i, hi, rfl⟩ := hx
    simp [Nat.div_eq_of_lt hi]
  | succ v ih =>
    have e1 : ((List.range n).map fun i => (v + 1 + i) / n)
        = (List.range n).map fun i => (v + (i + 1)) / n := by
      apply List.map_congr_left
      intro i _
      congr 1
      ring
    have e2 : ((List.range (n + 1)).map fun i => (v + i) / n).sum
        = (v + 0) / n + ((List.range n).map fun i => (v + (i + 1)) / n).sum := by
      rw [List.range_succ_eq_map, List.map_cons, List.sum_cons, List.map_map]
      rfl
    have e3 : ((List.range (n + 1)).map fun i => (v + i) / n).sum
        = ((List.range n).map fun i => (v + i) / n).sum + (v + n) / n := by
      rw [List.range_succ]
      simp
    have e4 : (v + n) / n = v / n + 1 := Nat.add_div_right v (by omega)
    have e5 : (v + 0) / n = v / n := by rw [Nat.add_zero]
    rw [e1]
    omega

theorem list_natCast_sum (l : List ℕ) :
    ((l.map fun k : ℕ => (k : ℤ)).sum) = (l.sum : ℤ) := by
  induction l with
  | nil => simp
  | cons a t ih =>
    rw [List.map_cons, List.sum_cons, ih, List.sum_cons]
    push_cast
    ring

/-- C3.  With `N ≥ 1` flexible columns and free width `V ≥ 0` (the shrink
loop guarantees `V ≥ N` at the distribution step), the i-th flexible column
receives `⌊(V+i)/N⌋`; the distributed widths sum to exactly `V` and no two
differ by more than 1. -/
theorem c3_distribute_exact (v : ℤ) (n : ℕ) (hn : 1 ≤ n) (hv : 0 ≤ v) :
    (distribute v n).length = n ∧
    (∀ i, i < n → (distribute v n).getD i 0 = Int.fdiv (v + i) n) ∧
    (distribute v n).sum = v ∧
    (∀ i j, i < n → j < n →
      (distribute v n).getD i 0 ≤ (distribute v n).getD j 0 + 1) := by
  obtain ⟨m, rfl⟩ := Int.eq_ofNat_of_zero_le hv
  refine ⟨distribute_length _ n, fun i hi => distribute_entry _ n i hi, ?_, ?_⟩
  · have hmap : distribute (m : ℤ) n
        = ((List.range n).map fun i => (m + i) / n).map fun k : ℕ => (k : ℤ) := by
      unfold distribute
      rw [List.map_map]
      apply List.map_congr_left
      intro i _
      exact distribute_fdiv_nat m n i
    rw [hmap, list_natCast_sum, list_sum_range_add_div n hn m]
  · intro i j hi hj
    rw [distribute_entry _ n i hi, distribute_entry _ n j hj,
      distribute_fdiv_nat m n i, distribute_fdiv_nat m n j]
    have : (m + i) / n ≤ (m + j) / n + 1 := by
      have h1 : m + i ≤ m + j + n := by omega
      have h2 : (m + i) / n ≤ (m + j + n) / n := Nat.div_le_div_right h1
      rw [Nat.add_div_right _ (by omega)] at h2
      exact h2
    exact_mod_cast this

/-- Witness for C3 at `V = 7`, `N = 3`: widths `[2, 2, 3]`. -/
theorem c3_witness :
    (1 ≤ 3 ∧ (0 : ℤ) ≤ 7) ∧
    ((distribute 7 3).length = 3 ∧
     (∀ i, i < 3 → (distribute 7 3).getD i 0 = Int.fdiv (7 + i) 3) ∧
     (distribute 7 3).sum = 7 ∧
     (∀ i j, i < 3 → j < 3 →
       (distribute 7 3).getD i 0 ≤ (distribute 7 3).getD j 0 + 1)) :=
  ⟨⟨by omega, by omega⟩, c3_distribute_exact 7 3 (by omega) (by omega)⟩


/- ## Barcode encoders (src/barcode.ts) -/

/-- Barcode symbology tags (the TS union `BarcodeSymbolType`). -/
inductive BarType
  | upc | ean | jan | code39 | itf | codabar | nw7 | code93 | code128
deriving DecidableEq, Repr

/-- A barcode request (`BarcodeSymbol`): payload `data`, module `width`,
module `height`, HRI flag and quiet-zone flag. -/
structure BarcodeSymbol where
  btype : BarType
  data : List Char
  hri : Bool
  width : ℕ
  height : ℕ
  quietZone : Bool
deriving DecidableEq, Repr

/-- A barcode result (`BarcodeResult`): every field is optional and absent
(`none`) in the empty result produced for a payload that the validation
deletes entirely.  Width entries are optional because
`m.split('').map(c => parseInt(c, 16) * symbol.width)` yields `NaN` (`none`)
for the characters of an `undefined` rendered into `m`. -/
structure BarcodeResult where
  hri : Option Bool := none
  text : Option (List Char) := none
  widths : Option (List (Option ℕ)) := none
  length : Option ℤ := none
  height : Option ℕ := none
deriving DecidableEq, Repr

/-- The empty result `{}`. -/
def emptyResult : BarcodeResult := {}

def isDigitCh (c : Char) : Bool := 48 ≤ c.toNat && c.toNat ≤ 57

def digitVal (c : Char) : ℕ := c.toNat - 48

def digitChar (d : ℕ) : Char := Char.ofNat (48 + d)

/-- Alternating weighted digit sum: weight `w0` at even indices, `w1` at odd
indices.  `d.reduce((a, c, i) => a + c * ((i % 2) * 2 + 1))` (no seed, so the
first element carries factor 1 = its even-index weight) is `altSum 1 3`, and
`d.reduce((a, c, i) => a + c * (3 - (i % 2) * 2), 0)` is `altSum 3 1`. -/
def altSum (w0 w1 : ℕ) : List ℕ → ℕ
  | [] => 0
  | d :: rest => d * w0 + altSum w1 w0 rest

/-- ECMAScript line terminators (LF, CR, LS, PS), the characters a regular
expression `.` does not match. -/
def isLineTermCh (c : Char) : Bool :=
  c.toNat = 10 || c.toNat = 13 || c.toNat = 8232 || c.toNat = 8233

/-- `data.replace(/((?!^PAT$).)*/, '')` where `ok` decides a full match of
`PAT` against the whole string: on a full match the negative lookahead fails
at position 0, the first `.` cannot be taken and the match is empty, leaving
the string unchanged; otherwise `^PAT$` succeeds nowhere (at 0 it just
failed, elsewhere `^` cannot match), so the greedy `.`-run consumes — and
the replacement deletes — everything before the first line terminator.  The
remnant from that line terminator on survives: the whole string when it
starts with one, nothing when it contains none. -/
def jsValidate (ok : List Char → Bool) (s : List Char) : List Char :=
  if ok s then s else s.dropWhile fun c => !isLineTermCh c

/-- ECMAScript `StrWhiteSpace` code points (white space and line
terminators): `Number` of a string consisting of these alone is 0. -/
def isJsSpaceCh (c : Char) : Bool :=
  c.toNat = 9 || c.toNat = 10 || c.toNat = 11 || c.toNat = 12 || c.toNat = 13 ||
  c.toNat = 32 || c.toNat = 160 || c.toNat = 5760 ||
  (8192 ≤ c.toNat && c.toNat ≤ 8202) ||
  c.toNat = 8232 || c.toNat = 8233 || c.toNat = 8239 || c.toNat = 8287 ||
  c.toNat = 12288 || c.toNat = 65279

/-- An element slot of a JS number array: a (natural) number, `NaN`, or the
hole of a sparse array (assigning past the end creates holes, which `reduce`
skips and `join` renders as the empty string). -/
inductive JsCell
  | hole | nan | num (n : ℕ)
deriving DecidableEq, Repr

/-- `Number(c)` of a one-character string, as an array element: a digit's
value, 0 for white space (the trimmed numeric literal is empty), `NaN`
otherwise. -/
def jsCellOf (c : Char) : JsCell :=
  if isDigitCh c then .num (digitVal c)
  else if isJsSpaceCh c then .num 0
  else .nan

/-- `d[i] = v` on a JS array: replace in place, or extend with holes when
`i` is past the end. -/
def jsSetIdx (d : List JsCell) (i : ℕ) (v : JsCell) : List JsCell :=
  d.take i ++ List.replicate (i - d.length) JsCell.hole ++ [v] ++ d.drop (i + 1)

/-- `d.reduce((a, c, i) => a + c * wt(i), seed)` from index `i`: `reduce`
skips holes (their index still counts) and `NaN` poisons the sum. -/
def jsWSum (wt : ℕ → ℕ) : ℕ → List JsCell → Option ℕ
  | _, [] => some 0
  | i, .hole :: rest => jsWSum wt (i + 1) rest
  | _, .nan :: _ => none
  | i, .num n :: rest => (jsWSum wt (i + 1) rest).map (fun m => n * wt i + m)

/-- Seedless `d.reduce((a, c, i) => a + c * wt(i))`: the first present
element enters unweighted as the seed and iteration resumes at the next
index.  (A seedless `reduce` of an empty or all-hole array throws; every
array summed below has index 0 present, so the `some 0` placeholder for
that case is unreachable.) -/
def jsWSumNoSeedGo (wt : ℕ → ℕ) : ℕ → List JsCell → Option ℕ
  | _, [] => some 0
  | i, .hole :: rest => jsWSumNoSeedGo wt (i + 1) rest
  | _, .nan :: _ => none
  | i, .num n :: rest => (jsWSum wt (i + 1) rest).map (fun m => n + m)

def jsWSumNoSeed (wt : ℕ → ℕ) (d : List JsCell) : Option ℕ :=
  jsWSumNoSeedGo wt 0 d

/-- `(10 - x % 10) % 10` with `NaN` propagation. -/
def mod10chk : Option ℕ → JsCell
  | some m => .num ((10 - m % 10) % 10)
  | none => .nan

/-- One element of `d.join('')`: a hole renders as the empty string, `NaN`
as the characters `NaN`, a number in decimal. -/
def jsCellStr : JsCell → List Char
  | .hole => []
  | .nan => "NaN".toList
  | .num n => Nat.toDigits 10 n

/-- `d.join('')` (the element separator is empty). -/
def jsJoinCells (d : List JsCell) : List Char := d.flatMap jsCellStr

/-- String concatenation renders an `undefined` table entry as these nine
characters. -/
def jsUndef : List Char := "undefined".toList

/-- `parseInt(c, 16)` of a single character: a hexadecimal digit's value,
`NaN` (`none`) otherwise. -/
def parseIntHex (c : Char) : Option ℕ :=
  if isDigitCh c then some (digitVal c)
  else if 'A' ≤ c && c ≤ 'F' then some (c.toNat - 55)
  else if 'a' ≤ c && c ≤ 'f' then some (c.toNat - 87)
  else none

/-- `parseInt(c, 16) * width + 1 >> 1`: the shift coerces `NaN` to 0. -/
def jsHexShr1 (c : Char) (w : ℕ) : ℕ :=
  match parseIntHex c with
  | some v => (v * w + 1) / 2
  | none => 0

/-- The array index a cell provides to a nested table lookup: a number
indexes normally; `NaN` and `undefined` read `undefined` from the table,
and subscripting that `undefined` throws `TypeError`. -/
def cellIdx : JsCell → Option ℕ
  | .num n => some n
  | _ => none

/-- `d[i] ?? 0` used as an index: a hole (`undefined`) falls back to 0;
`NaN` is not nullish and passes through. -/
def cellIdxD0 : JsCell → Option ℕ
  | .hole => some 0
  | .num n => some n
  | .nan => none

/-- Reading `e[i]`: a hole or an index past the end reads `undefined`,
which the arithmetic below treats like `NaN`. -/
def cellAt (d : List JsCell) (i : ℕ) : JsCell :=
  match d.getD i JsCell.hole with
  | .hole => .nan
  | c => c

/-- Bar-pattern strings `a` (`'3211,2221,...'.split(',')`). -/
def eanAs : List (List Char) :=
  (["3211", "2221", "2122", "1411", "1132", "1231", "1114", "1312", "1213", "3112"].map
    String.toList)

/-- Bar-pattern strings `b`. -/
def eanBs : List (List Char) :=
  (["1123", "1222", "2212", "1141", "2311", "1321", "4111", "2131", "3121", "2113"].map
    String.toList)

/-- Table `c` has the same patterns as table `a` in the source. -/
def eanCs : List (List Char) := eanAs

/-- Guard-bar strings `g` (`'111,11111,111111,11,112'.split(',')`). -/
def eanGs : List (List Char) :=
  (["111", "11111", "111111", "11", "112"].map String.toList)

/-- EAN-13 parity table `p` (`'aaaaaa,aababb,...'`; `true` selects table
`b`). -/
def eanP : List (List Bool) := [[false, false, false, false, false, false], [false, false, true, false, true, true], [false, false, true, true, false, true], [false, false, true, true, true, false], [false, true, false, false, true, true], [false, true, true, false, false, true], [false, true, true, true, false, false], [false, true, false, true, false, true], [false, true, false, true, true, false], [false, true, true, false, true, false]]

/-- UPC-E parity table `e` (`true` selects table `b`). -/
def eanE : List (List Bool) := [[true, true, true, false, false, false], [true, true, false, true, false, false], [true, true, false, false, true, false], [true, true, false, false, false, true], [true, false, true, true, false, false], [true, false, false, true, true, false], [true, false, false, false, true, true], [true, false, true, false, true, false], [true, false, true, false, false, true], [true, false, false, true, false, true]]

/-- `ean[p][cell]` where `p` selects table `a` or `b`: a `NaN` or
`undefined` index, or one past the end, reads `undefined`, which `+=`
renders as the characters `undefined`. -/
def eanSelS (b : Bool) (cell : JsCell) : List Char :=
  match cell with
  | .num n => ((if b then eanBs else eanAs).get? n).getD jsUndef
  | _ => jsUndef

/-- `ean.c[cell]`. -/
def eanCsel (cell : JsCell) : List Char :=
  match cell with
  | .num n => (eanCs.get? n).getD jsUndef
  | _ => jsUndef

/-- `ean[p][d[i] ?? 0]`: a hole (`undefined`) falls back to index 0, `NaN`
passes through and reads `undefined`. -/
def eanSelD0 (b : Bool) (d : List JsCell) (i : ℕ) : List Char :=
  match d.getD i JsCell.hole with
  | .hole => eanSelS b (.num 0)
  | c => eanSelS b c

/-- `ean.c[d[i] ?? 0]`. -/
def eanCselD0 (d : List JsCell) (i : ℕ) : List Char :=
  match d.getD i JsCell.hole with
  | .hole => eanCsel (.num 0)
  | c => eanCsel c

/-- `^\d{12,13}$` full-match test of `ean13`. -/
def ean13valid (s : List Char) : Bool :=
  (s.length = 12 || s.length = 13) && s.all isDigitCh

/-- The digit sequence emitted by `ean13` for an all-digit payload:
`d[12] = 0` (appending for a 12-digit payload, overwriting for a 13-digit
one), then `d[12] = (10 - reduce(...) % 10) % 10`. -/
def ean13digits (d : List ℕ) : List ℕ :=
  d.take 12 ++ [(10 - altSum 1 3 (d.take 12 ++ [0]) % 10) % 10]

/-- The array after `d[12] = 0` (`d` is the `Number`-mapped survivor of the
validation replace). -/
def ean13cells (s : List Char) : List JsCell :=
  jsSetIdx (s.map jsCellOf) 12 (.num 0)

/-- The array after the check-digit store
`d[12] = (10 - d.reduce((a, c, i) => a + c * ((i % 2) * 2 + 1)) % 10) % 10`. -/
def ean13arr (s : List Char) : List JsCell :=
  jsSetIdx (ean13cells s) 12
    (mod10chk (jsWSumNoSeed (fun i => i % 2 * 2 + 1) (ean13cells s)))

/-- `m` of `ean13`: quiet `'b'`/`'0'`, guard, six parity-selected digit
patterns (`ean[ean.p[d[0]][i - 1]][d[i]]`), centre guard, six `c`-table
patterns, guard, quiet `'7'`/`'0'`. -/
def ean13mstr (q : Bool) (prow : List Bool) (d : List JsCell) : List Char :=
  (if q then ['b'] else ['0']) ++ eanGs.getD 0 []
    ++ ((List.range 6).flatMap fun i =>
          eanSelS (prow.getD i false) (d.getD (i + 1) JsCell.hole))
    ++ eanGs.getD 1 []
    ++ ((List.range 6).flatMap fun i => eanCsel (d.getD (i + 7) JsCell.hole))
    ++ eanGs.getD 0 [] ++ (if q then ['7'] else ['0'])

/-- `ean13` (EAN-13 / JAN-13).  `ean.p[d[0]]` is only a string when `d[0]`
is a digit 0-9; for `NaN` it is `undefined` and `undefined[i - 1]` throws
`TypeError` (`none`) — unreachable, since the first character of a validated
payload is a digit and a surviving remnant starts with a line terminator
(`Number` 0). -/
def ean13 (symbol : BarcodeSymbol) : Option BarcodeResult :=
  if (jsValidate ean13valid symbol.data).length = 0 then some {} else
  ((cellIdx ((ean13arr (jsValidate ean13valid symbol.data)).getD 0 JsCell.hole)).bind
    fun p0 => eanP.get? p0).map fun prow =>
    { hri := some symbol.hri
      text := some (jsJoinCells (ean13arr (jsValidate ean13valid symbol.data)))
      widths := some ((ean13mstr symbol.quietZone prow
        (ean13arr (jsValidate ean13valid symbol.data))).map
        fun c => (parseIntHex c).map (· * symbol.width))
      length := some ((symbol.width : ℤ) * (if symbol.quietZone then 113 else 95))
      height := some symbol.height }

/-- `^\d{7,8}$` full-match test of `ean8`. -/
def ean8valid (s : List Char) : Bool :=
  (s.length = 7 || s.length = 8) && s.all isDigitCh

/-- The digit sequence emitted by `ean8` for an all-digit payload (weights
3,1 with seed 0). -/
def ean8digits (d : List ℕ) : List ℕ :=
  d.take 7 ++ [(10 - altSum 3 1 (d.take 7 ++ [0]) % 10) % 10]

/-- The array after `d[7] = 0`. -/
def ean8cells (s : List Char) : List JsCell :=
  jsSetIdx (s.map jsCellOf) 7 (.num 0)

/-- The array after
`d[7] = (10 - d.reduce((a, c, i) => a + c * (3 - (i % 2) * 2), 0) % 10) % 10`. -/
def ean8arr (s : List Char) : List JsCell :=
  jsSetIdx (ean8cells s) 7
    (mod10chk (jsWSum (fun i => 3 - i % 2 * 2) 0 (ean8cells s)))

/-- `m` of `ean8`: both digit loops guard the index with `?? 0`
(`ean.a[d[i] ?? 0]`, `ean.c[d[i] ?? 0]`), so `ean8` never throws. -/
def ean8mstr (q : Bool) (d : List JsCell) : List Char :=
  (if q then ['7'] else ['0']) ++ eanGs.getD 0 []
    ++ ((List.range 4).flatMap fun i => eanSelD0 false d i)
    ++ eanGs.getD 1 []
    ++ ((List.range 4).flatMap fun i => eanCselD0 d (i + 4))
    ++ eanGs.getD 0 [] ++ (if q then ['7'] else ['0'])

/-- `ean8` (EAN-8 / JAN-8). -/
def ean8 (symbol : BarcodeSymbol) : BarcodeResult :=
  if (jsValidate ean8valid symbol.data).length = 0 then {} else
  { hri := some symbol.hri
    text := some (jsJoinCells (ean8arr (jsValidate ean8valid symbol.data)))
    widths := some ((ean8mstr symbol.quietZone
      (ean8arr (jsValidate ean8valid symbol.data))).map
      fun c => (parseIntHex c).map (· * symbol.width))
    length := some ((symbol.width : ℤ) * (if symbol.quietZone then 81 else 67))
    height := some symbol.height }

/-- `if (r.text) { r.text = r.text.slice(1); }`: slice off the first HRI
character when the text is present and truthy (a present empty string is
falsy and left alone). -/
def upcaSlice (r : BarcodeResult) : BarcodeResult :=
  match r.text with
  | some (_ :: t) => { r with text := some t }
  | _ => r

/-- `upca`: delegate to `ean13` on `'0' + data` and drop the leading HRI
digit; an exception from `ean13` propagates. -/
def upca (symbol : BarcodeSymbol) : Option BarcodeResult :=
  (ean13 { symbol with btype := BarType.ean, data := '0' :: symbol.data }).map upcaSlice

/-- `upcetoa` on the JS array: `e.slice(0, 3)` preserves holes (which the
later seeded `reduce` skips), while values read out of holes are pushed as
`undefined` — dense entries the `reduce` visits and that poison the sum like
`NaN`.  `switch (e[6])` matches no case on `NaN` or `undefined` (strict
equality) and falls through to `default`. -/
def upcetoaJs (e : List JsCell) : List JsCell :=
  let x6 := cellAt e 6
  let t :=
    if x6 = .num 0 || x6 = .num 1 || x6 = .num 2 then
      [x6, .num 0, .num 0, .num 0, .num 0, cellAt e 3, cellAt e 4, cellAt e 5]
    else if x6 = .num 3 then
      [cellAt e 3, .num 0, .num 0, .num 0, .num 0, .num 0, cellAt e 4, cellAt e 5]
    else if x6 = .num 4 then
      [cellAt e 3, cellAt e 4, .num 0, .num 0, .num 0, .num 0, .num 0, cellAt e 5]
    else
      [cellAt e 3, cellAt e 4, cellAt e 5, .num 0, .num 0, .num 0, .num 0, x6]
  e.take 3 ++ t ++ [cellAt e 7]

/-- `^0\d{6,7}$` full-match test of `upce`. -/
def upcevalid (s : List Char) : Bool :=
  (s.length = 7 || s.length = 8) && s.all isDigitCh && s.headD ' ' = '0'

/-- The array after `d[7] = 0`. -/
def upcecells (s : List Char) : List JsCell :=
  jsSetIdx (s.map jsCellOf) 7 (.num 0)

/-- The array after
`d[7] = (10 - upcetoa(d).reduce((a, c, i) => a + c * (3 - (i % 2) * 2), 0) % 10) % 10`. -/
def upcearr (s : List Char) : List JsCell :=
  jsSetIdx (upcecells s) 7
    (mod10chk (jsWSum (fun i => 3 - i % 2 * 2) 0 (upcetoaJs (upcecells s))))

/-- `m` of `upce`: six parity-selected digit patterns
(`ean[ean.e[d[7] ?? 0][i - 1]][d[i] ?? 0]`) between the left guard and the
long right guard `g[2]`. -/
def upcemstr (q : Bool) (erow : List Bool) (d : List JsCell) : List Char :=
  (if q then ['7'] else ['0']) ++ eanGs.getD 0 []
    ++ ((List.range 6).flatMap fun i => eanSelD0 (erow.getD i false) d (i + 1))
    ++ eanGs.getD 2 [] ++ (if q then ['7'] else ['0'])

/-- `upce`.  `d[7]` was just assigned a number or `NaN` (never `undefined`),
so its `?? 0` cannot fire; a `NaN` check digit makes `ean.e[NaN]` read
`undefined` and `undefined[i - 1]` throws `TypeError` (`none`) — reachable,
e.g. from a remnant containing a letter. -/
def upce (symbol : BarcodeSymbol) : Option BarcodeResult :=
  if (jsValidate upcevalid symbol.data).length = 0 then some {} else
  ((cellIdxD0 ((upcearr (jsValidate upcevalid symbol.data)).getD 7 JsCell.hole)).bind
    fun e7 => eanE.get? e7).map fun erow =>
    { hri := some symbol.hri
      text := some (jsJoinCells (upcearr (jsValidate upcevalid symbol.data)))
      widths := some ((upcemstr symbol.quietZone erow
        (upcearr (jsValidate upcevalid symbol.data))).map
        fun c => (parseIntHex c).map (· * symbol.width))
      length := some ((symbol.width : ℤ) * (if symbol.quietZone then 65 else 51))
      height := some symbol.height }


/- ## C6: EAN-13 / UPC-A / EAN-8 checksum invariants. -/

theorem altSum_append (l : List ℕ) (x : ℕ) : ∀ w0 w1 : ℕ,
    altSum w0 w1 (l ++ [x]) = altSum w0 w1 l + x * (if Even l.length then w0 else w1) := by
  induction l with
  | nil => intro w0 w1; simp [altSum]
  | cons a t ih =>
    intro w0 w1
    by_cases he : Even t.length
    · simp [altSum, ih, he, Nat.even_add_one]
      ring
    · simp [altSum, ih, he, Nat.even_add_one]
      ring

theorem ean13digits_checksum (d : List ℕ) (h : 12 ≤ d.length) :
    altSum 1 3 (ean13digits d) % 10 = 0 := by
  have hT : (d.take 12).length = 12 := by
    rw [List.length_take]
    omega
  unfold ean13digits
  rw [altSum_append, altSum_append, hT]
  have he : Even 12 := by decide
  simp only [he, if_true]
  omega

theorem ean8digits_checksum (d : List ℕ) (h : 7 ≤ d.length) :
    altSum 3 1 (ean8digits d) % 10 = 0 := by
  have hT : (d.take 7).length = 7 := by
    rw [List.length_take]
    omega
  unfold ean8digits
  rw [altSum_append, altSum_append, hT]
  have he : ¬ Even 7 := by decide
  simp only [he, if_false]
  omega

theorem ean13valid_length (s : List Char) (h : ean13valid s = true) :
    s.length = 12 ∨ s.length = 13 := by
  unfold ean13valid at h
  simp only [Bool.and_eq_true, Bool.or_eq_true, decide_eq_true_eq] at h
  exact h.1

theorem ean8valid_length (s : List Char) (h : ean8valid s = true) :
    s.length = 7 ∨ s.length = 8 := by
  unfold ean8valid at h
  simp only [Bool.and_eq_true, Bool.or_eq_true, decide_eq_true_eq] at h
  exact h.1

theorem ean13valid_digits (s : List Char) (h : ean13valid s = true) :
    s.all isDigitCh = true := by
  unfold ean13valid at h
  simp only [Bool.and_eq_true] at h
  exact h.2

theorem ean8valid_digits (s : List Char) (h : ean8valid s = true) :
    s.all isDigitCh = true := by
  unfold ean8valid at h
  simp only [Bool.and_eq_true] at h
  exact h.2

theorem jsValidate_id (ok : List Char → Bool) (s : List Char) (h : ok s = true) :
    jsValidate ok s = s := by
  simp [jsValidate, h]

theorem map_jsCellOf_digits (s : List Char) (h : s.all isDigitCh = true) :
    s.map jsCellOf = (s.map digitVal).map JsCell.num := by
  induction s with
  | nil => rfl
  | cons c rest ih =>
    simp only [List.all_cons, Bool.and_eq_true] at h
    simp only [List.map_cons, jsCellOf, h.1, if_true, ih h.2]

theorem jsSetIdx_eq_append (d : List JsCell) (j : ℕ) (v : JsCell)
    (h1 : j ≤ d.length) (h2 : d.length ≤ j + 1) :
    jsSetIdx d j v = d.take j ++ [v] := by
  unfold jsSetIdx
  rw [show j - d.length = 0 from by omega, List.replicate_zero,
    List.drop_eq_nil_of_le (by omega : d.length ≤ j + 1)]
  simp

theorem jsWSum_map_num (wt : ℕ → ℕ) (hwt : ∀ i, wt (i + 2) = wt i) :
    ∀ (i : ℕ) (L : List ℕ),
      jsWSum wt i (L.map JsCell.num) = some (altSum (wt i) (wt (i + 1)) L)
  | _, [] => by simp [jsWSum, altSum]
  | i, n :: rest => by
    have hr := jsWSum_map_num wt hwt (i + 1) rest
    have h12 : i + 1 + 1 = i + 2 := by omega
    calc jsWSum wt i ((n :: rest).map JsCell.num)
        = (jsWSum wt (i + 1) (rest.map JsCell.num)).map (fun m => n * wt i + m) := rfl
      _ = (some (altSum (wt (i + 1)) (wt (i + 1 + 1)) rest)).map
            (fun m => n * wt i + m) := by rw [hr]
      _ = some (n * wt i + altSum (wt (i + 1)) (wt (i + 1 + 1)) rest) := rfl
      _ = some (n * wt i + altSum (wt (i + 1)) (wt i) rest) := by rw [h12, hwt i]
      _ = some (altSum (wt i) (wt (i + 1)) (n :: rest)) := rfl

theorem jsWSumNoSeed_map_num (wt : ℕ → ℕ) (hwt : ∀ i, wt (i + 2) = wt i)
    (n : ℕ) (rest : List ℕ) :
    jsWSumNoSeed wt ((n :: rest).map JsCell.num)
      = some (n + altSum (wt 1) (wt (1 + 1)) rest) := by
  have hr := jsWSum_map_num wt hwt 1 rest
  calc jsWSumNoSeed wt ((n :: rest).map JsCell.num)
      = (jsWSum wt (0 + 1) (rest.map JsCell.num)).map (fun m => n + m) := rfl
    _ = (jsWSum wt 1 (rest.map JsCell.num)).map (fun m => n + m) := rfl
    _ = some (n + altSum (wt 1) (wt (1 + 1)) rest) := by
        rw [hr]
        rfl

theorem toDigits10_single (n : ℕ) (h : n ≤ 9) : Nat.toDigits 10 n = [digitChar n] := by
  interval_cases n <;> decide

theorem jsJoinCells_map_num (L : List ℕ) (h : ∀ n ∈ L, n ≤ 9) :
    jsJoinCells (L.map JsCell.num) = L.map digitChar := by
  induction L with
  | nil => rfl
  | cons n rest ih =>
    have ih' := ih (fun m hm => h m (List.mem_cons_of_mem n hm))
    simp only [jsJoinCells, List.map_cons, List.flatMap_cons] at *
    rw [show jsCellStr (JsCell.num n) = Nat.toDigits 10 n from rfl,
      toDigits10_single n (h n (List.mem_cons_self n rest)), ih']
    rfl

theorem digitVal_le9 (c : Char) (h : isDigitCh c = true) : digitVal c ≤ 9 := by
  unfold isDigitCh at h
  simp only [Bool.and_eq_true, decide_eq_true_eq] at h
  unfold digitVal
  omega

theorem dv_all_le9 (s : List Char) (h : s.all isDigitCh = true) :
    ∀ n ∈ s.map digitVal, n ≤ 9 := by
  simp only [List.all_eq_true] at h
  intro n hn
  simp only [List.mem_map] at hn
  obtain ⟨c, hc, rfl⟩ := hn
  exact digitVal_le9 c (h c hc)

theorem chkdigit_le9 (x : ℕ) : (10 - x % 10) % 10 ≤ 9 :=
  Nat.le_of_lt_succ (Nat.mod_lt _ (by omega))

theorem eanP_le9 (n : ℕ) (h : n ≤ 9) : ∃ row, eanP.get? n = some row := by
  interval_cases n <;> exact ⟨_, rfl⟩

/-- On a validated (all-digit, length 12 or 13) payload the JS digit array
after both stores at index 12 is the number array `ean13digits` describes. -/
theorem ean13arr_valid (s : List Char) (h : ean13valid s = true) :
    ean13arr s = ((s.map digitVal).take 12
      ++ [(10 - altSum 1 3 ((s.map digitVal).take 12 ++ [0]) % 10) % 10]).map
        JsCell.num := by
  have hlen := ean13valid_length s h
  have hdig := ean13valid_digits s h
  have hcells := map_jsCellOf_digits s hdig
  have hlen' : (s.map digitVal).length = 12 ∨ (s.map digitVal).length = 13 := by
    simpa using hlen
  have hc : ean13cells s = ((s.map digitVal).take 12 ++ [0]).map JsCell.num := by
    unfold ean13cells
    rw [hcells, jsSetIdx_eq_append _ 12 _ (by
        simp only [List.length_map]
        omega)
      (by
        simp only [List.length_map]
        omega)]
    rw [← List.map_take, List.map_append]
    rfl
  have hT12 : ((s.map digitVal).take 12).length = 12 := by
    rw [List.length_take]
    omega
  have hsum : jsWSumNoSeed (fun i => i % 2 * 2 + 1) (ean13cells s)
      = some (altSum 1 3 ((s.map digitVal).take 12 ++ [0])) := by
    rw [hc]
    obtain ⟨m0, M, hM⟩ : ∃ m0 M, (s.map digitVal).take 12 ++ [0] = m0 :: M := by
      cases hT : (s.map digitVal).take 12 with
      | nil => exact ⟨0, [], by simp⟩
      | cons a t => exact ⟨a, t ++ [0], by simp⟩
    rw [hM, jsWSumNoSeed_map_num (fun i => i % 2 * 2 + 1)
      (fun i => show (i + 2) % 2 * 2 + 1 = i % 2 * 2 + 1 by omega)]
    have h1 : altSum 1 3 (m0 :: M) = m0 * 1 + altSum 3 1 M := rfl
    rw [h1, Nat.mul_one]
  unfold ean13arr
  rw [hsum, hc]
  rw [show mod10chk (some (altSum 1 3 ((s.map digitVal).take 12 ++ [0])))
    = JsCell.num ((10 - altSum 1 3 ((s.map digitVal).take 12 ++ [0]) % 10) % 10)
    from rfl]
  rw [jsSetIdx_eq_append _ 12 _ (by
      simp only [List.length_map, List.length_append, List.length_singleton, hT12]
      omega)
    (by
      simp only [List.length_map, List.length_append, List.length_singleton, hT12]
      omega)]
  rw [← List.map_take, List.take_left' hT12, List.map_append]
  rfl

/-- A validated EAN-13 payload produces a populated result whose HRI is the
recomputed digit string. -/
theorem ean13_valid_some (sym : BarcodeSymbol) (h : ean13valid sym.data = true) :
    ∃ r : BarcodeResult, ean13 sym = some r ∧
      r.text = some ((ean13digits (sym.data.map digitVal)).map digitChar) := by
  have hval := jsValidate_id ean13valid sym.data h
  have hlen := ean13valid_length sym.data h
  have hdig := ean13valid_digits sym.data h
  have hne : ¬ (sym.data.length = 0) := by omega
  have harr := ean13arr_valid sym.data h
  obtain ⟨v0, dvt, hdv⟩ : ∃ v0 dvt, sym.data.map digitVal = v0 :: dvt := by
    cases hd : sym.data.map digitVal with
    | nil =>
      exfalso
      have : (sym.data.map digitVal).length = 0 := by rw [hd]; rfl
      simp only [List.length_map] at this
      omega
    | cons a t => exact ⟨a, t, rfl⟩
  have hv0le : v0 ≤ 9 :=
    dv_all_le9 sym.data hdig v0 (by rw [hdv]; exact List.mem_cons_self _ _)
  obtain ⟨row, hrow⟩ := eanP_le9 v0 hv0le
  have hhead : (ean13arr sym.data).getD 0 JsCell.hole = JsCell.num v0 := by
    rw [harr, hdv, List.take_succ_cons]
    rfl
  have hstep : (cellIdx ((ean13arr sym.data).getD 0 JsCell.hole)).bind
      (fun p0 => eanP.get? p0) = some row := by
    rw [hhead]
    show eanP.get? v0 = some row
    exact hrow
  have hb : ∀ n ∈ (sym.data.map digitVal).take 12
      ++ [(10 - altSum 1 3 ((sym.data.map digitVal).take 12 ++ [0]) % 10) % 10],
      n ≤ 9 := by
    intro n hn
    rcases List.mem_append.mp hn with hn | hn
    · exact dv_all_le9 sym.data hdig n (List.take_subset _ _ hn)
    · rcases List.mem_singleton.mp hn with rfl
      exact chkdigit_le9 _
  have htext : jsJoinCells (ean13arr sym.data)
      = (ean13digits (sym.data.map digitVal)).map digitChar := by
    rw [harr, jsJoinCells_map_num _ hb]
    rfl
  have hred : ean13 sym = some
      { hri := some sym.hri
        text := some (jsJoinCells (ean13arr sym.data))
        widths := some ((ean13mstr sym.quietZone row (ean13arr sym.data)).map
          fun c => (parseIntHex c).map (· * sym.width))
        length := some ((sym.width : ℤ) * (if sym.quietZone then 113 else 95))
        height := some sym.height } := by
    unfold ean13
    rw [hval, if_neg hne, hstep]
    rfl
  refine ⟨_, hred, ?_⟩
  show some (jsJoinCells (ean13arr sym.data)) = _
  rw [htext]

theorem upcaSlice_text (r : BarcodeResult) (c : Char) (t : List Char)
    (h : r.text = some (c :: t)) : (upcaSlice r).text = some t := by
  unfold upcaSlice
  rw [h]

/-- On a validated (all-digit, length 7 or 8) payload the JS digit array
after both stores at index 7 is the number array `ean8digits` describes. -/
theorem ean8arr_valid (s : List Char) (h : ean8valid s = true) :
    ean8arr s = ((s.map digitVal).take 7
      ++ [(10 - altSum 3 1 ((s.map digitVal).take 7 ++ [0]) % 10) % 10]).map
        JsCell.num := by
  have hlen := ean8valid_length s h
  have hdig := ean8valid_digits s h
  have hcells := map_jsCellOf_digits s hdig
  have hlen' : (s.map digitVal).length = 7 ∨ (s.map digitVal).length = 8 := by
    simpa using hlen
  have hc : ean8cells s = ((s.map digitVal).take 7 ++ [0]).map JsCell.num := by
    unfold ean8cells
    rw [hcells, jsSetIdx_eq_append _ 7 _ (by
        simp only [List.length_map]
        omega)
      (by
        simp only [List.length_map]
        omega)]
    rw [← List.map_take, List.map_append]
    rfl
  have hT7 : ((s.map digitVal).take 7).length = 7 := by
    rw [List.length_take]
    omega
  have hsum : jsWSum (fun i => 3 - i % 2 * 2) 0 (ean8cells s)
      = some (altSum 3 1 ((s.map digitVal).take 7 ++ [0])) := by
    rw [hc, jsWSum_map_num (fun i => 3 - i % 2 * 2)
      (fun i => show 3 - (i + 2) % 2 * 2 = 3 - i % 2 * 2 by omega) 0]
  unfold ean8arr
  rw [hsum, hc]
  rw [show mod10chk (some (altSum 3 1 ((s.map digitVal).take 7 ++ [0])))
    = JsCell.num ((10 - altSum 3 1 ((s.map digitVal).take 7 ++ [0]) % 10) % 10)
    from rfl]
  rw [jsSetIdx_eq_append _ 7 _ (by
      simp only [List.length_map, List.length_append, List.length_singleton, hT7]
      omega)
    (by
      simp only [List.length_map, List.length_append, List.length_singleton, hT7]
      omega)]
  rw [← List.map_take, List.take_left' hT7, List.map_append]
  rfl

/-- A validated EAN-8 payload produces the recomputed digit string as HRI. -/
theorem ean8_valid_text (sym : BarcodeSymbol) (h : ean8valid sym.data = true) :
    (ean8 sym).text = some ((ean8digits (sym.data.map digitVal)).map digitChar) := by
  have hval := jsValidate_id ean8valid sym.data h
  have hlen := ean8valid_length sym.data h
  have hdig := ean8valid_digits sym.data h
  have hne : ¬ (sym.data.length = 0) := by omega
  have hb : ∀ n ∈ (sym.data.map digitVal).take 7
      ++ [(10 - altSum 3 1 ((sym.data.map digitVal).take 7 ++ [0]) % 10) % 10],
      n ≤ 9 := by
    intro n hn
    rcases List.mem_append.mp hn with hn | hn
    · exact dv_all_le9 sym.data hdig n (List.take_subset _ _ hn)
    · rcases List.mem_singleton.mp hn with rfl
      exact chkdigit_le9 _
  have htext : jsJoinCells (ean8arr sym.data)
      = (ean8digits (sym.data.map digitVal)).map digitChar := by
    rw [ean8arr_valid sym.data h, jsJoinCells_map_num _ hb]
    rfl
  unfold ean8
  rw [hval, if_neg hne]
  show some (jsJoinCells (ean8arr sym.data)) = _
  rw [htext]

/-- C6 (amended).  For every payload passing the EAN-13 / UPC-A / EAN-8
full-match validation (`^\d{12,13}$`; `'0' + data` against the same for
UPC-A; `^\d{7,8}$` — payloads that merely survive the validation replace as
a line-terminator remnant are excluded), the encoder returns a populated
result whose HRI digit sequence consists of the payload digits with a check
digit recomputed from them (never taken from the caller's 13th/8th digit),
and the full sequence satisfies the symbology's alternating-weight mod-10
checksum (weights 1,3,... for EAN-13; 3,1,... for UPC-A and EAN-8). -/
theorem c6_ean_upc_checksums :
    (∀ sym : BarcodeSymbol, ean13valid sym.data = true →
      ∃ r : BarcodeResult, ean13 sym = some r ∧
        r.text = some ((ean13digits (sym.data.map digitVal)).map digitChar) ∧
        ean13digits (sym.data.map digitVal)
          = (sym.data.map digitVal).take 12
            ++ [(10 - altSum 1 3 ((sym.data.map digitVal).take 12 ++ [0]) % 10) % 10] ∧
        altSum 1 3 (ean13digits (sym.data.map digitVal)) % 10 = 0) ∧
    (∀ sym : BarcodeSymbol, ean13valid ('0' :: sym.data) = true →
      ∃ r : BarcodeResult, upca sym = some r ∧
        r.text = some ((ean13digits (('0' :: sym.data).map digitVal)).tail.map digitChar) ∧
        altSum 3 1 (ean13digits (('0' :: sym.data).map digitVal)).tail % 10 = 0) ∧
    (∀ sym : BarcodeSymbol, ean8valid sym.data = true →
      (ean8 sym).text = some ((ean8digits (sym.data.map digitVal)).map digitChar) ∧
      ean8digits (sym.data.map digitVal)
        = (sym.data.map digitVal).take 7
          ++ [(10 - altSum 3 1 ((sym.data.map digitVal).take 7 ++ [0]) % 10) % 10] ∧
      altSum 3 1 (ean8digits (sym.data.map digitVal)) % 10 = 0) := by
  refine ⟨?_, ?_, ?_⟩
  · intro sym h
    obtain ⟨r, hr, ht⟩ := ean13_valid_some sym h
    refine ⟨r, hr, ht, rfl, ean13digits_checksum _ ?_⟩
    have := ean13valid_length sym.data h
    simp only [List.length_map]
    omega
  · intro sym h
    obtain ⟨r0, hr0, ht0⟩ :=
      ean13_valid_some { sym with btype := BarType.ean, data := '0' :: sym.data } h
    have ht0 : r0.text
        = some ((ean13digits (('0' :: sym.data).map digitVal)).map digitChar) := ht0
    have hsplit : ean13digits (('0' :: sym.data).map digitVal)
        = 0 :: (ean13digits (('0' :: sym.data).map digitVal)).tail := by
      have h0 : ('0' :: sym.data).map digitVal = 0 :: sym.data.map digitVal := by
        simp [digitVal]
      rw [h0]
      unfold ean13digits
      rw [List.take_succ_cons]
      rfl
    have ht0' : r0.text = some (digitChar 0
        :: (ean13digits (('0' :: sym.data).map digitVal)).tail.map digitChar) := by
      rw [hsplit] at ht0
      simp only [List.map_cons] at ht0
      exact ht0
    refine ⟨upcaSlice r0, ?_, ?_, ?_⟩
    · unfold upca
      rw [hr0]
      rfl
    · exact upcaSlice_text r0 _ _ ht0'
    · have hchk := ean13digits_checksum (('0' :: sym.data).map digitVal) (by
        have := ean13valid_length _ h
        simp only [List.length_map, List.length_cons] at this ⊢
        omega)
      rw [hsplit] at hchk
      simpa [altSum] using hchk
  · intro sym h
    refine ⟨ean8_valid_text sym h, rfl, ean8digits_checksum _ ?_⟩
    have := ean8valid_length sym.data h
    simp only [List.length_map]
    omega

/-- Counterexample to C6 as stated over every payload the encoder accepts:
the invalid payload `"\nabcdefghijkl"` survives the validation replace in
full (it starts with a line terminator, which the regex's `.` cannot
consume), the EAN-13 encoder emits a populated result, and its HRI
`0NaNNaN...NaN` is not a digit sequence at all, so it satisfies no mod-10
digit checksum. -/
theorem c6_counterexample :
    ean13valid ("\nabcdefghijkl".toList) = false ∧
    (ean13 ⟨BarType.ean, "\nabcdefghijkl".toList, false, 2, 72, false⟩).map
        (fun r => r.text)
      = some (some ("0NaNNaNNaNNaNNaNNaNNaNNaNNaNNaNNaNNaN".toList)) ∧
    ("0NaNNaNNaNNaNNaNNaNNaNNaNNaNNaNNaNNaN".toList).all isDigitCh = false := by
  decide

/-- Witness for C6 at concrete payloads `123456789012` (EAN-13),
`12345678901` (UPC-A) and `1234567` (EAN-8). -/
theorem c6_witness :
    (ean13valid ("123456789012".toList) = true ∧
      altSum 1 3 (ean13digits (("123456789012".toList).map digitVal)) % 10 = 0) ∧
    (ean13valid ('0' :: "12345678901".toList) = true ∧
      altSum 3 1 (ean13digits (('0' :: "12345678901".toList).map digitVal)).tail % 10 = 0) ∧
    (ean8valid ("1234567".toList) = true ∧
      altSum 3 1 (ean8digits (("1234567".toList).map digitVal)) % 10 = 0) := by
  refine ⟨⟨by decide, ?_⟩, ⟨by decide, ?_⟩, ⟨by decide, ?_⟩⟩
  · obtain ⟨r, hr, ht, hd, hchk⟩ :=
      c6_ean_upc_checksums.1 ⟨BarType.ean, "123456789012".toList, false, 2, 72, false⟩
        (by decide)
    exact hchk
  · obtain ⟨r, hr, ht, hchk⟩ :=
      c6_ean_upc_checksums.2.1 ⟨BarType.upc, "12345678901".toList, false, 2, 72, false⟩
        (by decide)
    exact hchk
  · exact (c6_ean_upc_checksums.2.2 ⟨BarType.ean, "1234567".toList, false, 2, 72, false⟩
      (by decide)).2.2


/- ## CODE39, Codabar(NW-7), Interleaved 2 of 5 and CODE93 encoders. -/

/-- CODE39 pattern strings `c39`; a key not in the table reads `undefined`. -/
def c39 (c : Char) : Option (List Char) :=
  match c with
  | '0' => some ("222552522".toList)
  | '1' => some ("522522225".toList)
  | '2' => some ("225522225".toList)
  | '3' => some ("525522222".toList)
  | '4' => some ("222552225".toList)
  | '5' => some ("522552222".toList)
  | '6' => some ("225552222".toList)
  | '7' => some ("222522525".toList)
  | '8' => some ("522522522".toList)
  | '9' => some ("225522522".toList)
  | 'A' => some ("522225225".toList)
  | 'B' => some ("225225225".toList)
  | 'C' => some ("525225222".toList)
  | 'D' => some ("222255225".toList)
  | 'E' => some ("522255222".toList)
  | 'F' => some ("225255222".toList)
  | 'G' => some ("222225525".toList)
  | 'H' => some ("522225522".toList)
  | 'I' => some ("225225522".toList)
  | 'J' => some ("222255522".toList)
  | 'K' => some ("522222255".toList)
  | 'L' => some ("225222255".toList)
  | 'M' => some ("525222252".toList)
  | 'N' => some ("222252255".toList)
  | 'O' => some ("522252252".toList)
  | 'P' => some ("225252252".toList)
  | 'Q' => some ("222222555".toList)
  | 'R' => some ("522222552".toList)
  | 'S' => some ("225222552".toList)
  | 'T' => some ("222252552".toList)
  | 'U' => some ("552222225".toList)
  | 'V' => some ("255222225".toList)
  | 'W' => some ("555222222".toList)
  | 'X' => some ("252252225".toList)
  | 'Y' => some ("552252222".toList)
  | 'Z' => some ("255252222".toList)
  | '-' => some ("252222525".toList)
  | '.' => some ("552222522".toList)
  | ' ' => some ("255222522".toList)
  | '$' => some ("252525222".toList)
  | '/' => some ("252522252".toList)
  | '+' => some ("252225252".toList)
  | '%' => some ("222525252".toList)
  | '*' => some ("252252522".toList)
  | _ => none

/-- `^\*?[0-9A-Z\-. $/+%]+\*?$`: the character class of CODE39 (no `*`). -/
def isCode39Char (c : Char) : Bool :=
  ("0123456789ABCDEFGHIJKLMNOPQRSTUVWXYZ-. $/+%".toList).contains c

/-- CODE39 full-match test: an optional `*` at either end around a nonempty
run of class characters (the regex backtracks stars only at the ends since
`*` is not in the class). -/
def code39valid (s : List Char) : Bool :=
  let s1 := if s.headD ' ' = '*' then s.tail else s
  let s2 := if s1.getLast? = some '*' then s1.dropLast else s1
  !s2.isEmpty && s2.all isCode39Char

/-- `s.replace(/^\*?([^*]+)\*?$/, '*$1*')`: when the whole string is an
optional star, a nonempty star-free body and an optional star, rewrite it
as `'*' + body + '*'`; otherwise (an interior `*`, or nothing between the
stars) the anchored pattern cannot match and the string is unchanged. -/
def starWrap (s : List Char) : List Char :=
  let s1 := if s.headD ' ' = '*' then s.tail else s
  let body := if s1.getLast? = some '*' then s1.dropLast else s1
  if !body.isEmpty && body.all (fun c => c != '*') then '*' :: (body ++ ['*']) else s

/-- `generate CODE39` (`code39`): an invalid payload's line-terminator
remnant is star-wrapped when the wrap pattern matches and encoded; characters
outside the table read `undefined`, rendered into `m` as the characters
`undefined`, whose non-hex letters parse to `NaN` — which `>> 1` coerces
to 0, so the widths stay numeric. -/
def code39 (symbol : BarcodeSymbol) : BarcodeResult :=
  let s0 := jsValidate code39valid symbol.data
  if s0.length = 0 then {} else
  let s := starWrap s0
  let q : List Char := if symbol.quietZone then ['a'] else ['0']
  let m := (q ++ s.flatMap fun c => (c39 c).getD jsUndef ++ ['2']).dropLast ++ q
  { hri := some symbol.hri
    text := some s
    widths := some (m.map fun c => some (jsHexShr1 c symbol.width))
    length := some ((s.length : ℤ) * (([29, 45, 58].getD (symbol.width - 2) 0 : ℕ) : ℤ)
      + (symbol.width : ℤ) * (if symbol.quietZone then 19 else -1))
    height := some symbol.height }

/-- Codabar pattern strings `nw7`; a key not in the table reads
`undefined`. -/
def nw7 (c : Char) : Option (List Char) :=
  match c with
  | '0' => some ("2222255".toList)
  | '1' => some ("2222552".toList)
  | '2' => some ("2225225".toList)
  | '3' => some ("5522222".toList)
  | '4' => some ("2252252".toList)
  | '5' => some ("5222252".toList)
  | '6' => some ("2522225".toList)
  | '7' => some ("2522522".toList)
  | '8' => some ("2552222".toList)
  | '9' => some ("5225222".toList)
  | '-' => some ("2225522".toList)
  | '$' => some ("2255222".toList)
  | ':' => some ("5222525".toList)
  | '/' => some ("5252225".toList)
  | '.' => some ("5252522".toList)
  | '+' => some ("2252525".toList)
  | 'A' => some ("2255252".toList)
  | 'B' => some ("2525225".toList)
  | 'C' => some ("2225255".toList)
  | 'D' => some ("2225552".toList)
  | _ => none

def upcaseCh (c : Char) : Char :=
  if 'a' ≤ c && c ≤ 'z' then Char.ofNat (c.toNat - 32) else c

/-- `^[A-D][0-9\-$:/.+]+[A-D]$` full-match test (case-insensitive). -/
def codabarvalid (s : List Char) : Bool :=
  match s with
  | [] => false
  | c :: rest =>
    let mid := rest.dropLast
    ("ABCDabcd".toList).contains c &&
    (match rest.getLast? with
     | some d => ("ABCDabcd".toList).contains d
     | none => false) &&
    !mid.isEmpty && mid.all fun c => ("0123456789-$:/.+".toList).contains c

/-- `generate Codabar` (`codabar`): like CODE39, the `>> 1` in the widths
map coerces the `NaN` parsed from an `undefined` rendering to 0, so a
remnant never throws. -/
def codabar (symbol : BarcodeSymbol) : BarcodeResult :=
  let s := jsValidate codabarvalid symbol.data
  if s.length = 0 then {} else
  let q : List Char := if symbol.quietZone then ['a'] else ['0']
  let m := (q ++ (s.map upcaseCh).flatMap fun c => (nw7 c).getD jsUndef ++ ['2']).dropLast
    ++ q
  let narrow := (s.filter fun c => isDigitCh c || c = '-' || c = '$').length
  let w : List ℕ := [25, 39, 50, 3, 5, 6]
  { hri := some symbol.hri
    text := some s
    widths := some (m.map fun c => some (jsHexShr1 c symbol.width))
    length := some ((s.length : ℤ) * ((w.getD (symbol.width - 2) 0 : ℕ) : ℤ)
      - (narrow : ℤ) * ((w.getD (symbol.width + 1) 0 : ℕ) : ℤ)
      + (symbol.width : ℤ) * (if symbol.quietZone then 19 else -1))
    height := some symbol.height }

/-- Interleaved 2 of 5 pattern strings. -/
def i25elem : List (List Char) :=
  (["22552", "52225", "25225", "55222", "22525", "52522", "25522", "22255", "52252",
    "25252"].map String.toList)

/-- `^(\d\d)+$` full-match test. -/
def itfvalid (s : List Char) : Bool :=
  !s.isEmpty && s.length % 2 = 0 && s.all isDigitCh

/-- `b.split('').reduce((a, c, j) => a + c + s[j], '')`: bar characters of
the first pattern interleaved with space characters of the second (both
patterns have five characters). -/
def interleaveCh : List Char → List Char → List Char
  | [], _ => []
  | x :: xs, ys => x :: ys.headD ' ' :: interleaveCh xs ys.tail

/-- The pair loop of `itf`: each step reads `i25.element[d[i++]]` twice.  A
`NaN` digit reads `undefined` (then `b.split` throws `TypeError`), and an
odd tail leaves the second pattern `undefined` (then `s[j]` throws):
`none`. -/
def itfPairsJs : List JsCell → Option (List Char)
  | [] => some []
  | [_] => none
  | .num x :: .num y :: rest =>
    match i25elem.get? x, i25elem.get? y, itfPairsJs rest with
    | some b, some sp, some m => some (interleaveCh b sp ++ m)
    | _, _, _ => none
  | _ :: _ :: _ => none

/-- `generate ITF` (`itf`): `none` models the `TypeError` thrown on a `NaN`
digit or an odd digit count in the surviving payload. -/
def itf (symbol : BarcodeSymbol) : Option BarcodeResult :=
  let s := jsValidate itfvalid symbol.data
  if s.length = 0 then some {} else
  match itfPairsJs (s.map jsCellOf) with
  | none => none
  | some body =>
    let q : List Char := if symbol.quietZone then ['a'] else ['0']
    let m := q ++ "2222".toList ++ body ++ "522".toList ++ q
    let w : List ℕ := [16, 25, 32, 17, 26, 34]
    some { hri := some symbol.hri
           text := some s
           widths := some (m.map fun c => some (jsHexShr1 c symbol.width))
           length := some ((s.length : ℤ) * ((w.getD (symbol.width - 2) 0 : ℕ) : ℤ)
             + ((w.getD (symbol.width + 1) 0 : ℕ) : ℤ)
             + (symbol.width : ℤ) * (if symbol.quietZone then 20 else 0))
           height := some symbol.height }

/-- CODE93 escape expansion (`c93.escape`), indexed by character code. -/
def c93escape : List (List Char) :=
  (["cU", "dA", "dB", "dC", "dD", "dE", "dF", "dG", "dH", "dI",
    "dJ", "dK", "dL", "dM", "dN", "dO", "dP", "dQ", "dR", "dS",
    "dT", "dU", "dV", "dW", "dX", "dY", "dZ", "cA", "cB", "cC",
    "cD", "cE", " ", "sA", "sB", "sC", "$", "%", "sF", "sG",
    "sH", "sI", "sJ", "+", "sL", "-", ".", "/", "0", "1",
    "2", "3", "4", "5", "6", "7", "8", "9", "sZ", "cF",
    "cG", "cH", "cI", "cJ", "cV", "A", "B", "C", "D", "E",
    "F", "G", "H", "I", "J", "K", "L", "M", "N", "O",
    "P", "Q", "R", "S", "T", "U", "V", "W", "X", "Y",
    "Z", "cK", "cL", "cM", "cN", "cO", "cW", "pA", "pB", "pC",
    "pD", "pE", "pF", "pG", "pH", "pI", "pJ", "pK", "pL", "pM",
    "pN", "pO", "pP", "pQ", "pR", "pS", "pT", "pU", "pV", "pW",
    "pX", "pY", "pZ", "cP", "cQ", "cR", "cS", "cT"].map String.toList)

/-- CODE93 pattern strings (index 47 = start, 48 = stop). -/
def c93elem : List (List Char) :=
  (["131112", "111213", "111312", "111411", "121113", "121212", "121311", "111114",
    "131211", "141111", "211113", "211212", "211311", "221112", "221211", "231111",
    "112113", "112212", "112311", "122112", "132111", "111123", "111222", "111321",
    "121122", "131121", "212112", "212211", "211122", "211221", "221121", "222111",
    "112122", "112221", "122121", "123111", "121131", "311112", "311211", "321111",
    "112131", "113121", "211131", "121221", "312111", "311121", "122211", "111141",
    "1111411"].map String.toList)

/-- `c93.code[c]`: the index in the 47-character alphabet, `undefined`
(`none`) for any other character. -/
def c93code (c : Char) : Option ℕ :=
  if ("0123456789ABCDEFGHIJKLMNOPQRSTUVWXYZ-. $/+%dcsp".toList).contains c then
    some (("0123456789ABCDEFGHIJKLMNOPQRSTUVWXYZ-. $/+%dcsp".toList).indexOf c)
  else none

/-- `^[\x00-\x7f]+$` full-match test (`code93`). -/
def code93valid (s : List Char) : Bool :=
  !s.isEmpty && s.all fun c => c.toNat ≤ 127

/-- Seedless `d.reduceRight((a, c, i) => a + c * ((d.length - 1 - i) % m + 1))`
with `NaN` (`none`) propagation: the rightmost element is the seed, and its
weight `0 % m + 1 = 1` agrees with the weighted form. -/
def rwsJs (m : ℕ) (l : List (Option ℕ)) : Option ℕ :=
  (l.reverse.enum).foldr
    (fun p acc =>
      match p.2, acc with
      | some v, some a => some (v * (p.1 % m + 1) + a)
      | _, _ => none)
    (some 0)

/-- `c93.element[v]` for a value that may be `NaN`: `undefined` renders as
the characters `undefined`. -/
def c93sel (v : Option ℕ) : List Char :=
  match v with
  | some i => (c93elem.get? i).getD jsUndef
  | none => jsUndef

/-- `generate CODE93` (`code93`): remnant characters above 0x7f read
`undefined` from the escape table; the characters of its rendering that are
outside the alphabet look up as `undefined` (`none`) and poison the check
values into `NaN`, but nothing throws. -/
def code93 (symbol : BarcodeSymbol) : BarcodeResult :=
  let s := jsValidate code93valid symbol.data
  if s.length = 0 then {} else
  let d := (s.flatMap fun c => (c93escape.get? c.toNat).getD jsUndef).map c93code
  let c1 := (rwsJs 20 d).map (· % 47)
  let k := (rwsJs 15 (d ++ [c1])).map (· % 47)
  let dfull := some 47 :: ((d ++ [c1, k]) ++ [some 48])
  let q : List Char := if symbol.quietZone then ['a'] else ['0']
  let m := q ++ (dfull.flatMap c93sel) ++ q
  { hri := some symbol.hri
    text := some (s.map fun c => if c.toNat ≤ 32 || c.toNat = 127 then ' ' else c)
    widths := some (m.map fun c => (parseIntHex c).map (· * symbol.width))
    length := some ((symbol.width : ℤ)
      * (dfull.length * 9 + (if symbol.quietZone then 21 else 1)))
    height := some symbol.height }


/- ## CODE128 encoder: code-set selection (`code128a`/`code128b`/`code128c`). -/

def isDigCode (c : ℕ) : Bool := 48 ≤ c && c ≤ 57

/-- `(?!\d{4,})` fails exactly when the next four codes are digits. -/
def dig4 : List ℕ → Bool
  | a :: b :: c :: d :: _ => isDigCode a && isDigCode b && isDigCode c && isDigCode d
  | _ => false

/-- `s.replace(/^((?!\d{4,})[\x00-_])+/, ...)` of `code128a`: consume the
maximal prefix of codes `≤ 0x5f` not at the start of a four-digit run, each
pushed as `(c + 64) % 96`. -/
def takeA : List ℕ → List ℕ × List ℕ
  | [] => ([], [])
  | c :: rest =>
    if c ≤ 95 && !dig4 (c :: rest) then
      ((c + 64) % 96 :: (takeA rest).1, (takeA rest).2)
    else ([], c :: rest)

/-- `s.replace(/^((?!\d{4,})[ -\x7f])+/, ...)` of `code128b`: codes in
`[\x20-\x7f]`, pushed as `c - 32`. -/
def takeB : List ℕ → List ℕ × List ℕ
  | [] => ([], [])
  | c :: rest =>
    if (32 ≤ c && c ≤ 127) && !dig4 (c :: rest) then
      ((c - 32) :: (takeB rest).1, (takeB rest).2)
    else ([], c :: rest)

/-- `s.replace(/^\d(?=(\d\d){2,}(\D|$))/, ...)`: when the head is a digit
followed by an even digit run of length at least 4 (so the whole run is odd
of length at least 5), consume the head digit. -/
def oddAdj (encode : ℕ → ℕ) : List ℕ → List ℕ × List ℕ
  | [] => ([], [])
  | c :: rest =>
    if isDigCode c && decide (4 ≤ (rest.takeWhile isDigCode).length)
        && decide ((rest.takeWhile isDigCode).length % 2 = 0) then
      ([encode c], rest)
    else ([], c :: rest)

/-- `m.replace(/\d{2}/g, c => (d.push(Number(c)), ''))`: digit pairs become
values `10a + b`; an odd trailing digit is left over. -/
def c128pairs : List ℕ → List ℕ × List ℕ
  | a :: b :: rest =>
    (((a - 48) * 10 + (b - 48)) :: (c128pairs rest).1, (c128pairs rest).2)
  | [x] => ([], [x])
  | [] => ([], [])

/-- `s.replace(/^\d{4,}/g, ...)` of `code128c`: consume the leading digit
run pairwise, an odd leftover digit stays at the head of the remainder. -/
def takeC (s : List ℕ) : List ℕ × List ℕ :=
  if dig4 s then
    let run := s.takeWhile isDigCode
    ((c128pairs run).1, (c128pairs run).2 ++ s.drop run.length)
  else ([], s)

/-- CODE128 code sets. -/
inductive C128Mode
  | A | B | C
deriving DecidableEq, Repr

/-- Whether the consumption step of a mode takes at least one code off `s`:
used only for the termination measure of the code-set selection loop. -/
def canConsume : C128Mode → List ℕ → Bool
  | .A, [] => false
  | .A, c :: rest => c ≤ 95 && !dig4 (c :: rest)
  | .B, [] => false
  | .B, c :: rest => (32 ≤ c && c ≤ 127) && !dig4 (c :: rest)
  | .C, s => dig4 s

/-- Termination measure: a call that consumes nothing always hands over to a
mode that can consume the head, so the penalty bit drops when the length
does not. -/
def c128mu (mode : C128Mode) (s : List ℕ) : ℕ :=
  2 * s.length + (if canConsume mode s then 0 else 1)

theorem takeA_rest_mem (s : List ℕ) : ∀ c ∈ (takeA s).2, c ∈ s := by
  induction s with
  | nil => simp [takeA]
  | cons a rest ih =>
    by_cases hc : (a ≤ 95 && !dig4 (a :: rest)) = true
    · simp only [takeA, hc, if_true]
      intro c hcmem
      exact List.mem_cons_of_mem a (ih c hcmem)
    · simp only [takeA, hc, if_false]
      intro c hcmem
      exact hcmem

theorem takeA_rest_len (s : List ℕ) : (takeA s).2.length ≤ s.length := by
  induction s with
  | nil => simp [takeA]
  | cons a rest ih =>
    by_cases hc : (a ≤ 95 && !dig4 (a :: rest)) = true
    · simp only [takeA, hc, if_true]
      exact le_trans ih (by simp)
    · simp [takeA, hc]

theorem takeA_consume (s : List ℕ) (h : canConsume .A s = true) :
    (takeA s).2.length < s.length := by
  cases s with
  | nil => simp [canConsume] at h
  | cons a rest =>
    simp only [canConsume] at h
    simp only [takeA, h, if_true]
    exact Nat.lt_succ_of_le (takeA_rest_len rest)

theorem takeA_stuck (s : List ℕ) (h : (takeA s).2 = s) :
    canConsume .A s = false := by
  by_cases hc : canConsume .A s = true
  · have := takeA_consume s hc
    rw [h] at this
    omega
  · simpa using hc

theorem takeB_rest_mem (s : List ℕ) : ∀ c ∈ (takeB s).2, c ∈ s := by
  induction s with
  | nil => simp [takeB]
  | cons a rest ih =>
    by_cases hc : ((32 ≤ a && a ≤ 127) && !dig4 (a :: rest)) = true
    · simp only [takeB, hc, if_true]
      intro c hcmem
      exact List.mem_cons_of_mem a (ih c hcmem)
    · simp only [takeB, hc, if_false]
      intro c hcmem
      exact hcmem

theorem takeB_rest_len (s : List ℕ) : (takeB s).2.length ≤ s.length := by
  induction s with
  | nil => simp [takeB]
  | cons a rest ih =>
    by_cases hc : ((32 ≤ a && a ≤ 127) && !dig4 (a :: rest)) = true
    · simp only [takeB, hc, if_true]
      exact le_trans ih (by simp)
    · simp [takeB, hc]

theorem takeB_consume (s : List ℕ) (h : canConsume .B s = true) :
    (takeB s).2.length < s.length := by
  cases s with
  | nil => simp [canConsume] at h
  | cons a rest =>
    simp only [canConsume] at h
    simp only [takeB, h, if_true]
    exact Nat.lt_succ_of_le (takeB_rest_len rest)

theorem takeB_stuck (s : List ℕ) (h : (takeB s).2 = s) :
    canConsume .B s = false := by
  by_cases hc : canConsume .B s = true
  · have := takeB_consume s hc
    rw [h] at this
    omega
  · simpa using hc

theorem oddAdj_rest_mem (e : ℕ → ℕ) (s : List ℕ) : ∀ c ∈ (oddAdj e s).2, c ∈ s := by
  cases s with
  | nil => simp [oddAdj]
  | cons a rest =>
    by_cases hc : (isDigCode a && decide (4 ≤ (rest.takeWhile isDigCode).length)
        && decide ((rest.takeWhile isDigCode).length % 2 = 0)) = true
    · simp only [oddAdj, hc, if_true]
      intro c hcmem
      exact List.mem_cons_of_mem a hcmem
    · simp only [oddAdj, hc, if_false]
      intro c hcmem
      exact hcmem

theorem oddAdj_rest_len (e : ℕ → ℕ) (s : List ℕ) : (oddAdj e s).2.length ≤ s.length := by
  cases s with
  | nil => simp [oddAdj]
  | cons a rest =>
    by_cases hc : (isDigCode a && decide (4 ≤ (rest.takeWhile isDigCode).length)
        && decide ((rest.takeWhile isDigCode).length % 2 = 0)) = true
    · simp [oddAdj, hc]
    · simp [oddAdj, hc]

theorem oddAdj_eq_or_lt (e : ℕ → ℕ) (s : List ℕ) :
    (oddAdj e s).2 = s ∨ (oddAdj e s).2.length < s.length := by
  cases s with
  | nil => left; simp [oddAdj]
  | cons a rest =>
    by_cases hc : (isDigCode a && decide (4 ≤ (rest.takeWhile isDigCode).length)
        && decide ((rest.takeWhile isDigCode).length % 2 = 0)) = true
    · right; simp [oddAdj, hc]
    · left; simp [oddAdj, hc]

theorem c128pairs_rest_mem : ∀ (s : List ℕ), ∀ c ∈ (c128pairs s).2, c ∈ s
  | [] => by simp [c128pairs]
  | [x] => by simp [c128pairs]
  | a :: b :: rest => by
    simp only [c128pairs]
    intro c hc
    exact List.mem_cons_of_mem a (List.mem_cons_of_mem b (c128pairs_rest_mem rest c hc))

theorem c128pairs_rest_len : ∀ (s : List ℕ), (c128pairs s).2.length ≤ 1
  | [] => by simp [c128pairs]
  | [x] => by simp [c128pairs]
  | a :: b :: rest => by simpa [c128pairs] using c128pairs_rest_len rest

theorem dig4_run_ge (s : List ℕ) (h : dig4 s = true) :
    4 ≤ (s.takeWhile isDigCode).length := by
  match s with
  | a :: b :: c :: d :: rest =>
    simp only [dig4, Bool.and_eq_true] at h
    obtain ⟨⟨⟨ha, hb⟩, hc⟩, hd⟩ := h
    simp only [List.takeWhile_cons, ha, hb, hc, hd, if_true, List.length_cons]
    omega
  | [] => simp [dig4] at h
  | [_] => simp [dig4] at h
  | [_, _] => simp [dig4] at h
  | [_, _, _] => simp [dig4] at h

theorem takeC_rest_mem (s : List ℕ) : ∀ c ∈ (takeC s).2, c ∈ s := by
  unfold takeC
  by_cases hd : dig4 s = true
  · simp only [hd, if_true]
    intro c hc
    rw [List.mem_append] at hc
    rcases hc with hc | hc
    · exact (List.takeWhile_sublist _).subset (c128pairs_rest_mem _ c hc)
    · exact (List.drop_sublist _ _).subset hc
  · simp only [hd, if_false]
    intro c hc
    exact hc

theorem takeC_consume (s : List ℕ) (h : canConsume .C s = true) :
    (takeC s).2.length < s.length := by
  have hd : dig4 s = true := h
  have hrun := dig4_run_ge s hd
  unfold takeC
  simp only [hd, if_true, List.length_append, List.length_drop]
  have h1 := c128pairs_rest_len (s.takeWhile isDigCode)
  have h2 : (s.takeWhile isDigCode).length ≤ s.length :=
    (List.takeWhile_sublist _).length_le
  omega

theorem takeC_stuck (s : List ℕ) (h : (takeC s).2 = s) :
    canConsume .C s = false := by
  by_cases hc : canConsume .C s = true
  · have := takeC_consume s hc
    rw [h] at this
    omega
  · simpa using hc

theorem c128mu_of_len_lt (m1 m2 : C128Mode) (s1 s2 : List ℕ)
    (h : s1.length < s2.length) : c128mu m1 s1 < c128mu m2 s2 := by
  unfold c128mu
  split <;> split <;> omega

theorem c128mu_of_pen (m1 m2 : C128Mode) (s : List ℕ)
    (h1 : canConsume m1 s = true) (h2 : canConsume m2 s = false) :
    c128mu m1 s < c128mu m2 s := by
  unfold c128mu
  rw [h1, h2]
  simp

/-- Head bound from a satisfied shift test: if the first code outside
`[ -_]` is a control code, the head code is at most `0x5f`. -/
theorem find_bad_lt_head_le (s : List ℕ)
    (h : ((s.find? fun c => !(32 ≤ c && c ≤ 95)).any fun cp => cp < 32) = true) :
    s ≠ [] ∧ s.headD 0 ≤ 95 := by
  cases s with
  | nil => simp [List.find?] at h
  | cons a rest =>
    refine ⟨by simp, ?_⟩
    by_cases hm : (32 ≤ a && a ≤ 95) = true
    · simp only [Bool.and_eq_true, decide_eq_true_eq] at hm
      simp only [List.headD_cons]
      omega
    · have hb : (!(32 ≤ a && a ≤ 95)) = true := by
        revert hm
        cases (32 ≤ a && a ≤ 95) <;> simp
      have hf : List.find? (fun c => !(32 ≤ c && c ≤ 95)) (a :: rest) = some a := by
        simp only [List.find?_cons, hb]
      rw [hf] at h
      simp only [Option.any_some, decide_eq_true_eq] at h
      simp only [List.headD_cons]
      omega

/-- Head bound from a failed shift test on a nonempty remainder: the head
code is at least `0x20`. -/
theorem find_bad_not_lt_head_ge (s : List ℕ) (hne : s ≠ [])
    (h : ((s.find? fun c => !(32 ≤ c && c ≤ 95)).any fun cp => cp < 32) = false) :
    32 ≤ s.headD 0 := by
  cases s with
  | nil => exact absurd rfl hne
  | cons a rest =>
    by_cases hm : (32 ≤ a && a ≤ 95) = true
    · simp only [Bool.and_eq_true, decide_eq_true_eq] at hm
      simp only [List.headD_cons]
      omega
    · have hb : (!(32 ≤ a && a ≤ 95)) = true := by
        revert hm
        cases (32 ≤ a && a ≤ 95) <;> simp
      have hf : List.find? (fun c => !(32 ≤ c && c ≤ 95)) (a :: rest) = some a := by
        simp only [List.find?_cons, hb]
      rw [hf] at h
      simp only [Option.any_some, decide_eq_false_iff_not] at h
      simp only [List.headD_cons]
      omega

/-- Symmetric head bound for code set B's shift test (`t.charCodeAt(p) > 95`):
failure on a nonempty remainder bounds the head by `0x5f` from above or the
head is in `[ -_]`; in both cases the head is at most `0x7f` under the input
invariant, and here we only need `s.headD 0 ≤ 95 ∨ 32 ≤ s.headD 0`. -/
theorem find_bad_not_gt_head (s : List ℕ) (hne : s ≠ [])
    (h : ((s.find? fun c => !(32 ≤ c && c ≤ 95)).any fun cp => 95 < cp) = false) :
    s.headD 0 ≤ 95 := by
  cases s with
  | nil => exact absurd rfl hne
  | cons a rest =>
    by_cases hm : (32 ≤ a && a ≤ 95) = true
    · simp only [Bool.and_eq_true, decide_eq_true_eq] at hm
      simp only [List.headD_cons]
      omega
    · have hb : (!(32 ≤ a && a ≤ 95)) = true := by
        revert hm
        cases (32 ≤ a && a ≤ 95) <;> simp
      have hf : List.find? (fun c => !(32 ≤ c && c ≤ 95)) (a :: rest) = some a := by
        simp only [List.find?_cons, hb]
      rw [hf] at h
      simp only [Option.any_some, decide_eq_false_iff_not] at h
      simp only [List.headD_cons]
      omega


theorem takeA_eq_or_lt (s : List ℕ) :
    (takeA s).2 = s ∨ (takeA s).2.length < s.length := by
  cases s with
  | nil => left; simp [takeA]
  | cons a rest =>
    by_cases hc : (a ≤ 95 && !dig4 (a :: rest)) = true
    · right
      simp only [takeA, hc, if_true]
      exact Nat.lt_succ_of_le (takeA_rest_len rest)
    · left; simp [takeA, hc]

theorem takeB_eq_or_lt (s : List ℕ) :
    (takeB s).2 = s ∨ (takeB s).2.length < s.length := by
  cases s with
  | nil => left; simp [takeB]
  | cons a rest =>
    by_cases hc : ((32 ≤ a && a ≤ 127) && !dig4 (a :: rest)) = true
    · right
      simp only [takeB, hc, if_true]
      exact Nat.lt_succ_of_le (takeB_rest_len rest)
    · left; simp [takeB, hc]

theorem takeC_eq_or_lt (s : List ℕ) :
    (takeC s).2 = s ∨ (takeC s).2.length < s.length := by
  by_cases hd : dig4 s = true
  · right; exact takeC_consume s hd
  · left
    unfold takeC
    simp [hd]

theorem afterA_eq_or_lt (e : ℕ → ℕ) (s : List ℕ) :
    ((oddAdj e (takeA s).2).2 = s ∧ (takeA s).2 = s) ∨
      (oddAdj e (takeA s).2).2.length < s.length := by
  rcases oddAdj_eq_or_lt e (takeA s).2 with h1 | h1
  · rcases takeA_eq_or_lt s with h2 | h2
    · left; exact ⟨by rw [h1, h2], h2⟩
    · right; rw [h1]; exact h2
  · right; exact lt_of_lt_of_le h1 (takeA_rest_len s)

theorem afterB_eq_or_lt (e : ℕ → ℕ) (s : List ℕ) :
    ((oddAdj e (takeB s).2).2 = s ∧ (takeB s).2 = s) ∨
      (oddAdj e (takeB s).2).2.length < s.length := by
  rcases oddAdj_eq_or_lt e (takeB s).2 with h1 | h1
  · rcases takeB_eq_or_lt s with h2 | h2
    · left; exact ⟨by rw [h1, h2], h2⟩
    · right; rw [h1]; exact h2
  · right; exact lt_of_lt_of_le h1 (takeB_rest_len s)

theorem headD_mem (s : List ℕ) (hne : s ≠ []) : s.headD 0 ∈ s := by
  cases s with
  | nil => exact absurd rfl hne
  | cons a rest => simp

theorem canConsumeA_false_elim (s : List ℕ) (hne : s ≠ []) (hd : dig4 s = false)
    (h : canConsume .A s = false) : 95 < s.headD 0 := by
  cases s with
  | nil => exact absurd rfl hne
  | cons a rest =>
    simp only [canConsume, hd, Bool.not_false, Bool.and_true] at h
    simp only [List.headD_cons]
    simpa using h

theorem canConsumeB_false_elim (s : List ℕ) (hne : s ≠ []) (hd : dig4 s = false)
    (h127 : s.headD 0 ≤ 127) (h : canConsume .B s = false) : s.headD 0 < 32 := by
  cases s with
  | nil => exact absurd rfl hne
  | cons a rest =>
    simp only [canConsume, hd, Bool.not_false, Bool.and_true] at h
    simp only [List.headD_cons] at h127 ⊢
    simp only [Bool.and_eq_false_iff, decide_eq_false_iff_not] at h
    rcases h with h | h <;> omega

theorem canConsumeA_intro (s : List ℕ) (hne : s ≠ []) (hd : dig4 s = false)
    (h95 : s.headD 0 ≤ 95) : canConsume .A s = true := by
  cases s with
  | nil => exact absurd rfl hne
  | cons a rest =>
    simp only [List.headD_cons] at h95
    simp [canConsume, hd, h95]

theorem canConsumeB_intro (s : List ℕ) (hne : s ≠ []) (hd : dig4 s = false)
    (h32 : 32 ≤ s.headD 0) (h127 : s.headD 0 ≤ 127) : canConsume .B s = true := by
  cases s with
  | nil => exact absurd rfl hne
  | cons a rest =>
    simp only [List.headD_cons] at h32 h127
    simp [canConsume, hd, h32, h127]

theorem tail_len_lt (s t : List ℕ) (hle : t.length ≤ s.length) (hne : t.tail ≠ []) :
    t.tail.length < s.length := by
  have h1 : t ≠ [] := by
    intro hh
    rw [hh] at hne
    exact hne rfl
  have h2 : t.tail.length = t.length - 1 := by
    cases t with
    | nil => rfl
    | cons a r => simp
  have h3 : 0 < t.length := List.length_pos.mpr h1
  omega

/-- The code-set selection of `code128a`/`code128b`/`code128c`, restructured
as a single recursion over the current code set.  Each source function first
pushes the entry code `x` passed by its caller (start, switch or shift);
here the caller prepends that value instead, which emits the identical
sequence.  `h` carries the validation invariant of `code128` (all codes at
most `0x7f`); without it the mutual descent would not terminate, matching
the JS functions which recurse forever on non-ASCII input. -/
def encLoop (mode : C128Mode) (s : List ℕ) (h : ∀ c ∈ s, c ≤ 127) : List ℕ :=
  match mode with
  | .A =>
    let t1 := takeA s
    let t2 := oddAdj (fun c => (c + 64) % 96) t1.2
    let vals := t1.1 ++ t2.1
    have h2 : ∀ c ∈ t2.2, c ≤ 127 := fun c hc =>
      h c (takeA_rest_mem s c (oddAdj_rest_mem _ t1.2 c hc))
    if hd4 : dig4 t2.2 = true then
      vals ++ 99 :: encLoop .C t2.2 h2
    else if hsh : ((t2.2.tail.find? fun c => !(32 ≤ c && c ≤ 95)).any
        fun cp => cp < 32) = true then
      vals ++ 98 :: (t2.2.headD 0 - 32) ::
        encLoop .A t2.2.tail (fun c hc => h2 c (List.mem_of_mem_tail hc))
    else if hne : t2.2.isEmpty = true then vals
    else vals ++ 100 :: encLoop .B t2.2 h2
  | .B =>
    let t1 := takeB s
    let t2 := oddAdj (fun c => c - 32) t1.2
    let vals := t1.1 ++ t2.1
    have h2 : ∀ c ∈ t2.2, c ≤ 127 := fun c hc =>
      h c (takeB_rest_mem s c (oddAdj_rest_mem _ t1.2 c hc))
    if hd4 : dig4 t2.2 = true then
      vals ++ 99 :: encLoop .C t2.2 h2
    else if hsh : ((t2.2.tail.find? fun c => !(32 ≤ c && c ≤ 95)).any
        fun cp => 95 < cp) = true then
      vals ++ 98 :: (t2.2.headD 0 + 64) ::
        encLoop .B t2.2.tail (fun c hc => h2 c (List.mem_of_mem_tail hc))
    else if hne : t2.2.isEmpty = true then vals
    else vals ++ 101 :: encLoop .A t2.2 h2
  | .C =>
    let t1 := takeC s
    have h2 : ∀ c ∈ t1.2, c ≤ 127 := fun c hc => h c (takeC_rest_mem s c hc)
    if hsh : ((t1.2.find? fun c => !(32 ≤ c && c ≤ 95)).any
        fun cp => cp < 32) = true then
      t1.1 ++ 101 :: encLoop .A t1.2 h2
    else if hne : t1.2.isEmpty = true then t1.1
    else t1.1 ++ 100 :: encLoop .B t1.2 h2
termination_by c128mu mode s
decreasing_by
· rcases afterA_eq_or_lt (fun c => (c + 64) % 96) s with ⟨heq, hta⟩ | hlt
  · rw [heq] at hd4 ⊢
    refine c128mu_of_pen _ _ _ ?_ (takeA_stuck s hta)
    simpa [canConsume] using hd4
  · exact c128mu_of_len_lt _ _ _ _ hlt
· have h1 : (oddAdj (fun c => (c + 64) % 96) (takeA s).2).2.length ≤ s.length :=
    le_trans (oddAdj_rest_len _ _) (takeA_rest_len s)
  exact c128mu_of_len_lt _ _ _ _
    (tail_len_lt s _ h1 (find_bad_lt_head_le _ hsh).1)
· rcases afterA_eq_or_lt (fun c => (c + 64) % 96) s with ⟨heq, hta⟩ | hlt
  · rw [heq] at hd4 hne ⊢
    rw [Bool.not_eq_true] at hd4
    have hnil : s ≠ [] := by
      intro hh
      rw [hh] at hne
      exact hne rfl
    have hgt := canConsumeA_false_elim s hnil hd4 (takeA_stuck s hta)
    refine c128mu_of_pen _ _ _ ?_ (takeA_stuck s hta)
    exact canConsumeB_intro s hnil hd4 (by omega) (h _ (headD_mem s hnil))
  · exact c128mu_of_len_lt _ _ _ _ hlt
· rcases afterB_eq_or_lt (fun c => c - 32) s with ⟨heq, htb⟩ | hlt
  · rw [heq] at hd4 ⊢
    refine c128mu_of_pen _ _ _ ?_ (takeB_stuck s htb)
    simpa [canConsume] using hd4
  · exact c128mu_of_len_lt _ _ _ _ hlt
· have h1 : (oddAdj (fun c => c - 32) (takeB s).2).2.length ≤ s.length :=
    le_trans (oddAdj_rest_len _ _) (takeB_rest_len s)
  refine c128mu_of_len_lt _ _ _ _ (tail_len_lt s _ h1 ?_)
  intro hh
  rw [hh] at hsh
  simp [List.find?] at hsh
· rcases afterB_eq_or_lt (fun c => c - 32) s with ⟨heq, htb⟩ | hlt
  · rw [heq] at hd4 hne ⊢
    rw [Bool.not_eq_true] at hd4
    have hnil : s ≠ [] := by
      intro hh
      rw [hh] at hne
      exact hne rfl
    have hlt32 := canConsumeB_false_elim s hnil hd4 (h _ (headD_mem s hnil))
      (takeB_stuck s htb)
    refine c128mu_of_pen _ _ _ ?_ (takeB_stuck s htb)
    exact canConsumeA_intro s hnil hd4 (by omega)
  · exact c128mu_of_len_lt _ _ _ _ hlt
· rcases takeC_eq_or_lt s with heq | hlt
  · rw [heq] at hsh ⊢
    obtain ⟨hnil, hle⟩ := find_bad_lt_head_le s hsh
    have hd4 : dig4 s = false := by
      have := takeC_stuck s heq
      simpa [canConsume] using this
    exact c128mu_of_pen _ _ _ (canConsumeA_intro s hnil hd4 hle)
      (takeC_stuck s heq)
  · exact c128mu_of_len_lt _ _ _ _ hlt
· rcases takeC_eq_or_lt s with heq | hlt
  · rw [heq] at hsh hne ⊢
    have hnil : s ≠ [] := by
      intro hh
      rw [hh] at hne
      exact hne rfl
    have hd4 : dig4 s = false := by
      have := takeC_stuck s heq
      simpa [canConsume] using this
    rw [Bool.not_eq_true] at hsh
    have h32 := find_bad_not_lt_head_ge s hnil hsh
    exact c128mu_of_pen _ _ _
      (canConsumeB_intro s hnil hd4 h32 (h _ (headD_mem s hnil)))
      (takeC_stuck s heq)
  · exact c128mu_of_len_lt _ _ _ _ hlt


/- ## `code128`, `generate` and C8. -/

/-- CODE128 bar/space element table (index 106 is the stop pattern). -/
def c128element : List (List ℕ) :=
  [[2,1,2,2,2,2], [2,2,2,1,2,2], [2,2,2,2,2,1], [1,2,1,2,2,3], [1,2,1,3,2,2], [1,3,1,2,2,2], [1,2,2,2,1,3], [1,2,2,3,1,2],
   [1,3,2,2,1,2], [2,2,1,2,1,3], [2,2,1,3,1,2], [2,3,1,2,1,2], [1,1,2,2,3,2], [1,2,2,1,3,2], [1,2,2,2,3,1], [1,1,3,2,2,2],
   [1,2,3,1,2,2], [1,2,3,2,2,1], [2,2,3,2,1,1], [2,2,1,1,3,2], [2,2,1,2,3,1], [2,1,3,2,1,2], [2,2,3,1,1,2], [3,1,2,1,3,1],
   [3,1,1,2,2,2], [3,2,1,1,2,2], [3,2,1,2,2,1], [3,1,2,2,1,2], [3,2,2,1,1,2], [3,2,2,2,1,1], [2,1,2,1,2,3], [2,1,2,3,2,1],
   [2,3,2,1,2,1], [1,1,1,3,2,3], [1,3,1,1,2,3], [1,3,1,3,2,1], [1,1,2,3,1,3], [1,3,2,1,1,3], [1,3,2,3,1,1], [2,1,1,3,1,3],
   [2,3,1,1,1,3], [2,3,1,3,1,1], [1,1,2,1,3,3], [1,1,2,3,3,1], [1,3,2,1,3,1], [1,1,3,1,2,3], [1,1,3,3,2,1], [1,3,3,1,2,1],
   [3,1,3,1,2,1], [2,1,1,3,3,1], [2,3,1,1,3,1], [2,1,3,1,1,3], [2,1,3,3,1,1], [2,1,3,1,3,1], [3,1,1,1,2,3], [3,1,1,3,2,1],
   [3,3,1,1,2,1], [3,1,2,1,1,3], [3,1,2,3,1,1], [3,3,2,1,1,1], [3,1,4,1,1,1], [2,2,1,4,1,1], [4,3,1,1,1,1], [1,1,1,2,2,4],
   [1,1,1,4,2,2], [1,2,1,1,2,4], [1,2,1,4,2,1], [1,4,1,1,2,2], [1,4,1,2,2,1], [1,1,2,2,1,4], [1,1,2,4,1,2], [1,2,2,1,1,4],
   [1,2,2,4,1,1], [1,4,2,1,1,2], [1,4,2,2,1,1], [2,4,1,2,1,1], [2,2,1,1,1,4], [4,1,3,1,1,1], [2,4,1,1,1,2], [1,3,4,1,1,1],
   [1,1,1,2,4,2], [1,2,1,1,4,2], [1,2,1,2,4,1], [1,1,4,2,1,2], [1,2,4,1,1,2], [1,2,4,2,1,1], [4,1,1,2,1,2], [4,2,1,1,1,2],
   [4,2,1,2,1,1], [2,1,2,1,4,1], [2,1,4,1,2,1], [4,1,2,1,2,1], [1,1,1,1,4,3], [1,1,1,3,4,1], [1,3,1,1,4,1], [1,1,4,1,1,3],
   [1,1,4,3,1,1], [4,1,1,1,1,3], [4,1,1,3,1,1], [1,1,3,1,4,1], [1,1,4,1,3,1], [3,1,1,1,4,1], [4,1,1,1,3,1], [2,1,1,4,1,2],
   [2,1,1,2,1,4], [2,1,1,2,3,2], [2,3,3,1,1,1,2]]

/-- `^[\x00-\x7f]+$` validation of `code128` (and `code93`). -/
def code128valid (s : List Char) : Bool :=
  !s.isEmpty && s.all fun c => c.toNat ≤ 127

theorem code128valid_codes (s : List Char) (h : code128valid s = true) :
    ∀ c ∈ s.map Char.toNat, c ≤ 127 := by
  unfold code128valid at h
  simp only [Bool.and_eq_true, List.all_eq_true, decide_eq_true_eq] at h
  intro c hc
  simp only [List.mem_map] at hc
  obtain ⟨ch, hch, rfl⟩ := hc
  exact h.2 ch hch

/-- The start dispatch of `code128`: the `^\d{2}$` fast path pushes
`startc, Number(s)`; otherwise the loop starts in code set C, A or B
(`startc`/`starta`/`startb` = 105/103/104). -/
def code128dispatch (s : List ℕ) (h : ∀ c ∈ s, c ≤ 127) : List ℕ :=
  if decide (s.length = 2) && isDigCode (s.getD 0 0) && isDigCode (s.getD 1 0) then
    [105, (s.getD 0 0 - 48) * 10 + (s.getD 1 0 - 48)]
  else if dig4 s then 105 :: encLoop .C s h
  else if ((s.find? fun c => !(32 ≤ c && c ≤ 95)).any fun cp => cp < 32) then
    103 :: encLoop .A s h
  else if s.isEmpty then []
  else 104 :: encLoop .B s h

/-- `d.reduce((a, c, i) => a + c * i)` (no seed): the first element enters as
the seed, so this is `d[0]` plus the position-weighted sum (whose index-0
term is zero anyway). -/
def c128wsum (d : List ℕ) : ℕ :=
  d.headD 0 + (d.enum.map fun p => p.2 * p.1).sum

theorem code128valid_ne_nil (s : List Char) (h : code128valid s = true) :
    ¬ s.length = 0 := by
  intro h0
  have hnil : s = [] := List.length_eq_zero.mp h0
  subst hnil
  simp [code128valid] at h

theorem code128valid_all127 (s : List Char) (h : code128valid s = true) :
    (s.all fun c => c.toNat ≤ 127) = true := by
  unfold code128valid at h
  simp only [Bool.and_eq_true] at h
  exact h.2

theorem codes_le_of_all (s : List Char) (h : (s.all fun c => c.toNat ≤ 127) = true) :
    ∀ v ∈ s.map Char.toNat, v ≤ 127 := by
  simp only [List.all_eq_true, decide_eq_true_eq] at h
  intro v hv
  simp only [List.mem_map] at hv
  obtain ⟨c, hc, rfl⟩ := hv
  exact h c hc

/-- `generate CODE128` (`code128`): on a surviving payload whose code units
are all at most 0x7f (every validated payload, and any remnant free of
characters above 0x7f), append the mod-103 check value and the stop code
106, look every code up in the element table (whose strings hold only the
digits 1-4 — and the quiet-zone character `a` — so the source's
`split`-and-`parseInt(c, 16)` of `m` gives the numeric element lists used
here, scaled by the module width); the HRI text replaces control codes and
0x7f by spaces.  A surviving code unit above 0x7f can be consumed by
neither code set, and `code128a`/`code128b` hand the rest of the string
back and forth forever (`none`). -/
def code128 (symbol : BarcodeSymbol) : Option BarcodeResult :=
  if (jsValidate code128valid symbol.data).length = 0 then some {} else
  if hok : ((jsValidate code128valid symbol.data).all fun c => c.toNat ≤ 127) = true then
    let d := code128dispatch ((jsValidate code128valid symbol.data).map Char.toNat)
      (codes_le_of_all _ hok)
    let dfull := d ++ [c128wsum d % 103, 106]
    some { hri := some symbol.hri
           text := some ((jsValidate code128valid symbol.data).map fun c =>
             if c.toNat ≤ 32 || c.toNat = 127 then ' ' else c)
           widths := some (((if symbol.quietZone then [10] else [0])
             ++ (dfull.flatMap fun v => List.getD c128element v [])
             ++ (if symbol.quietZone then [10] else [0])).map
             fun v => some (v * symbol.width))
           length := some ((symbol.width : ℤ)
             * (dfull.length * 11 + (if symbol.quietZone then 22 else 2)))
           height := some symbol.height }
  else none

/-- The dispatch of `generate` (src/barcode.ts lines 427-457): `none` models
a thrown `TypeError` or a diverging code-set loop escaping `generate`. -/
def generate (symbol : BarcodeSymbol) : Option BarcodeResult :=
  match symbol.btype with
  | .upc => if symbol.data.length < 9 then upce symbol else upca symbol
  | .ean | .jan => if symbol.data.length < 9 then some (ean8 symbol) else ean13 symbol
  | .code39 => some (code39 symbol)
  | .itf => itf symbol
  | .codabar | .nw7 => some (codabar symbol)
  | .code93 => some (code93 symbol)
  | .code128 => code128 symbol

/-- The validation each branch of `generate` applies to its payload (each
encoder's `data.replace(/((?!^...$).)*/, '')` test). -/
def validPayload (symbol : BarcodeSymbol) : Bool :=
  match symbol.btype with
  | .upc => if symbol.data.length < 9 then upcevalid symbol.data
            else ean13valid ('0' :: symbol.data)
  | .ean | .jan => if symbol.data.length < 9 then ean8valid symbol.data
                   else ean13valid symbol.data
  | .code39 => code39valid symbol.data
  | .itf => itfvalid symbol.data
  | .codabar | .nw7 => codabarvalid symbol.data
  | .code93 => code93valid symbol.data
  | .code128 => code128valid symbol.data

/-- C8 (code bug).  The claimed guarantee — an invalid payload yields the
empty result object and never an error — fails for invalid payloads
containing a line terminator: the validation `replace` deletes only the
prefix before the first line terminator and the surviving remnant is
encoded.  `generate` on the invalid EAN payload `"\n123456789012"` returns
a populated result (HRI `0123456789012`), and on the invalid ITF payload
`"12\n34"` the remnant `"\n34"` maps to the odd digit array `[0, 3, 4]`,
whose dangling pair reads `i25.element[undefined]` and throws a `TypeError`
at `s[j]` (`none` in the embedding). -/
theorem c8_invalid_payload_diverges :
    (validPayload ⟨BarType.ean, "\n123456789012".toList, false, 2, 72, false⟩ = false ∧
      generate ⟨BarType.ean, "\n123456789012".toList, false, 2, 72, false⟩
        ≠ some emptyResult ∧
      (generate ⟨BarType.ean, "\n123456789012".toList, false, 2, 72, false⟩).map
          (fun r => r.text)
        = some (some ("0123456789012".toList))) ∧
    (validPayload ⟨BarType.itf, "12\n34".toList, false, 2, 72, false⟩ = false ∧
      generate ⟨BarType.itf, "12\n34".toList, false, 2, 72, false⟩ = none) := by
  decide


/- ## C7: CODE128 widths decode back to values, check and stop. -/

theorem takeA_vals_le (s : List ℕ) : ∀ x ∈ (takeA s).1, x ≤ 105 := by
  induction s with
  | nil => simp [takeA]
  | cons a rest ih =>
    by_cases hc : (a ≤ 95 && !dig4 (a :: rest)) = true
    · simp only [takeA, hc, if_true]
      intro x hx
      rcases List.mem_cons.mp hx with rfl | hx
      · have : (a + 64) % 96 < 96 := Nat.mod_lt _ (by omega)
        omega
      · exact ih x hx
    · simp [takeA, hc]

theorem takeB_vals_le (s : List ℕ) : ∀ x ∈ (takeB s).1, x ≤ 105 := by
  induction s with
  | nil => simp [takeB]
  | cons a rest ih =>
    by_cases hc : ((32 ≤ a && a ≤ 127) && !dig4 (a :: rest)) = true
    · simp only [takeB, hc, if_true]
      intro x hx
      rcases List.mem_cons.mp hx with rfl | hx
      · have ha : a ≤ 127 := by
          simp only [Bool.and_eq_true, decide_eq_true_eq] at hc
          exact hc.1.2
        omega
      · exact ih x hx
    · simp [takeB, hc]

theorem oddAdjA_vals_le (l : List ℕ) :
    ∀ x ∈ (oddAdj (fun c => (c + 64) % 96) l).1, x ≤ 105 := by
  cases l with
  | nil => simp [oddAdj]
  | cons a rest =>
    by_cases hc : (isDigCode a && decide (4 ≤ (rest.takeWhile isDigCode).length)
        && decide ((rest.takeWhile isDigCode).length % 2 = 0)) = true
    · simp only [oddAdj, hc, if_true]
      intro x hx
      rcases List.mem_singleton.mp hx with rfl
      have : (a + 64) % 96 < 96 := Nat.mod_lt _ (by omega)
      omega
    · simp [oddAdj, hc]

theorem oddAdjB_vals_le (l : List ℕ) :
    ∀ x ∈ (oddAdj (fun c => c - 32) l).1, x ≤ 105 := by
  cases l with
  | nil => simp [oddAdj]
  | cons a rest =>
    by_cases hc : (isDigCode a && decide (4 ≤ (rest.takeWhile isDigCode).length)
        && decide ((rest.takeWhile isDigCode).length % 2 = 0)) = true
    · simp only [oddAdj, hc, if_true]
      intro x hx
      rcases List.mem_singleton.mp hx with rfl
      have ha : a ≤ 57 := by
        simp only [Bool.and_eq_true, decide_eq_true_eq, isDigCode] at hc
        omega
      omega
    · simp [oddAdj, hc]

theorem c128pairs_vals_le : ∀ (l : List ℕ), (∀ x ∈ l, isDigCode x = true) →
    ∀ x ∈ (c128pairs l).1, x ≤ 105
  | [] => by simp [c128pairs]
  | [x] => by simp [c128pairs]
  | a :: b :: rest => by
    intro hdig x hx
    simp only [c128pairs, List.mem_cons] at hx
    rcases hx with rfl | hx
    · have ha : a ≤ 57 := by
        have := hdig a (by simp)
        simp only [isDigCode, Bool.and_eq_true, decide_eq_true_eq] at this
        omega
      have hb : b ≤ 57 := by
        have := hdig b (by simp)
        simp only [isDigCode, Bool.and_eq_true, decide_eq_true_eq] at this
        omega
      omega
    · exact c128pairs_vals_le rest (fun y hy => hdig y (by simp [hy])) x hx

theorem takeC_vals_le (s : List ℕ) : ∀ x ∈ (takeC s).1, x ≤ 105 := by
  unfold takeC
  by_cases hd : dig4 s = true
  · simp only [hd, if_true]
    exact c128pairs_vals_le _ fun y hy => List.mem_takeWhile_imp hy
  · simp [hd]

theorem run4_dig4 (l : List ℕ) (h : 4 ≤ (l.takeWhile isDigCode).length) :
    dig4 l = true := by
  cases l with
  | nil => simp [List.takeWhile_nil] at h
  | cons a l1 =>
    by_cases ha : isDigCode a = true
    · cases l1 with
      | nil => simp [List.takeWhile_cons, ha] at h
      | cons b l2 =>
        by_cases hb : isDigCode b = true
        · cases l2 with
          | nil => simp [List.takeWhile_cons, ha, hb] at h
          | cons c l3 =>
            by_cases hc : isDigCode c = true
            · cases l3 with
              | nil => simp [List.takeWhile_cons, ha, hb, hc] at h
              | cons d l4 =>
                by_cases hd : isDigCode d = true
                · simp [dig4, ha, hb, hc, hd]
                · simp [List.takeWhile_cons, ha, hb, hc, hd] at h
            · simp [List.takeWhile_cons, ha, hb, hc] at h
        · simp [List.takeWhile_cons, ha, hb] at h
    · simp [List.takeWhile_cons, ha] at h

theorem oddAdj_consumed_dig4 (e : ℕ → ℕ) (l : List ℕ)
    (h : (oddAdj e l).2.length < l.length) : dig4 (oddAdj e l).2 = true := by
  cases l with
  | nil => simp [oddAdj] at h
  | cons a rest =>
    by_cases hc : (isDigCode a && decide (4 ≤ (rest.takeWhile isDigCode).length)
        && decide ((rest.takeWhile isDigCode).length % 2 = 0)) = true
    · simp only [oddAdj, hc, if_true]
      have h4 : 4 ≤ (rest.takeWhile isDigCode).length := by
        simp only [Bool.and_eq_true, decide_eq_true_eq] at hc
        exact hc.1.2
      exact run4_dig4 rest h4
    · simp [oddAdj, hc] at h

theorem takeA_rest_canConsume (s : List ℕ) : canConsume .A (takeA s).2 = false := by
  induction s with
  | nil => simp [takeA, canConsume]
  | cons a rest ih =>
    by_cases hc : (a ≤ 95 && !dig4 (a :: rest)) = true
    · simpa [takeA, hc] using ih
    · simp only [takeA, hc, if_false]
      simpa [canConsume] using hc

theorem takeB_rest_canConsume (s : List ℕ) : canConsume .B (takeB s).2 = false := by
  induction s with
  | nil => simp [takeB, canConsume]
  | cons a rest ih =>
    by_cases hc : ((32 ≤ a && a ≤ 127) && !dig4 (a :: rest)) = true
    · simpa [takeB, hc] using ih
    · simp only [takeB, hc, if_false]
      simpa [canConsume] using hc

theorem encLoopA_eq (s : List ℕ) (h : ∀ c ∈ s, c ≤ 127) :
    encLoop .A s h =
      (if dig4 (oddAdj (fun c => (c + 64) % 96) (takeA s).2).2 = true then
        ((takeA s).1 ++ (oddAdj (fun c => (c + 64) % 96) (takeA s).2).1) ++
          99 :: encLoop .C (oddAdj (fun c => (c + 64) % 96) (takeA s).2).2
            (fun c hc => h c (takeA_rest_mem s c (oddAdj_rest_mem _ (takeA s).2 c hc)))
      else if (((oddAdj (fun c => (c + 64) % 96) (takeA s).2).2.tail.find?
          fun c => !(32 ≤ c && c ≤ 95)).any fun cp => cp < 32) = true then
        ((takeA s).1 ++ (oddAdj (fun c => (c + 64) % 96) (takeA s).2).1) ++
          98 :: ((oddAdj (fun c => (c + 64) % 96) (takeA s).2).2.headD 0 - 32) ::
          encLoop .A (oddAdj (fun c => (c + 64) % 96) (takeA s).2).2.tail
            (fun c hc => h c (takeA_rest_mem s c
              (oddAdj_rest_mem _ (takeA s).2 c (List.mem_of_mem_tail hc))))
      else if (oddAdj (fun c => (c + 64) % 96) (takeA s).2).2.isEmpty = true then
        (takeA s).1 ++ (oddAdj (fun c => (c + 64) % 96) (takeA s).2).1
      else
        ((takeA s).1 ++ (oddAdj (fun c => (c + 64) % 96) (takeA s).2).1) ++
          100 :: encLoop .B (oddAdj (fun c => (c + 64) % 96) (takeA s).2).2
            (fun c hc => h c (takeA_rest_mem s c (oddAdj_rest_mem _ (takeA s).2 c hc)))) := by
  conv_lhs => rw [encLoop]
  rfl

theorem encLoopB_eq (s : List ℕ) (h : ∀ c ∈ s, c ≤ 127) :
    encLoop .B s h =
      (if dig4 (oddAdj (fun c => c - 32) (takeB s).2).2 = true then
        ((takeB s).1 ++ (oddAdj (fun c => c - 32) (takeB s).2).1) ++
          99 :: encLoop .C (oddAdj (fun c => c - 32) (takeB s).2).2
            (fun c hc => h c (takeB_rest_mem s c (oddAdj_rest_mem _ (takeB s).2 c hc)))
      else if (((oddAdj (fun c => c - 32) (takeB s).2).2.tail.find?
          fun c => !(32 ≤ c && c ≤ 95)).any fun cp => 95 < cp) = true then
        ((takeB s).1 ++ (oddAdj (fun c => c - 32) (takeB s).2).1) ++
          98 :: ((oddAdj (fun c => c - 32) (takeB s).2).2.headD 0 + 64) ::
          encLoop .B (oddAdj (fun c => c - 32) (takeB s).2).2.tail
            (fun c hc => h c (takeB_rest_mem s c
              (oddAdj_rest_mem _ (takeB s).2 c (List.mem_of_mem_tail hc))))
      else if (oddAdj (fun c => c - 32) (takeB s).2).2.isEmpty = true then
        (takeB s).1 ++ (oddAdj (fun c => c - 32) (takeB s).2).1
      else
        ((takeB s).1 ++ (oddAdj (fun c => c - 32) (takeB s).2).1) ++
          101 :: encLoop .A (oddAdj (fun c => c - 32) (takeB s).2).2
            (fun c hc => h c (takeB_rest_mem s c (oddAdj_rest_mem _ (takeB s).2 c hc)))) := by
  conv_lhs => rw [encLoop]
  rfl

theorem encLoopC_eq (s : List ℕ) (h : ∀ c ∈ s, c ≤ 127) :
    encLoop .C s h =
      (if (((takeC s).2.find? fun c => !(32 ≤ c && c ≤ 95)).any
          fun cp => cp < 32) = true then
        (takeC s).1 ++ 101 :: encLoop .A (takeC s).2
          (fun c hc => h c (takeC_rest_mem s c hc))
      else if (takeC s).2.isEmpty = true then (takeC s).1
      else (takeC s).1 ++ 100 :: encLoop .B (takeC s).2
        (fun c hc => h c (takeC_rest_mem s c hc))) := by
  conv_lhs => rw [encLoop]
  rfl

theorem encLoop_le (mode : C128Mode) (s : List ℕ) (h : ∀ c ∈ s, c ≤ 127) :
    ∀ x ∈ encLoop mode s h, x ≤ 105 := by
  induction mode, s, h using encLoop.induct with
  | case1 s h t1 t2 h2 hd4 ih =>
    have ht2 : t2 = oddAdj (fun c => (c + 64) % 96) (takeA s).2 := rfl
    rw [ht2] at hd4
    intro x hx
    rw [encLoopA_eq, if_pos hd4] at hx
    rcases List.mem_append.mp hx with hx | hx
    · rcases List.mem_append.mp hx with hx | hx
      · exact takeA_vals_le s x hx
      · exact oddAdjA_vals_le _ x hx
    · rcases List.mem_cons.mp hx with rfl | hx
      · omega
      · exact ih x hx
  | case2 s h t1 t2 h2 hd4 hsh ih =>
    have ht2 : t2 = oddAdj (fun c => (c + 64) % 96) (takeA s).2 := rfl
    rw [ht2] at hd4 hsh
    intro x hx
    rw [encLoopA_eq, if_neg hd4, if_pos hsh] at hx
    rcases List.mem_append.mp hx with hx | hx
    · rcases List.mem_append.mp hx with hx | hx
      · exact takeA_vals_le s x hx
      · exact oddAdjA_vals_le _ x hx
    · rcases List.mem_cons.mp hx with rfl | hx
      · omega
      · rcases List.mem_cons.mp hx with rfl | hx
        · have hnt := (find_bad_lt_head_le _ hsh).1
          have hne : (oddAdj (fun c => (c + 64) % 96) (takeA s).2).2 ≠ [] := by
            intro hh
            rw [hh] at hnt
            exact hnt rfl
          have hle : (oddAdj (fun c => (c + 64) % 96) (takeA s).2).2.headD 0 ≤ 127 :=
            h _ (takeA_rest_mem s _ (oddAdj_rest_mem _ _ _ (headD_mem _ hne)))
          omega
        · exact ih x hx
  | case3 s h t1 t2 h2 hd4 hsh hne =>
    have ht2 : t2 = oddAdj (fun c => (c + 64) % 96) (takeA s).2 := rfl
    rw [ht2] at hd4 hsh hne
    intro x hx
    rw [encLoopA_eq, if_neg hd4, if_neg hsh, if_pos hne] at hx
    rcases List.mem_append.mp hx with hx | hx
    · exact takeA_vals_le s x hx
    · exact oddAdjA_vals_le _ x hx
  | case4 s h t1 t2 h2 hd4 hsh hne ih =>
    have ht2 : t2 = oddAdj (fun c => (c + 64) % 96) (takeA s).2 := rfl
    rw [ht2] at hd4 hsh hne
    intro x hx
    rw [encLoopA_eq, if_neg hd4, if_neg hsh, if_neg hne] at hx
    rcases List.mem_append.mp hx with hx | hx
    · rcases List.mem_append.mp hx with hx | hx
      · exact takeA_vals_le s x hx
      · exact oddAdjA_vals_le _ x hx
    · rcases List.mem_cons.mp hx with rfl | hx
      · omega
      · exact ih x hx
  | case5 s h t1 t2 h2 hd4 ih =>
    have ht2 : t2 = oddAdj (fun c => c - 32) (takeB s).2 := rfl
    rw [ht2] at hd4
    intro x hx
    rw [encLoopB_eq, if_pos hd4] at hx
    rcases List.mem_append.mp hx with hx | hx
    · rcases List.mem_append.mp hx with hx | hx
      · exact takeB_vals_le s x hx
      · exact oddAdjB_vals_le _ x hx
    · rcases List.mem_cons.mp hx with rfl | hx
      · omega
      · exact ih x hx
  | case6 s h t1 t2 h2 hd4 hsh ih =>
    have ht2 : t2 = oddAdj (fun c => c - 32) (takeB s).2 := rfl
    rw [ht2] at hd4 hsh
    intro x hx
    rw [encLoopB_eq, if_neg hd4, if_pos hsh] at hx
    rcases List.mem_append.mp hx with hx | hx
    · rcases List.mem_append.mp hx with hx | hx
      · exact takeB_vals_le s x hx
      · exact oddAdjB_vals_le _ x hx
    · rcases List.mem_cons.mp hx with rfl | hx
      · omega
      · rcases List.mem_cons.mp hx with rfl | hx
        · have hnt : (oddAdj (fun c => c - 32) (takeB s).2).2.tail ≠ [] := by
            intro hh
            rw [hh] at hsh
            simp [List.find?] at hsh
          have hnee : (oddAdj (fun c => c - 32) (takeB s).2).2 ≠ [] := by
            intro hh
            rw [hh] at hnt
            exact hnt rfl
          have hd4f : dig4 (oddAdj (fun c => c - 32) (takeB s).2).2 = false := by
            rw [Bool.not_eq_true] at hd4
            exact hd4
          have heq : (oddAdj (fun c => c - 32) (takeB s).2).2 = (takeB s).2 := by
            rcases oddAdj_eq_or_lt (fun c => c - 32) (takeB s).2 with he | hlt
            · exact he
            · rw [oddAdj_consumed_dig4 _ _ hlt] at hd4f
              exact absurd hd4f (by simp)
          have hcc : canConsume .B (oddAdj (fun c => c - 32) (takeB s).2).2 = false := by
            rw [heq]
            exact takeB_rest_canConsume s
          have hle : (oddAdj (fun c => c - 32) (takeB s).2).2.headD 0 ≤ 127 :=
            h _ (takeB_rest_mem s _ (oddAdj_rest_mem _ _ _ (headD_mem _ hnee)))
          have hlt32 := canConsumeB_false_elim _ hnee hd4f hle hcc
          omega
        · exact ih x hx
  | case7 s h t1 t2 h2 hd4 hsh hne =>
    have ht2 : t2 = oddAdj (fun c => c - 32) (takeB s).2 := rfl
    rw [ht2] at hd4 hsh hne
    intro x hx
    rw [encLoopB_eq, if_neg hd4, if_neg hsh, if_pos hne] at hx
    rcases List.mem_append.mp hx with hx | hx
    · exact takeB_vals_le s x hx
    · exact oddAdjB_vals_le _ x hx
  | case8 s h t1 t2 h2 hd4 hsh hne ih =>
    have ht2 : t2 = oddAdj (fun c => c - 32) (takeB s).2 := rfl
    rw [ht2] at hd4 hsh hne
    intro x hx
    rw [encLoopB_eq, if_neg hd4, if_neg hsh, if_neg hne] at hx
    rcases List.mem_append.mp hx with hx | hx
    · rcases List.mem_append.mp hx with hx | hx
      · exact takeB_vals_le s x hx
      · exact oddAdjB_vals_le _ x hx
    · rcases List.mem_cons.mp hx with rfl | hx
      · omega
      · exact ih x hx
  | case9 s h t1 h2 hsh ih =>
    have ht1 : t1 = takeC s := rfl
    rw [ht1] at hsh
    intro x hx
    rw [encLoopC_eq, if_pos hsh] at hx
    rcases List.mem_append.mp hx with hx | hx
    · exact takeC_vals_le s x hx
    · rcases List.mem_cons.mp hx with rfl | hx
      · omega
      · exact ih x hx
  | case10 s h t1 h2 hsh hne =>
    have ht1 : t1 = takeC s := rfl
    rw [ht1] at hsh hne
    intro x hx
    rw [encLoopC_eq, if_neg hsh, if_pos hne] at hx
    exact takeC_vals_le s x hx
  | case11 s h t1 h2 hsh hne ih =>
    have ht1 : t1 = takeC s := rfl
    rw [ht1] at hsh hne
    intro x hx
    rw [encLoopC_eq, if_neg hsh, if_neg hne] at hx
    rcases List.mem_append.mp hx with hx | hx
    · exact takeC_vals_le s x hx
    · rcases List.mem_cons.mp hx with rfl | hx
      · omega
      · exact ih x hx

theorem code128dispatch_le (s : List ℕ) (h : ∀ c ∈ s, c ≤ 127) :
    ∀ x ∈ code128dispatch s h, x ≤ 105 := by
  unfold code128dispatch
  by_cases h2 : (decide (s.length = 2) && isDigCode (s.getD 0 0) && isDigCode (s.getD 1 0)) = true
  · rw [if_pos h2]
    intro x hx
    have hd : s.getD 0 0 ≤ 57 ∧ s.getD 1 0 ≤ 57 := by
      simp only [Bool.and_eq_true, isDigCode, decide_eq_true_eq] at h2
      omega
    rcases List.mem_cons.mp hx with rfl | hx
    · omega
    · rcases List.mem_singleton.mp hx with rfl
      omega
  · rw [if_neg h2]
    by_cases hd4 : dig4 s = true
    · rw [if_pos hd4]
      intro x hx
      rcases List.mem_cons.mp hx with rfl | hx
      · omega
      · exact encLoop_le .C s h x hx
    · rw [if_neg hd4]
      by_cases hsh : ((s.find? fun c => !(32 ≤ c && c ≤ 95)).any fun cp => cp < 32) = true
      · rw [if_pos hsh]
        intro x hx
        rcases List.mem_cons.mp hx with rfl | hx
        · omega
        · exact encLoop_le .A s h x hx
      · rw [if_neg hsh]
        by_cases hne : s.isEmpty = true
        · rw [if_pos hne]
          simp
        · rw [if_neg hne]
          intro x hx
          rcases List.mem_cons.mp hx with rfl | hx
          · omega
          · exact encLoop_le .B s h x hx

/- ## Decoding the module widths back through the element table. -/

/-- Decode a flat module-width digit sequence by cutting six digits at a
time and looking each group up in the CODE128 element table; the final
seven-digit group must be the stop pattern (index 106). -/
def c128decode (w : List ℕ) : Option (List ℕ) :=
  if w = List.getD c128element 106 [] then some [106]
  else if h6 : 6 ≤ w.length then
    match c128element.findIdx? fun e => e == w.take 6 with
    | some i => (c128decode (w.drop 6)).map fun rest => i :: rest
    | none => none
  else none
termination_by w.length
decreasing_by simp only [List.length_drop]; omega

theorem c128element_len6_aux : ((List.range 106).all fun v =>
    (List.getD c128element v []).length == 6) = true := by decide

theorem c128element_distinct_aux : ((List.range 106).all fun v =>
    (List.range v).all fun i =>
      !(List.getD c128element i [] == List.getD c128element v [])) = true := by decide

theorem c128element_len6 (v : ℕ) (hv : v ≤ 105) :
    (List.getD c128element v []).length = 6 := by
  have h := c128element_len6_aux
  simp only [List.all_eq_true, List.mem_range, beq_iff_eq] at h
  exact h v (by omega)

theorem c128element_distinct (i v : ℕ) (hi : i < v) (hv : v ≤ 105) :
    List.getD c128element i [] ≠ List.getD c128element v [] := by
  have h := c128element_distinct_aux
  simp only [List.all_eq_true, List.mem_range, Bool.not_eq_true', beq_eq_false_iff_ne,
    ne_eq] at h
  exact h v (by omega) i hi

theorem c128element_stop_len : (List.getD c128element 106 []).length = 7 := by decide

theorem c128element_length : c128element.length = 107 := by decide

theorem findIdx?_getD_eq (l : List (List ℕ)) : ∀ (v : ℕ), v < l.length →
    (∀ i, i < v → List.getD l i [] ≠ List.getD l v []) →
    (l.findIdx? fun e => e == List.getD l v []) = some v := by
  induction l with
  | nil =>
    intro v hv
    simp at hv
  | cons a t ih =>
    intro v hv hdist
    cases v with
    | zero =>
      simp [List.findIdx?_cons]
    | succ w =>
      have hne : (a == List.getD (a :: t) (w + 1) []) = false := by
        have h0 := hdist 0 (by omega)
        simp only [List.getD_cons_zero] at h0
        simpa using h0
      rw [List.findIdx?_cons, hne]
      simp only [Bool.false_eq_true, if_false]
      rw [List.findIdx?_succ]
      have ht : (t.findIdx? fun e => e == List.getD (a :: t) (w + 1) []) = some w := by
        simp only [List.getD_cons_succ]
        exact ih w (by simpa using hv)
          (fun i hi => by
            have := hdist (i + 1) (by omega)
            simpa [List.getD_cons_succ] using this)
      rw [ht]
      rfl

theorem c128decode_roundtrip : ∀ (L : List ℕ), (∀ v ∈ L, v ≤ 105) →
    c128decode ((L.flatMap fun v => List.getD c128element v [])
        ++ List.getD c128element 106 []) = some (L ++ [106])
  | [], _ => by
    simp only [List.flatMap_nil, List.nil_append]
    rw [c128decode]
    simp
  | v :: L, h => by
    have hv : v ≤ 105 := h v (by simp)
    have hlen6 := c128element_len6 v hv
    have hw : (((v :: L).flatMap fun u => List.getD c128element u [])
          ++ List.getD c128element 106 [])
        = List.getD c128element v [] ++
          ((L.flatMap fun u => List.getD c128element u [])
            ++ List.getD c128element 106 []) := by
      simp [List.flatMap_cons, List.append_assoc]
    have hne1 : List.getD c128element v [] ++
        ((L.flatMap fun u => List.getD c128element u [])
          ++ List.getD c128element 106 []) ≠ List.getD c128element 106 [] := by
      intro heq
      have hlen := congrArg List.length heq
      rw [List.length_append, List.length_append, hlen6, c128element_stop_len] at hlen
      omega
    have h6 : 6 ≤ (List.getD c128element v [] ++
        ((L.flatMap fun u => List.getD c128element u [])
          ++ List.getD c128element 106 [])).length := by
      rw [List.length_append, hlen6]
      omega
    have htake : (List.getD c128element v [] ++
        ((L.flatMap fun u => List.getD c128element u [])
          ++ List.getD c128element 106 [])).take 6 = List.getD c128element v [] := by
      rw [← hlen6]
      exact List.take_left _ _
    have hdrop : (List.getD c128element v [] ++
        ((L.flatMap fun u => List.getD c128element u [])
          ++ List.getD c128element 106 [])).drop 6
        = (L.flatMap fun u => List.getD c128element u [])
          ++ List.getD c128element 106 [] := by
      rw [← hlen6]
      exact List.drop_left _ _
    have hfind : (c128element.findIdx? fun e => e ==
        (List.getD c128element v [] ++
          ((L.flatMap fun u => List.getD c128element u [])
            ++ List.getD c128element 106 [])).take 6) = some v := by
      rw [htake]
      exact findIdx?_getD_eq c128element v (by rw [c128element_length]; omega)
        (fun i hi => c128element_distinct i v hi hv)
    rw [hw, c128decode, if_neg hne1, dif_pos h6, hfind]
    rw [hdrop, c128decode_roundtrip L (fun u hu => h u (by simp [hu]))]
    rfl

theorem map_mul_div (w : ℕ) (hw : 1 ≤ w) (l : List ℕ) :
    (l.map (· * w)).map (· / w) = l := by
  rw [List.map_map]
  have hcomp : ((· / w) ∘ (· * w) : ℕ → ℕ) = id := by
    funext x
    simp only [Function.comp_apply, id_eq]
    exact Nat.mul_div_cancel x hw
  rw [hcomp, List.map_id]

/-- C7.  For every payload accepted by the CODE128 encoder and every
positive module width, the encoder returns a populated result, and
stripping the two quiet-zone entries from the emitted widths, dividing by
the module width and decoding six digits at a time through the element
table recovers exactly the chosen code-value sequence, then the check
value, then the stop code 106 — where the check value is the start code
plus the sum of each subsequent value times its position, taken modulo 103
(`c128wsum d % 103`, the seedless `d.reduce((a, c, i) => a + c * i)`, in
which the start code enters as the seed and index 0 carries weight 0). -/
theorem c7_code128_roundtrip (symbol : BarcodeSymbol)
    (hv : code128valid symbol.data = true) (hw : 1 ≤ symbol.width) :
    ∃ res : BarcodeResult, ∃ ws : List ℕ, code128 symbol = some res ∧
      res.widths = some (ws.map some) ∧
      c128decode (((ws.drop 1).dropLast).map (· / symbol.width))
        = some (code128dispatch (symbol.data.map Char.toNat) (code128valid_codes _ hv)
            ++ [c128wsum (code128dispatch (symbol.data.map Char.toNat)
                  (code128valid_codes _ hv)) % 103, 106]) := by
  have hs := jsValidate_id code128valid symbol.data hv
  have hne := code128valid_ne_nil symbol.data hv
  have hall := code128valid_all127 symbol.data hv
  have hred : code128 symbol = some
      { hri := some symbol.hri
        text := some (symbol.data.map fun c =>
          if c.toNat ≤ 32 || c.toNat = 127 then ' ' else c)
        widths := some (((if symbol.quietZone then [10] else [0])
          ++ ((code128dispatch (symbol.data.map Char.toNat) (code128valid_codes _ hv)
                ++ [c128wsum (code128dispatch (symbol.data.map Char.toNat)
                      (code128valid_codes _ hv)) % 103, 106]).flatMap
              fun v => List.getD c128element v [])
          ++ (if symbol.quietZone then [10] else [0])).map
          fun v => some (v * symbol.width))
        length := some ((symbol.width : ℤ)
          * ((code128dispatch (symbol.data.map Char.toNat) (code128valid_codes _ hv)
                ++ [c128wsum (code128dispatch (symbol.data.map Char.toNat)
                      (code128valid_codes _ hv)) % 103, 106]).length * 11
            + (if symbol.quietZone then 22 else 2)))
        height := some symbol.height } := by
    unfold code128
    simp only [hs]
    rw [if_neg hne, dif_pos hall]
  refine ⟨_, ((if symbol.quietZone then ([10] : List ℕ) else [0])
      ++ ((code128dispatch (symbol.data.map Char.toNat) (code128valid_codes _ hv)
            ++ [c128wsum (code128dispatch (symbol.data.map Char.toNat)
                  (code128valid_codes _ hv)) % 103, 106]).flatMap
          fun v => List.getD c128element v [])
      ++ (if symbol.quietZone then ([10] : List ℕ) else [0])).map (· * symbol.width),
    hred, ?_, ?_⟩
  · show some _ = some _
    rw [List.map_map]
    rfl
  · have hqz : ∃ qv : ℕ, (if symbol.quietZone then ([10] : List ℕ) else [0]) = [qv] := by
      cases symbol.quietZone
      · exact ⟨0, rfl⟩
      · exact ⟨10, rfl⟩
    obtain ⟨qv, hq⟩ := hqz
    set D := code128dispatch (symbol.data.map Char.toNat) (code128valid_codes _ hv)
      with hD
    set mid := ((D ++ [c128wsum D % 103, 106]).flatMap
      fun v => List.getD c128element v []) with hmid
    have hstrip : (((([qv] ++ mid ++ [qv]).map (· * symbol.width)).drop 1).dropLast).map
        (· / symbol.width) = mid := by
      have h1 : ([qv] ++ mid ++ [qv]).map (· * symbol.width)
          = (qv * symbol.width) ::
            (mid.map (· * symbol.width) ++ [qv * symbol.width]) := by
        simp [List.map_append]
      rw [h1]
      simp only [List.drop_succ_cons, List.drop_zero, List.dropLast_concat]
      exact map_mul_div symbol.width hw mid
    rw [hq, hstrip]
    have hsplit : mid = ((D ++ [c128wsum D % 103]).flatMap
        fun v => List.getD c128element v []) ++ List.getD c128element 106 [] := by
      rw [hmid]
      have h2 : D ++ [c128wsum D % 103, 106] = (D ++ [c128wsum D % 103]) ++ [106] := by
        simp
      rw [h2, List.flatMap_append]
      simp [List.flatMap_cons]
    rw [hsplit]
    have hbound : ∀ v ∈ D ++ [c128wsum D % 103], v ≤ 105 := by
      intro v hvmem
      rcases List.mem_append.mp hvmem with hvm | hvm
      · exact code128dispatch_le _ _ v hvm
      · rcases List.mem_singleton.mp hvm with rfl
        have : c128wsum D % 103 < 103 := Nat.mod_lt _ (by omega)
        omega
    rw [c128decode_roundtrip (D ++ [c128wsum D % 103]) hbound]
    simp

/-- Witness for C7 at the spec's scenario payload `1234567` with module
width 2. -/
theorem c7_witness :
    (code128valid ("1234567".toList) = true ∧
      1 ≤ (2 : ℕ)) ∧
    (∃ res : BarcodeResult, ∃ ws : List ℕ,
      code128 ⟨BarType.code128, "1234567".toList, false, 2, 72, false⟩ = some res ∧
      res.widths = some (ws.map some) ∧
      c128decode (((ws.drop 1).dropLast).map (· / 2))
        = some (code128dispatch (("1234567".toList).map Char.toNat)
              (code128valid_codes _ (by decide))
            ++ [c128wsum (code128dispatch (("1234567".toList).map Char.toNat)
                  (code128valid_codes _ (by decide))) % 103, 106])) :=
  ⟨⟨by decide, by omega⟩,
   c7_code128_roundtrip ⟨BarType.code128, "1234567".toList, false, 2, 72, false⟩
     (by decide) (by decide)⟩


/- ## Line parser (src/parse.ts `parseLine`).  Characters that the token
rules of this development cannot spell in literals (backslash, pipe,
braces, tab, newline) are named via `Char.ofNat`. -/

def chTab : Char := Char.ofNat 9
def chNL : Char := Char.ofNat 10
def chBS : Char := Char.ofNat 92
def chPipe : Char := Char.ofNat 124
def chLB : Char := Char.ofNat 123
def chRB : Char := Char.ofNat 125

def isSpTab (c : Char) : Bool := c = ' ' || c = chTab

/-- `^[\t ]+|[\t ]+$` trimming. -/
def trimSp (s : List Char) : List Char :=
  ((s.dropWhile isSpTab).reverse.dropWhile isSpTab).reverse

def isHexDigitCh (c : Char) : Bool :=
  isDigitCh c || ('A' ≤ c && c ≤ 'F') || ('a' ≤ c && c ≤ 'f')

def hexValCh (c : Char) : ℕ :=
  if isDigitCh c then c.toNat - 48
  else if 'A' ≤ c && c ≤ 'F' then c.toNat - 55
  else c.toNat - 87

/-- Lower-case hex digit, as produced by `toString(16)`. -/
def hexDigitCh (n : ℕ) : Char :=
  if n < 10 then Char.ofNat (48 + n) else Char.ofNat (87 + n)

def hex2 (n : ℕ) : List Char := [hexDigitCh (n / 16), hexDigitCh (n % 16)]

/-- `replace(/\\[\\{|}]/g, m => '\x' + code)`: protect escaped delimiters as
hexadecimal escapes so that splitting cannot see them. -/
def escDelims : List Char → List Char
  | [] => []
  | [c] => [c]
  | c :: d :: rest =>
    if c = chBS && (d = chBS || d = chLB || d = chPipe || d = chRB) then
      chBS :: 'x' :: (hex2 d.toNat ++ escDelims rest)
    else c :: escDelims (d :: rest)

/-- `^[^|]*[^\t |]\|`: the first pipe exists, is not the first character,
and the character before it is not blank. -/
def nlsGo (prev : Char) : List Char → Bool
  | [] => false
  | c :: rest => if c = chPipe then !isSpTab prev else nlsGo c rest

def needsBoundarySpace : List Char → Bool
  | [] => false
  | c :: rest => if c = chPipe then false else nlsGo c rest

/-- Split on (unescaped) pipes; always returns at least one column. -/
def splitPipe : List Char → List (List Char)
  | [] => [[]]
  | c :: rest =>
    let r := splitPipe rest
    if c = chPipe then [] :: r
    else (c :: r.headD []) :: r.tail

/-- Pass 1 of `parseEscape`: `replace(/\\$|\\x(.?$|[^\dA-Fa-f].|.[^\dA-Fa-f])/g, '')`. -/
def escPass1 : List Char → List Char
  | [] => []
  | [c] => if c = chBS then [] else [c]
  | c :: d :: rest =>
    if c = chBS && d = 'x' then
      match rest with
      | [] => []
      | [_] => []
      | e :: f :: rest2 =>
        if !isHexDigitCh e then escPass1 rest2
        else if !isHexDigitCh f then escPass1 rest2
        else c :: escPass1 (d :: e :: f :: rest2)
    else c :: escPass1 (d :: rest)

/-- Pass 2: `replace(/\\[^x]/g, '')`. -/
def escPass2 : List Char → List Char
  | [] => []
  | [c] => [c]
  | c :: d :: rest =>
    if c = chBS && d ≠ 'x' then escPass2 rest
    else c :: escPass2 (d :: rest)

/-- Pass 3: `replace(/\\x([\dA-Fa-f]{2})/g, fromCharCode)`. -/
def escPass3 : List Char → List Char
  | c :: d :: e :: f :: rest =>
    if c = chBS && d = 'x' && isHexDigitCh e && isHexDigitCh f then
      Char.ofNat (16 * hexValCh e + hexValCh f) :: escPass3 rest
    else c :: escPass3 (d :: e :: f :: rest)
  | s => s

def parseEscape (s : List Char) : List Char := escPass3 (escPass2 (escPass1 s))

/-- `replace(/\\n/g, '\n')`. -/
def escLF : List Char → List Char
  | [] => []
  | [c] => [c]
  | c :: d :: rest =>
    if c = chBS && d = 'n' then chNL :: escLF rest
    else c :: escLF (d :: rest)

/-- `replace(/\;/g, '\\x3b')`. -/
def escSemi : List Char → List Char
  | [] => []
  | [c] => [c]
  | c :: d :: rest =>
    if c = chBS && d = ';' then chBS :: 'x' :: '3' :: 'b' :: escSemi rest
    else c :: escSemi (d :: rest)

def splitOn (sep : Char) : List Char → List (List Char)
  | [] => [[]]
  | c :: rest =>
    let r := splitOn sep rest
    if c = sep then [] :: r
    else (c :: r.headD []) :: r.tail

def isWordStartCh (c : Char) : Bool :=
  ('A' ≤ c && c ≤ 'Z') || ('a' ≤ c && c ≤ 'z') || c = '_'

def isWordCh (c : Char) : Bool := isWordStartCh c || isDigitCh c

/-- `^[\t ]*([A-Za-z_]\w*)[\t ]*:[\t ]*([^\t ].*?)[\t ]*$`: key and value of
a property member, or `none` when the member does not match. -/
def parseMember (m : List Char) : Option (List Char × List Char) :=
  match m.dropWhile isSpTab with
  | [] => none
  | c :: rest =>
    if isWordStartCh c then
      let key := c :: rest.takeWhile isWordCh
      match (rest.dropWhile isWordCh).dropWhile isSpTab with
      | ':' :: v0 =>
        let v := ((v0.dropWhile isSpTab).reverse.dropWhile isSpTab).reverse
        if v = [] then none else some (key, v)
      | _ => none
    else none

/-- Single-letter abbreviations `{ a: align, b: border, c: code, i: image,
o: option, t: text, w: width, x: command, _: comment }`. -/
def expandKey (k : List Char) : List Char :=
  if k = ['a'] then "align".toList
  else if k = ['b'] then "border".toList
  else if k = ['c'] then "code".toList
  else if k = ['i'] then "image".toList
  else if k = ['o'] then "option".toList
  else if k = ['t'] then "text".toList
  else if k = ['w'] then "width".toList
  else if k = ['x'] then "command".toList
  else if k = ['_'] then "comment".toList
  else k

/-- Parsed property block.  Unrecognized keys are stored by the JS object as
well but never read anywhere, so they are not modelled. -/
structure ParsedProperty where
  align : Option (List Char) := none
  border : Option (List Char) := none
  code : Option (List Char) := none
  image : Option (List Char) := none
  option : Option (List Char) := none
  text : Option (List Char) := none
  width : Option (List Char) := none
  command : Option (List Char) := none
  comment : Option (List Char) := none
deriving DecidableEq, Repr

def setProp (p : ParsedProperty) (k v : List Char) : ParsedProperty :=
  if k = "align".toList then { p with align := some v }
  else if k = "border".toList then { p with border := some v }
  else if k = "code".toList then { p with code := some v }
  else if k = "image".toList then { p with image := some v }
  else if k = "option".toList then { p with option := some v }
  else if k = "text".toList then { p with text := some v }
  else if k = "width".toList then { p with width := some v }
  else if k = "command".toList then { p with command := some v }
  else if k = "comment".toList then { p with comment := some v }
  else p

/-- The member fold of the property block: a member matching the `key:value`
pattern stores the unescaped value (`\n` decoded first, then `parseEscape`).
The replace callback returns the match, so `replaced === member` holds for
every non-blank member and `result.error = element` is set whether or not the
pattern matched (the flag is never read downstream). -/
def foldMembers : List (List Char) → ParsedProperty → Bool → ParsedProperty × Bool
  | [], p, err => (p, err)
  | m :: rest, p, err =>
    if m.all isSpTab then foldMembers rest p err
    else
      match parseMember m with
      | some (k, v) => foldMembers rest (setProp p (expandKey k) (parseEscape (escLF v))) true
      | none => foldMembers rest p true


def chQuot : Char := Char.ofNat 34
def chBack : Char := Char.ofNat 96

def toLowerCh (c : Char) : Char :=
  if 'A' ≤ c && c ≤ 'Z' then Char.ofNat (c.toNat + 32) else c

def lowerStr (s : List Char) : List Char := s.map toLowerCh

def isDigits (s : List Char) : Bool := s ≠ [] && s.all isDigitCh

def natOfDigits (s : List Char) : ℕ := s.foldl (fun a c => 10 * a + digitVal c) 0

/-- `split(/[\t ]+|,/)`: a whitespace character extends the separator that
its successor starts, otherwise it starts a fresh separator. -/
def splitTokensGo : List Char → List (List Char)
  | [] => [[]]
  | c :: rest =>
    let r := splitTokensGo rest
    if isSpTab c then
      if isSpTab (rest.headD 'x') then r else [] :: r
    else if c = ',' then [] :: r
    else (c :: r.headD []) :: r.tail

inductive CodeType
  | upc | ean | jan | code39 | itf | codabar | nw7 | code93 | code128 | qrcode
deriving DecidableEq, Repr

/-- Barcode/QR option record held in the parser state.  `quietZone` is set
to `false` by every assignment in the parser. -/
structure CodeOptions where
  ctype : CodeType
  width : ℕ
  height : ℕ
  hri : Bool
  cell : ℕ
  level : Char
  quietZone : Bool
deriving DecidableEq, Repr

/-- `result.code`: data plus a copy of `state.option`.  The source builds it
with `Object.assign({data, type}, state.option)`, so the spread's `type`
key always wins and one record covers both the barcode and qrcode shapes. -/
structure CodeSpec where
  data : List Char
  opts : CodeOptions
deriving DecidableEq, Repr

inductive LineState
  | waiting | ready | running | horizontal
deriving DecidableEq, Repr

structure Rules where
  left : ℤ
  width : ℤ
  right : ℤ
  widths : List ℤ
deriving DecidableEq, Repr

structure ParseState where
  wrap : Bool
  border : ℤ
  width : List ℤ
  align : ℕ
  option : CodeOptions
  line : LineState
  rules : Rules
deriving DecidableEq, Repr

def initialState : ParseState :=
  { wrap := true, border := 1, width := [], align := 1,
    option := { ctype := .code128, width := 2, height := 72, hri := false,
                cell := 3, level := 'l', quietZone := false },
    line := .waiting, rules := { left := 0, width := 0, right := 0, widths := [] } }

structure ParsedColumn where
  align : ℕ
  wrap : Bool
  border : ℤ
  width : ℤ
  alignment : ℕ
  text : Option (List (List Char)) := none
  property : Option ParsedProperty := none
  code : Option CodeSpec := none
  image : Option (List Char) := none
  command : Option (List Char) := none
  comment : Option (List Char) := none
  hr : Option Char := none
  vr : Option Char := none
  error : Option (List Char) := none
deriving DecidableEq, Repr

/-- `state.wrap = !/^nowrap$/.test(c)`. -/
def applyTextProp (st : ParseState) (p : ParsedProperty) : ParseState :=
  match p.text with
  | some v => if v ≠ [] then { st with wrap := !(lowerStr v = "nowrap".toList) } else st
  | none => st

def borderOfValue (c : List Char) : ℤ :=
  if c = "line".toList then -1
  else if c = "space".toList then 1
  else if c = "none".toList then 0
  else if isDigits c && natOfDigits c ≤ 2 then (natOfDigits c : ℤ)
  else 1

/-- Border property: updates `state.border` and reports the vertical-rule
start/stop marker for the transition between negative (line mode) and
non-negative (space mode) borders. -/
def applyBorderProp (st : ParseState) (p : ParsedProperty) : ParseState × Option Char :=
  match p.border with
  | some v =>
    if v ≠ [] then
      let previous := st.border
      let nb := borderOfValue (lowerStr v)
      let vrm : Option Char :=
        if previous ≥ 0 && nb < 0 then some '+'
        else if previous < 0 && nb ≥ 0 then some '-'
        else none
      ({ st with border := nb }, vrm)
    else (st, none)
  | none => (st, none)

def widthOfTok (t : List Char) : ℤ :=
  if t = ['*'] then -1
  else if isDigits t then (natOfDigits t : ℤ)
  else 0

def applyWidthProp (st : ParseState) (p : ParsedProperty) : ParseState :=
  match p.width with
  | some v =>
    if v ≠ [] then
      let toks := splitTokensGo (lowerStr v)
      { st with width := if toks.any (· = "auto".toList) then [] else toks.map widthOfTok }
    else st
  | none => st

def applyAlignProp (st : ParseState) (p : ParsedProperty) : ParseState :=
  match p.align with
  | some v =>
    if v ≠ [] then
      let c := lowerStr v
      { st with align :=
          if c = "left".toList then 0
          else if c = "center".toList then 1
          else if c = "right".toList then 2
          else 1 }
    else st
  | none => st

def codeTypeOfTok (t : List Char) : Option CodeType :=
  if t = "upc".toList then some .upc
  else if t = "ean".toList then some .ean
  else if t = "jan".toList then some .jan
  else if t = "code39".toList then some .code39
  else if t = "itf".toList then some .itf
  else if t = "codabar".toList then some .codabar
  else if t = "nw7".toList then some .nw7
  else if t = "code93".toList then some .code93
  else if t = "code128".toList then some .code128
  else if t = "qrcode".toList then some .qrcode
  else none

def optionFromTokens (toks : List (List Char)) : CodeOptions :=
  { ctype := ((toks.find? fun t => (codeTypeOfTok t).isSome).bind codeTypeOfTok).getD .code128,
    width :=
      match toks.find? fun t => isDigits t && decide (2 ≤ natOfDigits t) && decide (natOfDigits t ≤ 4) with
      | some t => natOfDigits t
      | none => 2,
    height :=
      match toks.find? fun t => isDigits t && decide (24 ≤ natOfDigits t) && decide (natOfDigits t ≤ 240) with
      | some t => natOfDigits t
      | none => 72,
    hri := (toks.find? (· = "hri".toList)).isSome,
    cell :=
      match toks.find? fun t => isDigits t && decide (3 ≤ natOfDigits t) && decide (natOfDigits t ≤ 8) with
      | some t => natOfDigits t
      | none => 3,
    level :=
      match toks.find? fun t => t = ['l'] || t = ['m'] || t = ['q'] || t = ['h'] with
      | some (c :: _) => c
      | _ => 'l',
    quietZone := false }

def applyOptionProp (st : ParseState) (p : ParsedProperty) : ParseState :=
  match p.option with
  | some v =>
    if v ≠ [] then { st with option := optionFromTokens (splitTokensGo (lowerStr v)) }
    else st
  | none => st

def buildCode (st : ParseState) (p : ParsedProperty) : Option CodeSpec :=
  match p.code with
  | some v => if v ≠ [] then some ⟨v, st.option⟩ else none
  | none => none

def isBase64Ch (c : Char) : Bool :=
  ('A' ≤ c && c ≤ 'Z') || ('a' ≤ c && c ≤ 'z') || isDigitCh c || c = '+' || c = '/'

/-- `replace(/=.*|[^A-Za-z0-9+/]/g, '')`: `=` swallows the rest of its line
(`.` does not cross a linefeed), anything outside the base64 alphabet is
dropped. -/
def imgCleanGo (skipping : Bool) : List Char → List Char
  | [] => []
  | c :: rest =>
    if skipping then
      if c = chNL then imgCleanGo false rest else imgCleanGo true rest
    else if c = '=' then imgCleanGo true rest
    else if isBase64Ch c then c :: imgCleanGo false rest
    else imgCleanGo false rest

def buildImage (p : ParsedProperty) : Option (List Char) :=
  match p.image with
  | some v =>
    if v ≠ [] then
      let c := imgCleanGo false v
      some (match c.length % 4 with
        | 1 => c.dropLast
        | 2 => c ++ ['=', '=']
        | 3 => c ++ ['=']
        | _ => c)
    else none
  | none => none

def buildCommand (p : ParsedProperty) : Option (List Char) :=
  match p.command with
  | some v => if v ≠ [] then some v else none
  | none => none

def buildComment (p : ParsedProperty) : Option (List Char) :=
  match p.comment with
  | some v => if v ≠ [] then some v else none
  | none => none


/-- `replace(/[\x00-\x1f\x7f]|\\x[01][\dA-Fa-f]|\\x7[Ff]/g, '')`: drop
control characters and hexadecimal escapes denoting them. -/
def stripCtl : List Char → List Char
  | [] => []
  | c :: d :: e :: f :: rest2 =>
    if c.toNat ≤ 31 || c.toNat = 127 then stripCtl (d :: e :: f :: rest2)
    else if c = chBS && d = 'x' && (e = '0' || e = '1') && isHexDigitCh f then stripCtl rest2
    else if c = chBS && d = 'x' && e = '7' && (f = 'f' || f = 'F') then stripCtl rest2
    else c :: stripCtl (d :: e :: f :: rest2)
  | c :: rest =>
    if c.toNat ≤ 31 || c.toNat = 127 then stripCtl rest
    else c :: stripCtl rest

/-- `replace(/\\[-=_"`^~]/g, m => hex escape)`. -/
def escSpecials : List Char → List Char
  | [] => []
  | [c] => [c]
  | c :: d :: rest =>
    if c = chBS && (d = '-' || d = '=' || d = '_' || d = chQuot || d = chBack || d = '^' || d = '~') then
      chBS :: 'x' :: (hex2 d.toNat ++ escSpecials rest)
    else c :: escSpecials (d :: rest)

def tildeToSpace (s : List Char) : List Char :=
  s.map fun c => if c = '~' then ' ' else c

/-- `split(/([_"`\n]|\^+)/)`: split with captured separators, so the result
alternates literal pieces (even indices) and separators (odd indices).
A run of carets forms a single separator. -/
def splitDeco : List Char → List (List Char)
  | [] => [[]]
  | c :: rest =>
    if c = '_' || c = chQuot || c = chBack || c = chNL then
      [] :: [c] :: splitDeco rest
    else if c = '^' then
      match splitDeco rest with
      | first :: sep :: tail =>
        if first = [] && sep.headD ' ' = '^' then [] :: (c :: sep) :: tail
        else [] :: [c] :: first :: sep :: tail
      | r => [] :: [c] :: r
    else
      match splitDeco rest with
      | first :: tail => (c :: first) :: tail
      | [] => [[c]]

def textPipeline (element : List Char) : List (List Char) :=
  (splitDeco (tildeToSpace (escLF (escSpecials (stripCtl element))))).map parseEscape

/-- `^\{[^{}]*\}$`. -/
def isPropertyCol : List Char → Bool
  | [] => false
  | c :: rest =>
    c = chLB && rest ≠ [] && rest.getLast? = some chRB &&
      rest.dropLast.all fun d => d ≠ chLB && d ≠ chRB

def hasBrace (e : List Char) : Bool := e.any fun c => c = chLB || c = chRB

/-- `^-+$|^=+$`. -/
def isHrCol (e : List Char) : Bool :=
  e ≠ [] && (e.all (· = '-') || e.all (· = '='))

/-- Column width resolution (lines 281-297 of parse.ts). -/
def resolveWidth (st : ParseState) (isText : Bool) (index : ℕ) (border : ℤ) : ℤ :=
  if st.width = [] then -1
  else if isText then st.width.getD index 0
  else if st.width.any (· < 0) then -1
  else
    let w := st.width.filter (· > 0)
    if w ≠ [] then
      w.sum + (if border < 0 then (w.length : ℤ) + 1 else ((w.length : ℤ) - 1) * border)
    else 0

/-- The `map` callback of `parseLine`: classifies one column and (for a
single-column property line) applies its state effects in source order
(text, border, width, align, option, code, image, command, comment). -/
def parseColumnStep (arrayLen : ℕ) (st : ParseState) (column : List Char) (index : ℕ) :
    ParsedColumn × ParseState :=
  let element := trimSp column
  let algn := 1 + (if isSpTab (column.headD 'x') then 1 else 0)
    - (if isSpTab ((column.getLast?).getD 'x') then 1 else 0)
  if isPropertyCol element then
    let inner := (element.drop 1).dropLast
    let members := splitOn ';' (escSemi inner)
    let (prop, err) := foldMembers members {} false
    if arrayLen = 1 then
      let st1 := applyTextProp st prop
      let (st2, vrm) := applyBorderProp st1 prop
      let st3 := applyWidthProp st2 prop
      let st4 := applyAlignProp st3 prop
      let st5 := applyOptionProp st4 prop
      ({ align := algn, wrap := st5.wrap, border := st5.border,
         width := resolveWidth st5 false index st5.border,
         alignment := st5.align, property := some prop,
         code := buildCode st5 prop, image := buildImage prop,
         command := buildCommand prop, comment := buildComment prop,
         vr := vrm, error := if err then some element else none }, st5)
    else
      ({ align := algn, wrap := st.wrap, border := st.border,
         width := resolveWidth st false index st.border,
         alignment := st.align, property := some prop,
         error := if err then some element else none }, st)
  else if hasBrace element then
    ({ align := algn, wrap := st.wrap, border := st.border,
       width := resolveWidth st false index st.border,
       alignment := st.align, error := some element }, st)
  else if arrayLen = 1 && isHrCol element then
    ({ align := algn, wrap := st.wrap, border := st.border,
       width := resolveWidth st false index st.border,
       alignment := st.align, hr := element.getLast? }, st)
  else
    ({ align := algn, wrap := st.wrap, border := st.border,
       width := resolveWidth st true index st.border,
       alignment := st.align, text := some (textPipeline element) }, st)

def parseLineGo (arrayLen : ℕ) : List (List Char) → ℕ → ParseState → List ParsedColumn × ParseState
  | [], _, st => ([], st)
  | c :: rest, i, st =>
    let (pc, st2) := parseColumnStep arrayLen st c i
    let (pcs, st3) := parseLineGo arrayLen rest (i + 1) st2
    (pc :: pcs, st3)

/-- Fill column pushed by the trailing `while` loop of `parseLine`. -/
def padColumn (st : ParseState) (k : ℕ) : ParsedColumn :=
  { align := 1, text := some [[]], wrap := st.wrap, border := st.border,
    width := st.width.getD k 0, alignment := st.align }

/-- The string preprocessing of `parseLine` (lines 111-125): trim, protect
escaped delimiters, insert boundary spaces, strip outer pipes, split. -/
def preprocessLine (columns : List Char) : List (List Char) :=
  let s1 := trimSp columns
  let s2 := escDelims s1
  let s3 := if needsBoundarySpace s2 then ' ' :: s2 else s2
  let s4 := if needsBoundarySpace s3.reverse then s3 ++ [' '] else s3
  let s5 := if s4.headD ' ' = chPipe then s4.tail else s4
  let s6 := if s5.getLast? = some chPipe then s5.dropLast else s5
  splitPipe s6

/-- The trailing `while (line.length < state.width.length)` fill loop
(lines 303-309). -/
def padLine (st : ParseState) (line : List ParsedColumn) : List ParsedColumn :=
  if line.all (fun c => c.text.isSome) && decide (0 < st.width.length) then
    line ++ (List.range (st.width.length - line.length)).map
      (fun j => padColumn st (line.length + j))
  else line

/-- `parseLine` (parse.ts lines 109-311). -/
def parseLine (columns : List Char) (state : ParseState) :
    List ParsedColumn × ParseState :=
  let cols := preprocessLine columns
  let pr := parseLineGo cols.length cols 0 state
  (padLine pr.2 pr.1, pr.2)

/- ## Text wrapping (`wrapText`, parse.ts lines 334-427). -/

/-- Abstract printer target: glyph segmentation (`target.arrayFrom`) and
per-glyph integer width (`target.measureText`). -/
structure Measurer where
  measureText : List Char → ℕ
  arrayFrom : List Char → List (List Char)

/-- Decoration flags carried while wrapping.  The source packs them into a
string `'011' + wh` pushed before each chunk; the flags themselves are the
state. -/
structure Deco where
  ul : Bool
  em : Bool
  iv : Bool
  wh : ℕ
deriving DecidableEq, Repr

/-- One wrapped row.  `data` pairs each text chunk with its decoration; the
source stores the chunk as `t.slice(0, j).join('')` -- here the glyph list
`t.take j` is kept unjoined and only flattened when the text instruction is
emitted, which yields the same output.  `margin` is the JS number
`space * column.align / 2`, an exact multiple of one half, carried as the
rational `mkRat (space * align) 2`. -/
structure WrappedTextLine where
  data : List (Deco × List (List Char))
  margin : ℚ
  height : ℕ
deriving DecidableEq, Repr

/-- `wh < 2 ? wh + 1 : wh - 1`: character scale factor. -/
def whScale (wh : ℕ) : ℕ := if wh < 2 then wh + 1 else wh - 1

/-- `wh < 3 ? wh : wh - 1`: row height contribution. -/
def whHeight (wh : ℕ) : ℕ := if wh < 3 then wh else wh - 1

structure WrapAcc where
  deco : Deco
  space : ℤ
  res : List (Deco × List (List Char))
  height : ℕ
  rows : List WrappedTextLine
deriving DecidableEq, Repr

/-- The inner `while (j < t.length)` loop: number of glyphs that fit, the
remaining space, and the width of the first glyph that did not fit
(`0` when every glyph was consumed). -/
def consume (M : Measurer) (scale : ℕ) : List (List Char) → ℤ → ℕ × ℤ × ℕ
  | [], space => (0, space, 0)
  | g :: rest, space =>
    let w := M.measureText g * scale
    if (w : ℤ) > space then (0, space, w)
    else
      let r := consume M scale rest (space - w)
      (r.1 + 1, r.2.1, r.2.2)

theorem consume_zero_spec (M : Measurer) (scale : ℕ) (g : List Char)
    (rest : List (List Char)) (space : ℤ)
    (h : (consume M scale (g :: rest) space).1 = 0) :
    (consume M scale (g :: rest) space).2.1 = space ∧
      space < ((consume M scale (g :: rest) space).2.2 : ℤ) := by
  simp only [consume] at h ⊢
  by_cases hw : ((M.measureText g * scale : ℕ) : ℤ) > space
  · rw [if_pos hw] at h ⊢
    exact ⟨rfl, hw⟩
  · rw [if_neg hw] at h
    simp at h

/-- The outer `while (t.length > 0)` loop of `wrapText`, as structural
recursion on a fuel.  One iteration either consumes part of `t` or (a flush
with `j = 0`) resets `space` to `width`, so the measure
`2 * t.length + (space = width ? 0 : 1)` strictly decreases; the fuel
`2 * t.length + 1` used by `wrapLoop` therefore always suffices, and
`wrapLoopGo_stable` proves that any larger fuel gives the same result. -/
def wrapLoopGo (M : Measurer) (width : ℤ) (alignc : ℕ) :
    ℕ → List (List Char) → WrapAcc → WrapAcc
  | _, [], a => a
  | 0, _ :: _, a => a
  | fuel + 1, g :: rest, a =>
    let r := consume M (whScale a.deco.wh) (g :: rest) a.space
    let j := r.1
    let sp := r.2.1
    let w := r.2.2
    let res2 := if 0 < j then a.res ++ [(a.deco, (g :: rest).take j)] else a.res
    let height2 := if 0 < j then max a.height (whHeight a.deco.wh) else a.height
    let t2 := (g :: rest).drop j
    if (w : ℤ) > width then
      wrapLoopGo M width alignc fuel (t2.drop 1)
        { a with space := sp, res := res2, height := height2 }
    else if (w : ℤ) > sp ∨ sp = 0 then
      wrapLoopGo M width alignc fuel t2
        { a with
          space := width
          res := []
          height := 1
          rows := a.rows ++ [⟨res2, mkRat (sp * (alignc : ℤ)) 2, height2⟩] }
    else
      wrapLoopGo M width alignc fuel t2 { a with space := sp, res := res2, height := height2 }

def wrapMu (width : ℤ) (t : List (List Char)) (a : WrapAcc) : ℕ :=
  2 * t.length + (if a.space = width then 0 else 1)

/-- Fuel beyond the decreasing measure does not change the loop result:
the loop exits before the fuel is consumed. -/
theorem wrapLoopGo_stable (M : Measurer) (width : ℤ) (alignc : ℕ) :
    ∀ (fuel : ℕ) (t : List (List Char)) (a : WrapAcc), wrapMu width t a ≤ fuel →
    wrapLoopGo M width alignc (fuel + 1) t a = wrapLoopGo M width alignc fuel t a := by
  intro fuel
  induction fuel with
  | zero =>
    intro t a h
    cases t with
    | nil => rfl
    | cons g rest => simp [wrapMu] at h
  | succ fuel ih =>
    intro t a h
    cases t with
    | nil => rfl
    | cons g rest =>
      simp only [wrapLoopGo]
      by_cases h1 : ((consume M (whScale a.deco.wh) (g :: rest) a.space).2.2 : ℤ) > width
      · rw [if_pos h1, if_pos h1]
        apply ih
        simp only [wrapMu, List.length_drop, List.length_cons] at h ⊢
        split at h <;> split <;> omega
      · rw [if_neg h1, if_neg h1]
        by_cases h2 : ((consume M (whScale a.deco.wh) (g :: rest) a.space).2.2 : ℤ) >
            (consume M (whScale a.deco.wh) (g :: rest) a.space).2.1 ∨
            (consume M (whScale a.deco.wh) (g :: rest) a.space).2.1 = 0
        · rw [if_pos h2, if_pos h2]
          apply ih
          by_cases hj : (consume M (whScale a.deco.wh) (g :: rest) a.space).1 = 0
          · obtain ⟨hsp, hlt⟩ := consume_zero_spec M (whScale a.deco.wh) g rest a.space hj
            have hne : a.space ≠ width := by omega
            simp only [wrapMu, hj, List.drop_zero, List.length_cons, eq_self_iff_true,
              if_true] at h ⊢
            rw [if_neg hne] at h
            omega
          · simp only [wrapMu, List.length_drop, List.length_cons, eq_self_iff_true,
              if_true] at h ⊢
            split at h <;> omega
        · rw [if_neg h2, if_neg h2]
          apply ih
          by_cases hj : (consume M (whScale a.deco.wh) (g :: rest) a.space).1 = 0
          · obtain ⟨hsp, hlt⟩ := consume_zero_spec M (whScale a.deco.wh) g rest a.space hj
            exact absurd (Or.inl (by omega)) h2
          · simp only [wrapMu, List.length_drop, List.length_cons] at h ⊢
            split at h <;> split <;> omega

/-- The outer loop with its exact fuel. -/
def wrapLoop (M : Measurer) (width : ℤ) (alignc : ℕ) (t : List (List Char)) (a : WrapAcc) :
    WrapAcc :=
  wrapLoopGo M width alignc (2 * t.length + 1) t a

/-- The `forEach` over the split text: even entries are literal text, odd
entries are the captured separators updating the decoration state. -/
def wrapGo (M : Measurer) (width : ℤ) (alignc : ℕ) :
    List (List Char) → Bool → WrapAcc → WrapAcc
  | [], _, a => a
  | seg :: rest, isSep, a =>
    if isSep then
      if seg = [chNL] then
        wrapGo M width alignc rest false
          { a with
            space := width
            res := []
            height := 1
            rows := a.rows ++ [⟨a.res, mkRat (a.space * (alignc : ℤ)) 2, a.height⟩] }
      else if seg = ['_'] then
        wrapGo M width alignc rest false { a with deco := { a.deco with ul := !a.deco.ul } }
      else if seg = [chQuot] then
        wrapGo M width alignc rest false { a with deco := { a.deco with em := !a.deco.em } }
      else if seg = [chBack] then
        wrapGo M width alignc rest false { a with deco := { a.deco with iv := !a.deco.iv } }
      else
        let d := min seg.length 7
        wrapGo M width alignc rest false
          { a with deco := { a.deco with wh := if a.deco.wh = d then 0 else d } }
    else
      wrapGo M width alignc rest true (wrapLoop M width alignc (M.arrayFrom seg) a)

/-- `wrapText`: wrap one text column into rows. -/
def wrapText (M : Measurer) (column : ParsedColumn) : List WrappedTextLine :=
  let a := wrapGo M column.width column.align (column.text.getD []) false
    ⟨⟨false, false, false, 0⟩, column.width, [], 1, []⟩
  if a.res ≠ [] then
    a.rows ++ [⟨a.res, mkRat (a.space * (column.align : ℤ)) 2, a.height⟩]
  else a.rows


/- ## Command generation (`createLine`, parse.ts lines 437-707).  The
printer target is abstracted as a list of emitted instructions. -/

inductive Instr
  | normal
  | area (l w r : ℤ)
  | align (a : ℕ)
  | absolute (p : ℤ)
  | relative (m : ℚ)
  | vrstart (ws : List ℤ)
  | vrstop (ws : List ℤ)
  | vrlf (b : Bool)
  | vr (ws : List ℤ) (h : ℕ)
  | vrhr (w1 w2 : List ℤ) (dl dr : ℤ)
  | hr (w : ℤ)
  | lf
  | cut
  | ul
  | em
  | iv
  | wh (n : ℕ)
  | text (s : List Char)
  | image (s : List Char)
  | qrcode (c : CodeSpec)
  | barcode (c : CodeSpec)
  | command (s : List Char)
deriving DecidableEq, Repr

/-- `normal + area(rules) + align(0) + vrstop(widths) + vrlf(false)`:
the command block that stops running vertical rules. -/
def stopRulesBlock (r : Rules) : List Instr :=
  [.normal, .area r.left r.width r.right, .align 0, .vrstop r.widths, .vrlf false]

/-- Decoration prefix and text of one chunk (the `k += 2` loop body). -/
def decoInstrs (d : Deco) (chunk : List (List Char)) : List Instr :=
  [Instr.normal]
    ++ (if d.ul then [Instr.ul] else [])
    ++ (if d.em then [Instr.em] else [])
    ++ (if d.iv then [Instr.iv] else [])
    ++ (if d.wh ≠ 0 then [Instr.wh d.wh] else [])
    ++ [Instr.text chunk.flatten]

def defaultRow : WrappedTextLine := ⟨[], 0, 1⟩

/-- `cols.reduce((a, col) => j < col.length ? Math.max(a, col[j].height) : a, 1)`. -/
def rowHeight (cols : List (List WrappedTextLine)) (j : ℕ) : ℕ :=
  cols.foldl (fun a col => if j < col.length then max a (col.getD j defaultRow).height else a) 1

/-- The per-column loop of a text row, tracking the print position `p`. -/
def rowBodyGo (bord : ℤ) (j : ℕ) : List (List WrappedTextLine × ℤ) → ℤ → List Instr
  | [], _ => []
  | (col, w) :: rest, p =>
    (Instr.absolute p ::
      (if j < col.length then
        Instr.relative (col.getD j defaultRow).margin ::
          ((col.getD j defaultRow).data.flatMap fun dt => decoInstrs dt.1 dt.2)
      else [Instr.normal, Instr.text [' ']]))
    ++ rowBodyGo bord j rest (p + w + |bord|)

/-- One text row (`for (let j = 0; j < row; j++)` body). -/
def textRowInstrs (cols : List (List WrappedTextLine)) (widths : List ℤ) (bord : ℤ)
    (left width right : ℤ) (running : Bool) (j : ℕ) : List Instr :=
  [Instr.normal, Instr.area left width right, Instr.align 0]
    ++ (if running then [Instr.normal, Instr.absolute 0, Instr.vr widths (rowHeight cols j)] else [])
    ++ rowBodyGo bord j (cols.zip widths) (if running then 1 else 0)
    ++ [Instr.lf]

/-- The `state.line === 'ready'` branch of the text block: commands that
start the vertical rules. -/
def startRulesBlock (lay : LayoutResult) (widths : List ℤ) : List Instr :=
  [.normal, .area lay.left lay.width lay.right, .align 0, .vrstart widths, .vrlf true]

/-- The `state.line === 'horizontal'` branch of the text block: the deferred
horizontal tie-in combining the saved rule geometry with the new line's. -/
def horizontalTieIn (cpl : ℕ) (lay : LayoutResult) (ru : Rules) (widths : List ℤ) :
    List Instr :=
  let m := lay.left - ru.left
  let w := lay.width - ru.width
  let l := min lay.left ru.left
  let r := min lay.right ru.right
  [.normal, .area l ((cpl : ℤ) - l - r) r, .align 0,
    .vrhr ru.widths widths m (m + w), .lf]

/-- The text-processing block of `createLine` (lines 479-583): rule
tie-in/tie-over commands, saving the rule parameters, and the wrapped rows. -/
def textBlock (M : Measurer) (cpl : ℕ) (column : ParsedColumn)
    (columns : List ParsedColumn) (lay : LayoutResult) (st : ParseState) :
    List Instr × ParseState :=
  let cols := columns.map (wrapText M)
  let widths := columns.map (·.width)
  let pre : List Instr × LineState :=
    match st.line with
    | .ready => (startRulesBlock lay widths, .running)
    | .horizontal => (horizontalTieIn cpl lay st.rules widths, .running)
    | s => ([], s)
  let st2 : ParseState :=
    { st with
      line := pre.2
      rules := ⟨lay.left, lay.width, lay.right, widths⟩ }
  let row := if column.wrap then cols.foldl (fun a col => max a col.length) 1 else 1
  let rowsOut := (List.range row).flatMap fun j =>
    textRowInstrs cols widths column.border lay.left lay.width lay.right
      (decide (pre.2 = LineState.running)) j
  (pre.1 ++ rowsOut, st2)

/-- The `'hr' in column` block (lines 586-632): paper cut for `=`,
horizontal rule for `-`. -/
def hrBlock (column : ParsedColumn) (lay : LayoutResult) (st : ParseState) :
    List Instr × ParseState :=
  match column.hr with
  | none => ([], st)
  | some ch =>
    if ch = '=' then
      match st.line with
      | .running => (stopRulesBlock st.rules ++ [.cut], { st with line := .ready })
      | .horizontal => (stopRulesBlock st.rules ++ [.cut], { st with line := .ready })
      | _ => ([.cut], st)
    else
      match st.line with
      | .waiting =>
        ([.normal, .area lay.left lay.width lay.right, .align 0, .hr lay.width, .lf], st)
      | .running => ([], { st with line := .horizontal })
      | _ => ([], st)

/-- The `'vr' in column` block (lines 634-662). -/
def vrBlock (column : ParsedColumn) (st : ParseState) : List Instr × ParseState :=
  match column.vr with
  | none => ([], st)
  | some ch =>
    if ch = '+' then ([], { st with line := .ready })
    else
      match st.line with
      | .ready => ([], { st with line := .waiting })
      | .running => (stopRulesBlock st.rules, { st with line := .waiting })
      | .horizontal => (stopRulesBlock st.rules, { st with line := .waiting })
      | _ => ([], st)

def imageBlock (column : ParsedColumn) (lay : LayoutResult) : List Instr :=
  match column.image with
  | some v =>
    if v ≠ [] then
      [.normal, .area lay.left lay.width lay.right, .align column.align, .image v]
    else []
  | none => []

def codeBlock (column : ParsedColumn) (lay : LayoutResult) : List Instr :=
  match column.code with
  | some c =>
    if c.opts.ctype = .qrcode then
      [.normal, .area lay.left lay.width lay.right, .align column.align, .qrcode c]
    else
      [.normal, .area lay.left lay.width lay.right, .align column.align, .barcode c]
  | none => []

def commandBlock (column : ParsedColumn) (lay : LayoutResult) : List Instr :=
  match column.command with
  | some v =>
    if v ≠ [] then
      [.normal, .area lay.left lay.width lay.right, .align column.align, .command v]
    else []
  | none => []

/-- `line[0] ?? { align: 1, text: [''], wrap: true, border: 0, width: 0, alignment: 1 }`. -/
def defaultColumn : ParsedColumn :=
  { align := 1, text := some [[]], wrap := true, border := 0, width := 0, alignment := 1 }

/-- `Math.floor(border < 0 ? (cpl - 1) / 2 : (cpl + border) / (border + 1))`,
the overflow cut-off for text lines (for `cpl ≥ 1`, where the JS floor of
a non-negative quotient matches natural division). -/
def trimCount (cpl : ℕ) (border : ℤ) : ℕ :=
  if border < 0 then (cpl - 1) / 2 else (cpl + border.toNat) / (border.toNat + 1)

def updateWidths (cols : List ParsedColumn) (ws : List ℤ) : List ParsedColumn :=
  List.zipWith (fun c w => { c with width := w }) cols ws

/-- Everything `createLine` does after the width allocation succeeded. -/
def createLineCore (M : Measurer) (cpl : ℕ) (st : ParseState) (text : Bool)
    (column : ParsedColumn) (columns : List ParsedColumn) (lay : LayoutResult) :
    List Instr × ParseState :=
  let tb := if text then textBlock M cpl column columns lay st else ([], st)
  let hb := hrBlock column lay tb.2
  let vb := vrBlock column hb.2
  (tb.1 ++ hb.1 ++ vb.1 ++ imageBlock column lay ++ codeBlock column lay
    ++ commandBlock column lay, vb.2)

/-- `createLine` (parse.ts lines 437-707).  `none` models the uncaught
`TypeError` thrown by the empty-`reduce` in the shrink loop. -/
def createLine (M : Measurer) (cpl : ℕ) (line : List ParsedColumn) (st : ParseState) :
    Option (List Instr × ParseState) :=
  let text := line.all fun c => c.text.isSome
  let column := line.headD defaultColumn
  let columns0 := line.filter fun c => c.width ≠ 0
  let columns1 := if text then columns0.take (trimCount cpl column.border) else columns0
  match layoutWidths cpl text column.border column.alignment (columns1.map (·.width)) with
  | none => none
  | some lay =>
    some (createLineCore M cpl st text column (updateWidths columns1 lay.merged) lay)

/- ## The transform pipeline (src/index.ts lines 42-83). -/

def transformLines (M : Measurer) (cpl : ℕ) :
    List (List Char) → ParseState → Option (List Instr × ParseState)
  | [], st => some ([], st)
  | l :: rest, st =>
    let pr := parseLine l st
    match createLine M cpl pr.1 pr.2 with
    | none => none
    | some (out, st2) =>
      match transformLines M cpl rest st2 with
      | none => none
      | some (out2, st3) => some (out ++ out2, st3)

/-- Per-line transform plus the document-end rule flush of `transform`. -/
def transformDoc (M : Measurer) (cpl : ℕ) (lines : List (List Char)) :
    Option (List Instr) :=
  match transformLines M cpl lines initialState with
  | none => none
  | some (out, st) =>
    match st.line with
    | .running => some (out ++ stopRulesBlock st.rules)
    | .horizontal => some (out ++ stopRulesBlock st.rules)
    | _ => some out

/-- A concrete target for witnesses: every character is one glyph of
width 1. -/
def unitMeasurer : Measurer :=
  { measureText := List.length, arrayFrom := List.map fun c => [c] }


/- ## C2: abortability of the transform. -/

theorem shrinkGo_ex (k : ℕ) :
    ∀ (f : List ℤ) (v : ℤ), f ≠ [] → ∃ r, shrinkGo k f v = some r := by
  induction k with
  | zero => intro f v _; exact ⟨(f, v), rfl⟩
  | succ k ih =>
    intro f v hf
    simp only [shrinkGo, if_neg hf]
    exact ih (decLastMax f) (v + 1) (decLastMax_ne_nil f hf)

/-- The width allocation succeeds whenever there is a fixed column to shrink
or the free width already covers the flexible columns. -/
theorem layoutWidths_some (cpl : ℕ) (text : Bool) (border : ℤ) (alignment : ℕ)
    (ws : List ℤ)
    (h : ws.filter (fun w => 0 < w) ≠ [] ∨
      (((ws.filter fun w => w < 0).length : ℤ) ≤
        (cpl : ℤ) - (ws.filter fun w => 0 < w).sum - borderOverhead text border ws.length)) :
    ∃ lay, layoutWidths cpl text border alignment ws = some lay := by
  have hs : ∃ r, shrink (ws.filter fun w => w < 0).length (ws.filter fun w => 0 < w)
      ((cpl : ℤ) - (ws.filter fun w => 0 < w).sum - borderOverhead text border ws.length) =
      some r := by
    rcases h with hf | hn
    · exact shrinkGo_ex _ _ _ hf
    · refine ⟨(ws.filter fun w => 0 < w,
        (cpl : ℤ) - (ws.filter fun w => 0 < w).sum - borderOverhead text border ws.length), ?_⟩
      unfold shrink
      rw [Int.toNat_of_nonpos (by omega)]
      rfl
  obtain ⟨⟨f1, v1⟩, hr⟩ := hs
  have hso : (layoutWidths cpl text border alignment ws).isSome := by
    simp only [layoutWidths, hr]
    rfl
  exact Option.isSome_iff_exists.mp hso

/-- For a single non-text column and `cpl ≥ 1`, the width allocation of
`createLine` always succeeds. -/
theorem layout_single_some (cpl : ℕ) (hcpl : 1 ≤ cpl) (border : ℤ) (alignment : ℕ)
    (col : ParsedColumn) :
    ∃ lay, layoutWidths cpl false border alignment
      (([col].filter fun c => c.width ≠ 0).map fun c => c.width) = some lay := by
  by_cases h0 : col.width = 0
  · have hws : ([col].filter fun c => c.width ≠ 0).map (fun c => c.width) = [] := by
      simp [List.filter, h0]
    rw [hws]
    apply layoutWidths_some
    right
    simp [borderOverhead]
  · have hws : ([col].filter fun c => c.width ≠ 0).map (fun c => c.width) = [col.width] := by
      simp [List.filter, h0]
    rw [hws]
    rcases lt_or_gt_of_ne h0 with hneg | hpos
    · apply layoutWidths_some
      right
      have h1 : [col.width].filter (fun w => 0 < w) = [] := by
        simp only [List.filter_cons, List.filter_nil]
        rw [if_neg (by simp; omega)]
      have h2 : [col.width].filter (fun w => w < 0) = [col.width] := by
        simp only [List.filter_cons, List.filter_nil]
        rw [if_pos (by simp; omega)]
      rw [h1, h2]
      simp [borderOverhead]
      omega
    · apply layoutWidths_some
      left
      have h1 : [col.width].filter (fun w => 0 < w) = [col.width] := by
        simp only [List.filter_cons, List.filter_nil]
        rw [if_pos (by simp; omega)]
      rw [h1]
      simp

/-- A column carrying only an `hr` marker: `createLine` reduces to the
hr/cut block. -/
theorem createLine_hr_col (M : Measurer) (cpl : ℕ) (st : ParseState)
    (col : ParsedColumn) (htext : col.text = none) (hvr : col.vr = none)
    (himg : col.image = none) (hcode : col.code = none) (hcmd : col.command = none)
    (lay : LayoutResult)
    (hlay : layoutWidths cpl false col.border col.alignment
      (([col].filter fun c => c.width ≠ 0).map fun c => c.width) = some lay) :
    createLine M cpl [col] st = some (hrBlock col lay st) := by
  have htext0 : ([col].all fun c => c.text.isSome) = false := by simp [htext]
  simp only [createLine, htext0, List.headD, Bool.false_eq_true, if_false]
  rw [hlay]
  simp only [createLineCore, vrBlock, hvr, imageBlock, himg, codeBlock, hcode,
    commandBlock, hcmd, List.nil_append, List.append_nil]
  simp


/-- **C2** (refuted -- code bug).  The spec claims `transform` always
produces output for any document and printer configuration.  Counterexample:
the document `{_:x}|{_:x}` with `cpl = 1` (a legal configuration --
`parseOption` applies no lower bound to `cpl`).  The line parses into two
flexible-width property columns; in `createLine` both survive the zero-width
filter, there are no fixed columns, and the shrink loop `while (n > v)`
(here `n = 2 > v = 1`) enters its body with `f = []`, so
`f.reduce((a, el) => ...)` with no initial value throws an uncaught
`TypeError` and the transform aborts instead of producing output. -/
theorem c2_transform_crash :
    transformDoc unitMeasurer 1
      [[chLB, '_', ':', 'x', chRB, chPipe, chLB, '_', ':', 'x', chRB]] = none := by
  rfl

/- ## C4: paper-cut marker. -/

/-- **C4** counterexample: the claim says that after a cut while rules are
running the state is `waiting`; the code sets `state.line = 'ready'`
(parse.ts line 603).  Concretely, `{b:line}` then `ab` drives the rule
state to `running`, and the cut line `=` leaves it `ready`. -/
theorem c4_counterexample :
    (transformLines unitMeasurer 6
        [chLB :: ("b:line".toList ++ [chRB]), "ab".toList, "=".toList]
        initialState).map (fun r => r.2.line) = some LineState.ready ∧
    LineState.ready ≠ LineState.waiting :=
  ⟨by rfl, by decide⟩

/-- **C4** (amended).  Whenever a paper-cut marker line is processed, a cut
instruction is emitted; if the rule state was `running` or `horizontal`, a
stop-rule block using the saved rule geometry precedes the cut and the rule
state afterwards is `ready` (primed to restart the rules), not `waiting` as
the original claim stated; in any other state only the cut is emitted and
the state is unchanged. -/
theorem c4_cut_behavior (M : Measurer) (cpl : ℕ) (hcpl : 1 ≤ cpl) (st : ParseState)
    (col : ParsedColumn) (hhr : col.hr = some '=') (htext : col.text = none)
    (hvr : col.vr = none) (himg : col.image = none) (hcode : col.code = none)
    (hcmd : col.command = none) :
    ∃ out st', createLine M cpl [col] st = some (out, st') ∧
      ((st.line = LineState.running ∨ st.line = LineState.horizontal) →
        out = stopRulesBlock st.rules ++ [Instr.cut] ∧
        st' = { st with line := LineState.ready }) ∧
      (st.line ≠ LineState.running → st.line ≠ LineState.horizontal →
        out = [Instr.cut] ∧ st' = st) := by
  obtain ⟨lay, hlay⟩ := layout_single_some cpl hcpl col.border col.alignment col
  have hcl := createLine_hr_col M cpl st col htext hvr himg hcode hcmd lay hlay
  refine ⟨(hrBlock col lay st).1, (hrBlock col lay st).2, by rw [hcl], ?_, ?_⟩
  · rintro (hline | hline) <;> simp [hrBlock, hhr, hline]
  · intro h1 h2
    cases hline : st.line
    · simp [hrBlock, hhr, hline]
    · simp [hrBlock, hhr, hline]
    · exact absurd hline h1
    · exact absurd hline h2

/-- Witness for C4 at a concrete input: a `=` column processed at `cpl = 6`
from a running-rules state. -/
theorem c4_witness :
    (1 : ℕ) ≤ 6 ∧
    (∃ out st', createLine unitMeasurer 6
        [⟨1, true, 1, -1, 1, none, none, none, none, none, none, some '=', none, none⟩]
        { initialState with line := LineState.running } = some (out, st') ∧
      ((({ initialState with line := LineState.running } : ParseState).line = LineState.running ∨
          ({ initialState with line := LineState.running } : ParseState).line =
            LineState.horizontal) →
        out = stopRulesBlock
            ({ initialState with line := LineState.running } : ParseState).rules ++
          [Instr.cut] ∧
        st' = { ({ initialState with line := LineState.running } : ParseState) with
                line := LineState.ready }) ∧
      (({ initialState with line := LineState.running } : ParseState).line ≠
          LineState.running →
        ({ initialState with line := LineState.running } : ParseState).line ≠
          LineState.horizontal →
        out = [Instr.cut] ∧ st' = { initialState with line := LineState.running })) :=
  ⟨by decide, c4_cut_behavior unitMeasurer 6 (by decide)
    { initialState with line := LineState.running }
    ⟨1, true, 1, -1, 1, none, none, none, none, none, none, some '=', none, none⟩
    rfl rfl rfl rfl rfl rfl⟩


/- ## C5: horizontal-rule marker while rules are running. -/

/-- For a line whose first column carries no hr/vr/image/code/command, the
core of `createLine` reduces to the text block. -/
theorem createLineCore_text (M : Measurer) (cpl : ℕ) (st : ParseState)
    (col : ParsedColumn) (cols : List ParsedColumn) (lay : LayoutResult)
    (th1 : col.hr = none) (th2 : col.vr = none) (th3 : col.image = none)
    (th4 : col.code = none) (th5 : col.command = none) :
    createLineCore M cpl st true col cols lay =
      ((textBlock M cpl col cols lay st).1, (textBlock M cpl col cols lay st).2) := by
  simp only [createLineCore, hrBlock, th1, vrBlock, th2, imageBlock, th3, codeBlock, th4,
    commandBlock, th5, List.append_nil, if_true]

/-- From the `horizontal` state, the text block opens with the deferred
horizontal tie-in and returns the state to `running`. -/
theorem textBlock_horizontal (M : Measurer) (cpl : ℕ) (column : ParsedColumn)
    (columns : List ParsedColumn) (lay : LayoutResult) (st : ParseState)
    (h : st.line = LineState.horizontal) :
    ∃ rest, (textBlock M cpl column columns lay st).1 =
        horizontalTieIn cpl lay st.rules (columns.map fun c => c.width) ++ rest ∧
      (textBlock M cpl column columns lay st).2.line = LineState.running := by
  simp only [textBlock, h]
  refine ⟨_, rfl, ?_⟩
  simp

/-- **C5**.  A `-` marker line while the rule state is `running` sets the
state to `horizontal` (not `waiting`) and emits nothing; the deferred
horizontal tie-in (`vrhr` combining the saved rule widths with the new
line's widths and margin deltas) opens the output of the next textual line,
after which the state is `running` again. -/
theorem c5_horizontal_rule
    (M : Measurer) (cpl : ℕ) (hcpl : 1 ≤ cpl) (st : ParseState)
    (hrun : st.line = LineState.running)
    (col : ParsedColumn) (hhr : col.hr = some '-') (htext : col.text = none)
    (hvr : col.vr = none) (himg : col.image = none) (hcode : col.code = none)
    (hcmd : col.command = none)
    (line : List ParsedColumn) (hall : (line.all fun c => c.text.isSome) = true)
    (th1 : (line.headD defaultColumn).hr = none)
    (th2 : (line.headD defaultColumn).vr = none)
    (th3 : (line.headD defaultColumn).image = none)
    (th4 : (line.headD defaultColumn).code = none)
    (th5 : (line.headD defaultColumn).command = none)
    (st2 : ParseState) (hst2 : st2.line = LineState.horizontal)
    (r : List Instr × ParseState) (hcl2 : createLine M cpl line st2 = some r) :
    createLine M cpl [col] st = some ([], { st with line := LineState.horizontal }) ∧
    r.2.line = LineState.running ∧
    ∃ lay widths rest, r.1 = horizontalTieIn cpl lay st2.rules widths ++ rest := by
  refine ⟨?_, ?_⟩
  · obtain ⟨lay, hlay⟩ := layout_single_some cpl hcpl col.border col.alignment col
    have hcl := createLine_hr_col M cpl st col htext hvr himg hcode hcmd lay hlay
    rw [hcl]
    simp [hrBlock, hhr, hrun]
  · simp only [createLine, hall, if_true] at hcl2
    split at hcl2
    · exact absurd hcl2 (by simp)
    next lay2 hlay2 =>
      simp only [Option.some.injEq] at hcl2
      rw [← hcl2, createLineCore_text M cpl st2 _ _ lay2 th1 th2 th3 th4 th5]
      obtain ⟨rest, hr1, hr2⟩ := textBlock_horizontal M cpl _ _ lay2 st2 hst2
      exact ⟨hr2, lay2, _, rest, hr1⟩


/-- Witness for C5 at a concrete input: a `-` line at `cpl = 6` from a
running state, and a text line `cd` processed from a horizontal state with
saved rules `⟨0, 6, 0, [4]⟩`. -/
theorem c5_witness :
    ({ initialState with line := LineState.running } : ParseState).line =
      LineState.running ∧
    (createLine unitMeasurer 6
        [⟨1, true, -1, -1, 1, none, none, none, none, none, none, some '-', none, none⟩]
        { initialState with line := LineState.running } =
      some ([], { ({ initialState with line := LineState.running } : ParseState) with
                  line := LineState.horizontal }) ∧
      ((createLine unitMeasurer 6
          [⟨1, true, -1, 4, 1, some [['c', 'd']], none, none, none, none, none, none, none,
            none⟩]
          { initialState with line := LineState.horizontal, rules := ⟨0, 6, 0, [4]⟩ }).getD
        ([], initialState)).2.line = LineState.running ∧
      ∃ lay widths rest,
        ((createLine unitMeasurer 6
            [⟨1, true, -1, 4, 1, some [['c', 'd']], none, none, none, none, none, none, none,
              none⟩]
            { initialState with line := LineState.horizontal, rules := ⟨0, 6, 0, [4]⟩ }).getD
          ([], initialState)).1 =
          horizontalTieIn 6 lay
            ({ initialState with
                line := LineState.horizontal
                rules := ⟨0, 6, 0, [4]⟩ } : ParseState).rules widths ++ rest) :=
  ⟨rfl, c5_horizontal_rule unitMeasurer 6 (by decide)
    { initialState with line := LineState.running } rfl
    ⟨1, true, -1, -1, 1, none, none, none, none, none, none, some '-', none, none⟩
    rfl rfl rfl rfl rfl rfl
    [⟨1, true, -1, 4, 1, some [['c', 'd']], none, none, none, none, none, none, none, none⟩]
    (by rfl) rfl rfl rfl rfl rfl
    { initialState with line := LineState.horizontal, rules := ⟨0, 6, 0, [4]⟩ } rfl
    ((createLine unitMeasurer 6
        [⟨1, true, -1, 4, 1, some [['c', 'd']], none, none, none, none, none, none, none,
          none⟩]
        { initialState with line := LineState.horizontal, rules := ⟨0, 6, 0, [4]⟩ }).getD
      ([], initialState))
    (by rfl)⟩


/- ## C9: alignment codes and wrapped-row margins. -/

/-- Total measured width of one chunk at scale `scale`. -/
def chunkMeasure (M : Measurer) (scale : ℕ) (gs : List (List Char)) : ℕ :=
  (gs.map fun g => M.measureText g * scale).sum

/-- Total measured width of a wrapped row's data. -/
def rowConsumed (M : Measurer) (data : List (Deco × List (List Char))) : ℕ :=
  (data.map fun dt => chunkMeasure M (whScale dt.1.wh) dt.2).sum

theorem rowConsumed_append (M : Measurer) (res : List (Deco × List (List Char)))
    (d : Deco) (chunk : List (List Char)) :
    rowConsumed M (res ++ [(d, chunk)]) =
      rowConsumed M res + chunkMeasure M (whScale d.wh) chunk := by
  simp [rowConsumed]

/-- The space left by `consume` is the incoming space minus the measured
width of the glyphs it consumed. -/
theorem consume_space (M : Measurer) (scale : ℕ) :
    ∀ (t : List (List Char)) (space : ℤ),
    (consume M scale t space).2.1 =
      space - chunkMeasure M scale (t.take (consume M scale t space).1) := by
  intro t
  induction t with
  | nil => intro space; simp [consume, chunkMeasure]
  | cons g rest ih =>
    intro space
    simp only [consume]
    by_cases hw : ((M.measureText g * scale : ℕ) : ℤ) > space
    · rw [if_pos hw]
      simp [chunkMeasure]
    · rw [if_neg hw]
      simp only [List.take_succ_cons, chunkMeasure, List.map_cons, List.sum_cons]
      rw [ih (space - (M.measureText g * scale : ℕ))]
      simp only [chunkMeasure]
      push_cast
      ring

/-- The margin invariant of C9: each wrapped row's margin is the remaining
space of that row (column width minus the measured width of its data) times
the alignment code, halved.  In particular code 0 gives margin 0 (flush
left), code 1 half the leftover (centred), code 2 the full leftover (flush
right). -/
def marginProp (M : Measurer) (width : ℤ) (alignc : ℕ) (r : WrappedTextLine) : Prop :=
  r.margin = ((width - rowConsumed M r.data : ℤ) : ℚ) * (alignc : ℚ) / 2

theorem wrapLoopGo_margin (M : Measurer) (width : ℤ) (alignc : ℕ) :
    ∀ (fuel : ℕ) (t : List (List Char)) (a : WrapAcc),
    a.space = width - rowConsumed M a.res →
    (∀ r ∈ a.rows, marginProp M width alignc r) →
    (wrapLoopGo M width alignc fuel t a).space =
      width - rowConsumed M (wrapLoopGo M width alignc fuel t a).res ∧
    ∀ r ∈ (wrapLoopGo M width alignc fuel t a).rows, marginProp M width alignc r := by
  intro fuel
  induction fuel with
  | zero =>
    intro t a h1 h2
    cases t <;> exact ⟨h1, h2⟩
  | succ fuel ih =>
    intro t a h1 h2
    cases t with
    | nil => exact ⟨h1, h2⟩
    | cons g rest =>
      simp only [wrapLoopGo]
      have hcs := consume_space M (whScale a.deco.wh) (g :: rest) a.space
      by_cases hj : 0 < (consume M (whScale a.deco.wh) (g :: rest) a.space).1
      · have hinv : (consume M (whScale a.deco.wh) (g :: rest) a.space).2.1 =
            width - rowConsumed M (a.res ++
              [(a.deco, (g :: rest).take (consume M (whScale a.deco.wh) (g :: rest) a.space).1)]) := by
          rw [rowConsumed_append]
          omega
        rw [if_pos hj, if_pos hj]
        by_cases hw : ((consume M (whScale a.deco.wh) (g :: rest) a.space).2.2 : ℤ) > width
        · rw [if_pos hw]
          exact ih _ _ hinv h2
        · rw [if_neg hw]
          by_cases hf : ((consume M (whScale a.deco.wh) (g :: rest) a.space).2.2 : ℤ) >
              (consume M (whScale a.deco.wh) (g :: rest) a.space).2.1 ∨
              (consume M (whScale a.deco.wh) (g :: rest) a.space).2.1 = 0
          · rw [if_pos hf]
            apply ih
            · simp [rowConsumed]
            · intro r hr
              rcases List.mem_append.mp hr with hold | hnew
              · exact h2 r hold
              · have hr2 : r = ⟨a.res ++
                    [(a.deco, (g :: rest).take
                      (consume M (whScale a.deco.wh) (g :: rest) a.space).1)],
                    mkRat ((consume M (whScale a.deco.wh) (g :: rest) a.space).2.1 *
                      (alignc : ℤ)) 2,
                    max a.height (whHeight a.deco.wh)⟩ := by
                  simpa using hnew
                rw [hr2]
                simp only [marginProp]
                rw [Rat.mkRat_eq_div, hinv]
                push_cast
                ring
          · rw [if_neg hf]
            exact ih _ _ hinv h2
      · have hj0 : (consume M (whScale a.deco.wh) (g :: rest) a.space).1 = 0 := by omega
        have hinv : (consume M (whScale a.deco.wh) (g :: rest) a.space).2.1 =
            width - rowConsumed M a.res := by
          rw [hj0] at hcs
          simp only [List.take_zero, chunkMeasure, List.map_nil, List.sum_nil] at hcs
          omega
        rw [if_neg hj, if_neg hj]
        by_cases hw : ((consume M (whScale a.deco.wh) (g :: rest) a.space).2.2 : ℤ) > width
        · rw [if_pos hw]
          exact ih _ _ hinv h2
        · rw [if_neg hw]
          by_cases hf : ((consume M (whScale a.deco.wh) (g :: rest) a.space).2.2 : ℤ) >
              (consume M (whScale a.deco.wh) (g :: rest) a.space).2.1 ∨
              (consume M (whScale a.deco.wh) (g :: rest) a.space).2.1 = 0
          · rw [if_pos hf]
            apply ih
            · simp [rowConsumed]
            · intro r hr
              rcases List.mem_append.mp hr with hold | hnew
              · exact h2 r hold
              · have hr2 : r = ⟨a.res,
                    mkRat ((consume M (whScale a.deco.wh) (g :: rest) a.space).2.1 *
                      (alignc : ℤ)) 2, a.height⟩ := by
                  simpa using hnew
                rw [hr2]
                simp only [marginProp]
                rw [Rat.mkRat_eq_div, hinv]
                push_cast
                ring
          · rw [if_neg hf]
            exact ih _ _ hinv h2


theorem wrapGo_margin (M : Measurer) (width : ℤ) (alignc : ℕ) :
    ∀ (segs : List (List Char)) (isSep : Bool) (a : WrapAcc),
    a.space = width - rowConsumed M a.res →
    (∀ r ∈ a.rows, marginProp M width alignc r) →
    (wrapGo M width alignc segs isSep a).space =
      width - rowConsumed M (wrapGo M width alignc segs isSep a).res ∧
    ∀ r ∈ (wrapGo M width alignc segs isSep a).rows, marginProp M width alignc r := by
  intro segs
  induction segs with
  | nil => intro isSep a h1 h2; exact ⟨h1, h2⟩
  | cons seg rest ih =>
    intro isSep a h1 h2
    cases isSep with
    | false =>
      simp only [wrapGo, Bool.false_eq_true, if_false]
      apply ih
      · exact (wrapLoopGo_margin M width alignc _ _ _ h1 h2).1
      · exact (wrapLoopGo_margin M width alignc _ _ _ h1 h2).2
    | true =>
      simp only [wrapGo, if_true]
      by_cases hnl : seg = [chNL]
      · rw [if_pos hnl]
        apply ih
        · simp [rowConsumed]
        · intro r hr
          rcases List.mem_append.mp hr with hold | hnew
          · exact h2 r hold
          · have hr2 : r = ⟨a.res, mkRat (a.space * (alignc : ℤ)) 2, a.height⟩ := by
              simpa using hnew
            rw [hr2]
            simp only [marginProp]
            rw [Rat.mkRat_eq_div, h1]
            push_cast
            ring
      · rw [if_neg hnl]
        by_cases hu : seg = ['_']
        · rw [if_pos hu]; exact ih _ _ h1 h2
        · rw [if_neg hu]
          by_cases he : seg = [chQuot]
          · rw [if_pos he]; exact ih _ _ h1 h2
          · rw [if_neg he]
            by_cases hi : seg = [chBack]
            · rw [if_pos hi]; exact ih _ _ h1 h2
            · rw [if_neg hi]; exact ih _ _ h1 h2

/-- Every row produced by `wrapText` satisfies the margin invariant. -/
theorem wrapText_margin (M : Measurer) (col : ParsedColumn) :
    ∀ r ∈ wrapText M col, marginProp M col.width col.align r := by
  have h := wrapGo_margin M col.width col.align (col.text.getD []) false
    ⟨⟨false, false, false, 0⟩, col.width, [], 1, []⟩ (by simp [rowConsumed]) (by simp)
  intro r hr
  simp only [wrapText] at hr
  split at hr
  · rcases List.mem_append.mp hr with hold | hnew
    · exact h.2 r hold
    · have hr2 : r = ⟨(wrapGo M col.width col.align (col.text.getD []) false
          ⟨⟨false, false, false, 0⟩, col.width, [], 1, []⟩).res,
          mkRat ((wrapGo M col.width col.align (col.text.getD []) false
            ⟨⟨false, false, false, 0⟩, col.width, [], 1, []⟩).space * (col.align : ℤ)) 2,
          (wrapGo M col.width col.align (col.text.getD []) false
            ⟨⟨false, false, false, 0⟩, col.width, [], 1, []⟩).height⟩ := by
        simpa using hnew
      rw [hr2]
      simp only [marginProp]
      rw [Rat.mkRat_eq_div, h.1]
      push_cast
      ring
  · exact h.2 r hr


/-- Every branch of the column classifier sets `align` by the formula
`1 + (leading blank ? 1 : 0) - (trailing blank ? 1 : 0)` over the raw
(untrimmed) column string. -/
theorem parseColumnStep_align (alen : ℕ) (st : ParseState) (c : List Char) (i : ℕ) :
    (parseColumnStep alen st c i).1.align =
      1 + (if isSpTab (c.headD 'x') then 1 else 0)
        - (if isSpTab ((c.getLast?).getD 'x') then 1 else 0) := by
  simp only [parseColumnStep]
  split_ifs <;> rfl

/-- Modelled from the CLAIM's wording, not from the source: if alignment
code 0 meant right-aligned and 2 left-aligned, a wrapped row with remaining
space `rem` would need the leading margin `rem * (2 - align) / 2`. -/
def claimedLeadingMargin (rem : ℚ) (align : ℕ) : ℚ :=
  rem * ((2 : ℚ) - (align : ℚ)) / 2

set_option maxRecDepth 16384 in
/-- **C9** counterexample: the claim's `0=right, 1=center, 2=left` reading
is inverted.  In `ab |cd` the first column has trailing whitespace, so the
parser gives it code 0 (first conjunct); wrapping that column after layout
assigns it width 4 (two of four cells consumed) produces a row with leading
margin 0 -- flush LEFT -- while the claimed right-alignment semantics would
demand the full remaining space 2 as leading margin. -/
theorem c9_counterexample :
    (parseLine ("ab ".toList ++ chPipe :: "cd".toList) initialState).1.headD
        defaultColumn =
      ⟨0, true, 1, -1, 1, some [['a', 'b']], none, none, none, none, none, none, none,
        none⟩ ∧
    wrapText unitMeasurer
      ⟨0, true, 1, 4, 1, some [['a', 'b']], none, none, none, none, none, none, none,
        none⟩ =
      [⟨[(⟨false, false, false, 0⟩, [['a'], ['b']])], 0, 1⟩] ∧
    claimedLeadingMargin (4 - 2) 0 = 2 ∧ ((0 : ℚ) ≠ 2) := by
  refine ⟨by decide, by rfl, ?_, by norm_num⟩
  norm_num [claimedLeadingMargin]

/-- **C9** (amended).  The parser sets each column's alignment code to
exactly `1 + (leading whitespace ? 1 : 0) - (trailing whitespace ? 1 : 0)`
(so code 1 when neither side has whitespace), and in the wrapped-row margin
computation `margin = remaining space × align / 2` the codes mean
`0 = left` (margin 0), `1 = center` (half the leftover) and `2 = right`
(the full leftover) -- the reverse of the claimed labels. -/
theorem c9_alignment :
    (∀ (alen : ℕ) (st : ParseState) (c : List Char) (i : ℕ),
      (parseColumnStep alen st c i).1.align =
        1 + (if isSpTab (c.headD 'x') then 1 else 0)
          - (if isSpTab ((c.getLast?).getD 'x') then 1 else 0)) ∧
    (∀ (alen : ℕ) (st : ParseState) (c : List Char) (i : ℕ),
      isSpTab (c.headD 'x') = false → isSpTab ((c.getLast?).getD 'x') = false →
      (parseColumnStep alen st c i).1.align = 1) ∧
    (∀ (M : Measurer) (col : ParsedColumn) (r : WrappedTextLine), r ∈ wrapText M col →
      r.margin = ((col.width - rowConsumed M r.data : ℤ) : ℚ) * (col.align : ℚ) / 2) := by
  refine ⟨parseColumnStep_align, ?_, ?_⟩
  · intro alen st c i h1 h2
    rw [parseColumnStep_align, h1, h2]
    rfl
  · intro M col r hr
    exact wrapText_margin M col r hr

set_option maxRecDepth 16384 in
/-- Witness for C9 at a concrete input: the single wrapped row of an
align-0 column of width 4 holding `ab`, and the no-whitespace column `ab`. -/
theorem c9_witness :
    (⟨[(⟨false, false, false, 0⟩, [['a'], ['b']])], 0, 1⟩ : WrappedTextLine) ∈
      wrapText unitMeasurer
        ⟨0, true, 1, 4, 1, some [['a', 'b']], none, none, none, none, none, none, none,
          none⟩ ∧
    (⟨[(⟨false, false, false, 0⟩, [['a'], ['b']])], 0, 1⟩ : WrappedTextLine).margin =
      (((⟨0, true, 1, 4, 1, some [['a', 'b']], none, none, none, none, none, none, none,
            none⟩ : ParsedColumn).width -
          rowConsumed unitMeasurer
            (⟨[(⟨false, false, false, 0⟩, [['a'], ['b']])], 0, 1⟩ :
              WrappedTextLine).data : ℤ) : ℚ) *
        ((⟨0, true, 1, 4, 1, some [['a', 'b']], none, none, none, none, none, none, none,
            none⟩ : ParsedColumn).align : ℚ) / 2 ∧
    isSpTab ((['a', 'b'] : List Char).headD 'x') = false ∧
    (parseColumnStep 1 initialState ['a', 'b'] 0).1.align = 1 := by
  have h : wrapText unitMeasurer
      ⟨0, true, 1, 4, 1, some [['a', 'b']], none, none, none, none, none, none, none,
        none⟩ =
      [⟨[(⟨false, false, false, 0⟩, [['a'], ['b']])], 0, 1⟩] := by rfl
  have hmem : (⟨[(⟨false, false, false, 0⟩, [['a'], ['b']])], 0, 1⟩ : WrappedTextLine) ∈
      wrapText unitMeasurer
        ⟨0, true, 1, 4, 1, some [['a', 'b']], none, none, none, none, none, none, none,
          none⟩ := by
    rw [h]
    exact List.mem_singleton.mpr rfl
  exact ⟨hmem,
    c9_alignment.2.2 unitMeasurer
      ⟨0, true, 1, 4, 1, some [['a', 'b']], none, none, none, none, none, none, none, none⟩
      ⟨[(⟨false, false, false, 0⟩, [['a'], ['b']])], 0, 1⟩ hmem,
    by decide,
    c9_alignment.2.1 1 initialState ['a', 'b'] 0 (by decide) (by decide)⟩


/- ## C10: the quiet-zone flag is never true. -/

theorem applyTextProp_option (st : ParseState) (p : ParsedProperty) :
    (applyTextProp st p).option = st.option := by
  unfold applyTextProp
  rcases p.text with _ | v
  · rfl
  · dsimp only
    split <;> rfl

theorem applyBorderProp_option (st : ParseState) (p : ParsedProperty) :
    (applyBorderProp st p).1.option = st.option := by
  unfold applyBorderProp
  rcases p.border with _ | v
  · rfl
  · dsimp only
    split <;> rfl

theorem applyWidthProp_option (st : ParseState) (p : ParsedProperty) :
    (applyWidthProp st p).option = st.option := by
  unfold applyWidthProp
  rcases p.width with _ | v
  · rfl
  · dsimp only
    split <;> rfl

theorem applyAlignProp_option (st : ParseState) (p : ParsedProperty) :
    (applyAlignProp st p).option = st.option := by
  unfold applyAlignProp
  rcases p.align with _ | v
  · rfl
  · dsimp only
    split <;> rfl

/-- The option parser writes `quietZone := false` unconditionally, so the
flag stays false across the option property. -/
theorem applyOptionProp_qz (st : ParseState) (p : ParsedProperty)
    (h : st.option.quietZone = false) :
    (applyOptionProp st p).option.quietZone = false := by
  unfold applyOptionProp
  rcases p.option with _ | v
  · exact h
  · dsimp only
    split
    · rfl
    · exact h

/-- A code spec copies `state.option` verbatim. -/
theorem buildCode_opts (st : ParseState) (p : ParsedProperty) (cs : CodeSpec)
    (h : buildCode st p = some cs) : cs.opts = st.option := by
  unfold buildCode at h
  rcases hc : p.code with _ | v
  · rw [hc] at h
    simp at h
  · rw [hc] at h
    dsimp only at h
    split at h
    · simp only [Option.some.injEq] at h
      rw [← h]
    · simp at h

/-- One column step: from a state with a false quiet zone, the resulting
state's quiet zone is still false and any emitted code spec carries a false
quiet zone. -/
theorem parseColumnStep_qz (alen : ℕ) (st : ParseState) (c : List Char) (i : ℕ)
    (h : st.option.quietZone = false) :
    (parseColumnStep alen st c i).2.option.quietZone = false ∧
    ∀ cs : CodeSpec, (parseColumnStep alen st c i).1.code = some cs →
      cs.opts.quietZone = false := by
  have hq5 : ∀ p' : ParsedProperty, (applyOptionProp (applyAlignProp (applyWidthProp
      (applyBorderProp (applyTextProp st p') p').1 p') p') p').option.quietZone = false := by
    intro p'
    apply applyOptionProp_qz
    rw [applyAlignProp_option, applyWidthProp_option, applyBorderProp_option,
      applyTextProp_option]
    exact h
  simp only [parseColumnStep]
  by_cases h1 : isPropertyCol (trimSp c) = true
  · rw [if_pos h1]
    by_cases h2 : alen = 1
    · rw [if_pos h2]
      refine ⟨hq5 _, ?_⟩
      intro cs hcs
      have hb := buildCode_opts _ _ _ hcs
      rw [hb]
      exact hq5 _
    · rw [if_neg h2]
      refine ⟨h, ?_⟩
      intro cs hcs
      simp at hcs
  · rw [if_neg h1]
    by_cases h3 : hasBrace (trimSp c) = true
    · rw [if_pos h3]
      refine ⟨h, ?_⟩
      intro cs hcs
      simp at hcs
    · rw [if_neg h3]
      by_cases h4 : (decide (alen = 1) && isHrCol (trimSp c)) = true
      · rw [if_pos h4]
        refine ⟨h, ?_⟩
        intro cs hcs
        simp at hcs
      · rw [if_neg h4]
        refine ⟨h, ?_⟩
        intro cs hcs
        simp at hcs

theorem parseLineGo_qz (alen : ℕ) :
    ∀ (cols : List (List Char)) (i : ℕ) (st : ParseState),
    st.option.quietZone = false →
    (parseLineGo alen cols i st).2.option.quietZone = false ∧
    ∀ col ∈ (parseLineGo alen cols i st).1, ∀ cs : CodeSpec,
      col.code = some cs → cs.opts.quietZone = false := by
  intro cols
  induction cols with
  | nil => intro i st h; exact ⟨h, by simp [parseLineGo]⟩
  | cons c rest ih =>
    intro i st h
    obtain ⟨hstep2, hstep1⟩ := parseColumnStep_qz alen st c i h
    obtain ⟨hr2, hr1⟩ := ih (i + 1) (parseColumnStep alen st c i).2 hstep2
    simp only [parseLineGo]
    refine ⟨hr2, ?_⟩
    intro col hcol cs hcs
    rcases List.mem_cons.mp hcol with hc0 | hcr
    · exact hstep1 cs (hc0 ▸ hcs)
    · exact hr1 col hcr cs hcs

/-- The fill columns carry no code. -/
theorem padLine_code (st : ParseState) (line : List ParsedColumn) (col : ParsedColumn)
    (h : col ∈ padLine st line) : col ∈ line ∨ col.code = none := by
  unfold padLine at h
  split at h
  · rcases List.mem_append.mp h with h0 | hpad
    · exact Or.inl h0
    · obtain ⟨j, _, hj⟩ := List.mem_map.mp hpad
      right
      rw [← hj]
      rfl
  · exact Or.inl h

/-- A whole line: state and all columns, including the trailing fill
columns. -/
theorem parseLine_qz (l : List Char) (st : ParseState)
    (h : st.option.quietZone = false) :
    (parseLine l st).2.option.quietZone = false ∧
    ∀ col ∈ (parseLine l st).1, ∀ cs : CodeSpec,
      col.code = some cs → cs.opts.quietZone = false := by
  unfold parseLine
  constructor
  · exact (parseLineGo_qz _ _ _ _ h).1
  · intro col hcol cs hcs
    rcases padLine_code _ _ _ hcol with h0 | hnone
    · exact (parseLineGo_qz _ _ _ _ h).2 col h0 cs hcs
    · rw [hnone] at hcs
      simp at hcs

/-- The per-line parse fold of `transform`. -/
def parseDoc : List (List Char) → ParseState → List (List ParsedColumn) × ParseState
  | [], st => ([], st)
  | l :: rest, st =>
    let pr := parseLine l st
    let r := parseDoc rest pr.2
    (pr.1 :: r.1, r.2)

theorem parseDoc_qz :
    ∀ (lines : List (List Char)) (st : ParseState), st.option.quietZone = false →
    (parseDoc lines st).2.option.quietZone = false ∧
    ∀ cols ∈ (parseDoc lines st).1, ∀ col ∈ cols, ∀ cs : CodeSpec,
      col.code = some cs → cs.opts.quietZone = false := by
  intro lines
  induction lines with
  | nil => intro st h; exact ⟨h, by simp [parseDoc]⟩
  | cons l rest ih =>
    intro st h
    obtain ⟨hl2, hl1⟩ := parseLine_qz l st h
    obtain ⟨hr2, hr1⟩ := ih (parseLine l st).2 hl2
    simp only [parseDoc]
    refine ⟨hr2, ?_⟩
    intro cols hcols col hcol cs hcs
    rcases List.mem_cons.mp hcols with hc0 | hcr
    · exact hl1 col (hc0 ▸ hcol) cs hcs
    · exact hr1 cols hcr col hcol cs hcs

/-- **C10**.  Every barcode or QR spec constructed from a `code` property in
a document parsed from the transform's initial state has its quiet-zone
flag equal to `false`: the initial state sets it false, the `option`
property parser unconditionally resets it to false whatever the tokens
are, and code specs copy the state's option record. -/
theorem c10_quiet_zone (lines : List (List Char)) :
    ∀ cols ∈ (parseDoc lines initialState).1, ∀ col ∈ cols, ∀ cs : CodeSpec,
      col.code = some cs → cs.opts.quietZone = false :=
  (parseDoc_qz lines initialState rfl).2

/-- Witness for C10 at a concrete input: the document
`{option:qrcode hri 4,160,q}` followed by `{code:HELLO}` emits one code
spec, whose quiet zone is false. -/
theorem c10_witness :
    (((parseDoc ["{option:qrcode hri 4,160,q}".toList, "{code:HELLO}".toList]
          initialState).1.getD 1 []).headD defaultColumn).code =
      some ⟨"HELLO".toList,
        ⟨CodeType.qrcode, 4, 160, true, 4, 'q', false⟩⟩ ∧
    (⟨"HELLO".toList, ⟨CodeType.qrcode, 4, 160, true, 4, 'q', false⟩⟩ :
      CodeSpec).opts.quietZone = false := by
  constructor
  · decide
  · exact c10_quiet_zone ["{option:qrcode hri 4,160,q}".toList, "{code:HELLO}".toList]
      ((parseDoc ["{option:qrcode hri 4,160,q}".toList, "{code:HELLO}".toList]
          initialState).1.getD 1 []) (by decide)
      (((parseDoc ["{option:qrcode hri 4,160,q}".toList, "{code:HELLO}".toList]
          initialState).1.getD 1 []).headD defaultColumn) (by decide)
      ⟨"HELLO".toList, ⟨CodeType.qrcode, 4, 160, true, 4, 'q', false⟩⟩ (by decide)

end Receiptline
